import Mathlib

/-!
# Verification of the DataTable library (datatable.js)

A shallow embedding of the core of `datatable.js`: the scalar comparator,
the modified binary search with half-integer insertion points, the
multi-level sorted index structure with its bulk build, merge-add and
merge-remove operations, the structural validator `validateIndex`, the
table operations (`insert`, `update`, `remove`, `drop`, ...) and the
cost-based access-path selection of `getRows`.

Cell values are modelled by `JSVal`, covering the value kinds the claims
exercise: (integer-valued) numbers, `null` and `undefined`.  The JavaScript
abstract operations `==`, `===`, `<`, `>` are embedded faithfully on this
subset (ECMA-262 abstract equality and abstract relational comparison,
where `null` converts to the number 0 and `undefined` converts to NaN so
that every relational comparison involving `undefined` is false).

Row identity: in the source every canonical row carries a closure property
`$` that serves as its identity token and back-reference.  The embedding
gives each canonical row a numeric `id` standing for that closure; a
clone's back-reference is the same `id`.  Back-references are resolved by
looking the `id` up in the current row vector; a stale or duplicated
back-reference (whose canonical row was already removed) resolves to an
error in the embedding, where the JavaScript closure would silently yield
stale data.  All theorems below that rely on back-references carry
hypotheses keeping them inside the faithful domain (the referenced rows
are present and distinct).
-/

set_option maxHeartbeats 1000000

namespace DataTable

/-- Cell values: integer-valued numbers, `null` and `undefined`. -/
inductive JSVal : Type where
  | num  (n : Int)
  | null
  | undef
deriving DecidableEq, Repr

namespace JSVal

/-- `v == null` in JavaScript: true exactly for `null` and `undefined`. -/
def isAbsent : JSVal → Bool
  | null => true
  | undef => true
  | _ => false

/-- JavaScript loose equality `==` on the embedded value kinds:
`null == undefined` is true, a number is loosely equal only to the same
number, and a number is never loosely equal to `null` or `undefined`. -/
def jsEq : JSVal → JSVal → Bool
  | num a, num b => a == b
  | num _, _ => false
  | _, num _ => false
  | _, _ => true

/-- JavaScript strict equality `===` on the embedded value kinds. -/
def jsStrictEq : JSVal → JSVal → Bool
  | num a, num b => a == b
  | null, null => true
  | undef, undef => true
  | _, _ => false

/-- The ECMA-262 abstract relational comparison, as an `Option Ordering`:
`none` when a NaN is involved (any comparison with `undefined`), otherwise
the numeric ordering with `null` converting to 0. -/
def jsCompare : JSVal → JSVal → Option Ordering
  | undef, _ => none
  | _, undef => none
  | num a, num b => some (compare a b)
  | num a, null => some (compare a 0)
  | null, num b => some (compare 0 b)
  | null, null => some (compare (0:Int) 0)

/-- JavaScript `l < r`. -/
def jsLt (l r : JSVal) : Bool := jsCompare l r == some Ordering.lt

/-- JavaScript `l > r`. -/
def jsGt (l r : JSVal) : Bool := jsCompare r l == some Ordering.lt

/-- JavaScript `l <= r` (false when a NaN is involved). -/
def jsLe (l r : JSVal) : Bool :=
  match jsCompare r l with
  | some Ordering.lt => false
  | some _ => true
  | none => false

/-- JavaScript `l >= r` (false when a NaN is involved). -/
def jsGe (l r : JSVal) : Bool :=
  match jsCompare l r with
  | some Ordering.lt => false
  | some _ => true
  | none => false

end JSVal

open JSVal

/-- `DataTable.Comparator` (source line 651):
`function(l,r) { return l == r ? 0 : l == null || l > r ? 1 : -1; }` -/
def Comparator (l r : JSVal) : Int :=
  if jsEq l r then 0 else if isAbsent l || jsGt l r then 1 else -1

theorem Comparator_num_num (a b : Int) :
    Comparator (JSVal.num a) (JSVal.num b) =
      (if a = b then 0 else if a > b then 1 else -1) := by
  simp only [Comparator, jsEq, isAbsent, jsGt, jsCompare]
  rcases lt_trichotomy a b with h | h | h
  · have hne : ¬ a = b := ne_of_lt h
    have hc : compare b a = Ordering.gt := by
      simp [compare_gt_iff_gt, h]
    simp [hne, hc, not_lt_of_gt h, beq_iff_eq]
    rfl
  · simp [h]
  · have hne : ¬ a = b := ne_of_gt h
    have hc : compare b a = Ordering.lt := by
      simp [compare_lt_iff_lt, h]
    simp [hne, hc, h, beq_iff_eq]
    rfl

/-! ## Binary search (`DataTable.Index.prototype.binarySearch`, source lines 984–993)

The loop is embedded with an explicit fuel argument so that the definition
is structurally recursive (and hence computable by `decide`/`rfl`); the
entry point passes fuel `(uBound - lBound).toNat`, which the correctness
lemma shows is always sufficient because `r - l` strictly decreases on
every iteration.  `seq[m]` inside the loop is always in bounds for the
default bounds `lBound = -1`, `uBound = seq.length` used by every call
site; the `none` fall-back mirrors nothing reachable.  JavaScript's
`r + l >> 1` is floor halving; with the default bounds `r + l ≥ 0` always
holds, where floor and truncating division agree. -/

/-- JavaScript indexing `seq[i]`: `none` stands for `undefined`
(out of bounds); index entries themselves are always truthy objects. -/
def jsGetElem (seq : List α) (i : Int) : Option α :=
  if h : 0 ≤ i ∧ i.toNat < seq.length then some (seq.get ⟨i.toNat, h.2⟩) else none

/-- The comparison made in the body of the `while` loop:
`comparator(index[m], value)`; `m` is always in bounds for the default
search bounds, so the `none` fall-back is unreachable there. -/
def binarySearchProbe (seq : List α) (v : β) (cmp : α → β → Int) (m : Int) : Int :=
  match jsGetElem seq m with
  | some x => cmp x v
  | none => 0

/-- The `while (r - l > 1)` loop of `binarySearch`. -/
def binarySearchLoop (seq : List α) (v : β) (cmp : α → β → Int) :
    Nat → Int → Int → Int
  | 0, _, r => r
  | Nat.succ fuel, l, r =>
    if r - l > 1 then
      if binarySearchProbe seq v cmp (Int.fdiv (r + l) 2) < 0 then
        binarySearchLoop seq v cmp fuel (Int.fdiv (r + l) 2) r
      else binarySearchLoop seq v cmp fuel l (Int.fdiv (r + l) 2)
    else r

/-- JavaScript truthiness of a scalar value: the number 0 is falsy, every
other number is truthy, and `null`/`undefined` are falsy. -/
def jsTruthy : JSVal → Bool
  | JSVal.num n => decide (n ≠ 0)
  | JSVal.null => false
  | JSVal.undef => false

/-- `var result = index[r] && comparator(index[r], value) == 0 ? r : r - 0.5;`

The ternary's condition is the JavaScript `&&`: it first tests `index[r]`
for truthiness (short-circuiting to the falsy `index[r]` itself when that
test fails, which makes the whole condition falsy), and only then compares.
The embedding takes the element type's truthiness test as a parameter:
`jsTruthy` for scalar sequences, and the constantly-true test for
sequences of index entries, which are objects and hence always truthy. -/
def binarySearchRawResult (truthy : α → Bool) (seq : List α) (v : β)
    (cmp : α → β → Int) (r : Int) : Rat :=
  match jsGetElem seq r with
  | some x => if truthy x = true ∧ cmp x v = 0 then (r : Rat) else (r : Rat) - 1/2
  | none => (r : Rat) - 1/2

/-- `return result < 0 ? -1 : result > uBound - 1 ? uBound : result;` -/
def binarySearchClamp (uBound : Int) (result : Rat) : Rat :=
  if result < 0 then -1
  else if result > (uBound : Rat) - 1 then (uBound : Rat)
  else result

/-- `DataTable.Index.prototype.binarySearch` with the default bounds
`lBound = -1`, `uBound = seq.length` (the bounds used by every call in
the source).  Returns a JavaScript number: an integer index on an exact
match, otherwise the half-integer `r - 0.5`, clamped to `[-1, uBound]`. -/
def binarySearch (truthy : α → Bool) (seq : List α) (v : β) (cmp : α → β → Int) : Rat :=
  binarySearchClamp (seq.length : Int)
    (binarySearchRawResult truthy seq v cmp
      (binarySearchLoop seq v cmp ((seq.length : Int) - (-1)).toNat (-1) (seq.length : Int)))

theorem binarySearchLoop_eq (seq : List α) (v : β) (cmp : α → β → Int)
    (k : Nat) (hk : k ≤ seq.length)
    (hlt : ∀ (i : Nat) (h : i < seq.length), cmp (seq.get ⟨i, h⟩) v < 0 ↔ i < k) :
    ∀ (fuel : Nat) (l r : Int), -1 ≤ l → r ≤ (seq.length : Int) → l < r →
    r - l ≤ (fuel : Int) + 1 → l < (k : Int) → (k : Int) ≤ r →
    binarySearchLoop seq v cmp fuel l r = k := by
  intro fuel
  induction fuel with
  | zero =>
    intro l r hl hr hlr hfuel hlk hkr
    simp only [binarySearchLoop]
    omega
  | succ fuel ih =>
    intro l r hl hr hlr hfuel hlk hkr
    simp only [binarySearchLoop]
    by_cases hgap : r - l > 1
    · simp only [if_pos hgap]
      have hsum : 0 ≤ r + l := by omega
      obtain ⟨s, hs⟩ := Int.eq_ofNat_of_zero_le hsum
      have hmval : Int.fdiv (r + l) 2 = ((s / 2 : Nat) : Int) := by
        rw [hs]
        exact (Int.ofNat_fdiv s 2).symm
      have hm1 : l < Int.fdiv (r + l) 2 := by
        rw [hmval]
        omega
      have hm2 : Int.fdiv (r + l) 2 < r := by
        rw [hmval]
        omega
      set m := Int.fdiv (r + l) 2 with hm
      have hm0 : 0 ≤ m := by omega
      have hmlen : m.toNat < seq.length := by omega
      have hprobe : binarySearchProbe seq v cmp m = cmp (seq.get ⟨m.toNat, hmlen⟩) v := by
        unfold binarySearchProbe jsGetElem
        rw [dif_pos ⟨hm0, hmlen⟩]
      rw [hprobe]
      by_cases hc : cmp (seq.get ⟨m.toNat, hmlen⟩) v < 0
      · simp only [if_pos hc]
        have hmk : m.toNat < k := (hlt m.toNat hmlen).mp hc
        exact ih m r (by omega) hr hm2 (by omega) (by omega) hkr
      · simp only [if_neg hc]
        have hmk : ¬ m.toNat < k := fun hcon => hc ((hlt m.toNat hmlen).mpr hcon)
        exact ih l m hl (by omega) hm1 (by omega) hlk (by omega)
    · simp only [if_neg hgap]
      omega

/-- Characterisation of `binarySearch` under the cut-point hypothesis:
`k` is the number of leading elements comparing below `v`.  The result is
`k` itself on a truthy exact match at `k`, and otherwise the insertion
point `k - 0.5` clamped to `[-1, seq.length]`. -/
theorem binarySearch_spec (truthy : α → Bool) (seq : List α) (v : β) (cmp : α → β → Int)
    (k : Nat) (hk : k ≤ seq.length)
    (hlt : ∀ (i : Nat) (h : i < seq.length), cmp (seq.get ⟨i, h⟩) v < 0 ↔ i < k) :
    binarySearch truthy seq v cmp =
      if h : ∃ hh : k < seq.length,
          truthy (seq.get ⟨k, hh⟩) = true ∧ cmp (seq.get ⟨k, hh⟩) v = 0 then (k : Rat)
      else if k = 0 then -1
      else if k = seq.length then (seq.length : Rat)
      else (k : Rat) - 1/2 := by
  have hloop : binarySearchLoop seq v cmp ((seq.length : Int) - (-1)).toNat (-1)
      (seq.length : Int) = k := by
    rcases Nat.eq_zero_or_pos seq.length with hlen | hlen
    · have hk0 : k = 0 := by omega
      subst hk0
      simp only [hlen, binarySearchLoop]
      norm_num
    · exact binarySearchLoop_eq seq v cmp k hk hlt _ (-1) (seq.length : Int)
        (by omega) (by omega) (by omega) (by omega) (by omega) (by omega)
  have hcastRat : (((k : Int) : Rat)) = (k : Rat) := by push_cast; ring
  unfold binarySearch
  rw [hloop]
  by_cases hklen : k < seq.length
  · have hget : jsGetElem seq (k : Int) = some (seq.get ⟨k, hklen⟩) := by
      have hpos : (0:Int) ≤ (k : Int) ∧ ((k : Int)).toNat < seq.length := by
        refine ⟨Int.ofNat_nonneg k, by simpa using hklen⟩
      unfold jsGetElem
      rw [dif_pos hpos]
      rfl
    have hcast1 : (k : Rat) + 1 ≤ (seq.length : Rat) := by exact_mod_cast hklen
    have h0 : ¬ ((k : Rat) < 0) := by
      simp only [not_lt]
      positivity
    by_cases hc : truthy (seq.get ⟨k, hklen⟩) = true ∧ cmp (seq.get ⟨k, hklen⟩) v = 0
    · have hex : ∃ hh : k < seq.length,
          truthy (seq.get ⟨k, hh⟩) = true ∧ cmp (seq.get ⟨k, hh⟩) v = 0 := ⟨hklen, hc⟩
      rw [dif_pos hex]
      have hraw : binarySearchRawResult truthy seq v cmp (k : Int) = (k : Rat) := by
        simp only [binarySearchRawResult, hget, if_pos hc, hcastRat]
      rw [hraw]
      unfold binarySearchClamp
      rw [if_neg h0, if_neg (by push_cast; simp only [not_lt, gt_iff_lt]; linarith)]
    · have hex : ¬ ∃ hh : k < seq.length,
          truthy (seq.get ⟨k, hh⟩) = true ∧ cmp (seq.get ⟨k, hh⟩) v = 0 := by
        rintro ⟨hh, hcc⟩
        exact hc hcc
      rw [dif_neg hex]
      have hraw : binarySearchRawResult truthy seq v cmp (k : Int) = (k : Rat) - 1/2 := by
        simp only [binarySearchRawResult, hget, if_neg hc, hcastRat]
      rw [hraw]
      unfold binarySearchClamp
      by_cases hk0 : k = 0
      · subst hk0
        rw [if_pos (by norm_num)]
        simp
      · have h1k : (1 : Rat) ≤ (k : Rat) := by
          exact_mod_cast Nat.one_le_iff_ne_zero.mpr hk0
        rw [if_neg (by linarith), if_neg (by push_cast; simp only [not_lt, gt_iff_lt]; linarith),
          if_neg hk0, if_neg (by omega : ¬ k = seq.length)]
  · have hkeq : k = seq.length := by omega
    have hget : jsGetElem seq (k : Int) = none := by
      unfold jsGetElem
      rw [dif_neg]
      intro hcon
      have := hcon.2
      omega
    rw [dif_neg (by simp [hklen] : ¬ ∃ hh : k < seq.length,
      truthy (seq.get ⟨k, hh⟩) = true ∧ cmp (seq.get ⟨k, hh⟩) v = 0)]
    have hraw : binarySearchRawResult truthy seq v cmp (k : Int) = (k : Rat) - 1/2 := by
      simp only [binarySearchRawResult, hget, hcastRat]
    rw [hraw]
    unfold binarySearchClamp
    by_cases hk0 : k = 0
    · subst hk0
      rw [if_pos (by norm_num)]
      simp
    · have h1k : (1 : Rat) ≤ (k : Rat) := by
        exact_mod_cast Nat.one_le_iff_ne_zero.mpr hk0
      have hlenk : (k : Rat) = (seq.length : Rat) := by exact_mod_cast hkeq
      rw [if_neg (by linarith), if_pos (by push_cast; rw [hlenk]; norm_num), if_neg hk0,
        if_pos hkeq]
      push_cast
      ring

/-- In a strictly sorted integer list, an element is below `x` exactly when
its position is below the number of elements below `x`. -/
theorem get_lt_iff_lt_countP (xs : List Int) (hs : xs.Pairwise (· < ·)) (x : Int) :
    ∀ (i : Nat) (h : i < xs.length),
      (xs.get ⟨i, h⟩ < x ↔ i < xs.countP (fun a => decide (a < x))) := by
  induction xs with
  | nil => intro i h; simp at h
  | cons y t ih =>
    rw [List.pairwise_cons] at hs
    obtain ⟨hy, ht⟩ := hs
    intro i h
    by_cases hyx : y < x
    · have hcc : (y :: t).countP (fun a => decide (a < x)) =
          t.countP (fun a => decide (a < x)) + 1 := by
        rw [List.countP_cons]
        simp [hyx]
      rw [hcc]
      cases i with
      | zero =>
        simp only [List.get]
        exact ⟨fun _ => Nat.succ_pos _, fun _ => hyx⟩
      | succ j =>
        simp only [List.get]
        rw [ih ht j (by simpa using h)]
        omega
    · have htc : t.countP (fun a => decide (a < x)) = 0 := by
        rw [List.countP_eq_zero]
        intro b hb
        simp only [decide_eq_true_eq]
        have := hy b hb
        omega
      have hcc : (y :: t).countP (fun a => decide (a < x)) = 0 := by
        rw [List.countP_cons]
        simp [htc, hyx]
      rw [hcc]
      cases i with
      | zero =>
        simp only [List.get]
        exact ⟨fun hcon => absurd hcon hyx, fun hcon => absurd hcon (by omega)⟩
      | succ j =>
        simp only [List.get]
        constructor
        · intro hcon
          have hgt := hy _ (t.get_mem j (by simpa using h))
          omega
        · intro hcon
          omega

/-- In a strictly sorted integer list containing `x`, the number of elements
below `x` is the position of `x`. -/
theorem countP_lt_eq_indexOf (xs : List Int) (hs : xs.Pairwise (· < ·)) (x : Int)
    (hmem : x ∈ xs) : xs.countP (fun a => decide (a < x)) = xs.indexOf x := by
  induction xs with
  | nil => simp at hmem
  | cons y t ih =>
    rw [List.pairwise_cons] at hs
    obtain ⟨hy, ht⟩ := hs
    by_cases hxy : y = x
    · subst hxy
      have htc : t.countP (fun a => decide (a < y)) = 0 := by
        rw [List.countP_eq_zero]
        intro b hb
        simp only [decide_eq_true_eq]
        have := hy b hb
        omega
      rw [List.countP_cons, List.indexOf_cons_self]
      simp [htc]
    · have hmem2 : x ∈ t := by
        rcases List.mem_cons.mp hmem with hcase | hcase
        · exact absurd hcase.symm hxy
        · exact hcase
      have hyx : y < x := hy x hmem2
      rw [List.countP_cons, List.indexOf_cons_ne t hxy, ih ht hmem2]
      simp [hyx]

/-- **C5 (amended).** For a sequence strictly sorted ascending under the
comparator (instantiated with the library's `DataTable.Comparator` over
numeric values, the comparator every index uses) and the default bounds
`lBound = -1`, `uBound = seq.length`, `binarySearch` returns the integer
index of `value` when a *truthy* element comparing equal to it exists,
and otherwise the half-integer insertion point `r - 0.5`, clamped to the
interval `[-1, uBound]` (so `-0.5` becomes `-1` and `length - 0.5`
becomes `length`).  The truthiness proviso is forced by the source's
`index[r] && …` test: a falsy element — for numeric sequences, the
number 0 — is sent down the insertion-point branch even when it compares
equal to `value` (see the counterexample below), so the original claim's
unconditional "returns the index `r` when `seq[r]` exists and compares
equal" is false of the program. -/
theorem binarySearch_sorted_characterisation (xs : List Int) (x : Int)
    (hs : xs.Pairwise (· < ·)) :
    binarySearch jsTruthy (xs.map JSVal.num) (JSVal.num x) Comparator =
      if x ∈ xs ∧ x ≠ 0 then ((xs.indexOf x : Nat) : Rat)
      else if xs.countP (fun a => decide (a < x)) = 0 then -1
      else if xs.countP (fun a => decide (a < x)) = xs.length then (xs.length : Rat)
      else ((xs.countP (fun a => decide (a < x)) : Nat) : Rat) - 1/2 := by
  set k := xs.countP (fun a => decide (a < x)) with hkdef
  have hk : k ≤ xs.length := by
    rw [hkdef]
    exact xs.countP_le_length _
  have hmaplen : (xs.map JSVal.num).length = xs.length := by simp
  have hlt : ∀ (i : Nat) (h : i < (xs.map JSVal.num).length),
      Comparator ((xs.map JSVal.num).get ⟨i, h⟩) (JSVal.num x) < 0 ↔ i < k := by
    intro i h
    have hi : i < xs.length := by simpa using h
    have hget : (xs.map JSVal.num).get ⟨i, h⟩ = JSVal.num (xs.get ⟨i, hi⟩) := by
      simp
    rw [hget, Comparator_num_num]
    rw [hkdef]
    rw [← get_lt_iff_lt_countP xs hs x i hi]
    rcases lt_trichotomy (xs.get ⟨i, hi⟩) x with hcase | hcase | hcase
    · rw [if_neg (ne_of_lt hcase), if_neg (lt_asymm hcase)]
      norm_num [hcase]
      exact hcase
    · rw [if_pos hcase]
      simp [hcase]
      exact le_of_eq hcase.symm
    · rw [if_neg (ne_of_gt hcase), if_pos hcase]
      simp [lt_asymm hcase]
      exact le_of_lt hcase
  have hspec := binarySearch_spec jsTruthy (xs.map JSVal.num) (JSVal.num x) Comparator k
    (by omega) hlt
  rw [hspec]
  by_cases hmem : x ∈ xs ∧ x ≠ 0
  · have hxmem := hmem.1
    have hxne := hmem.2
    have hidx := countP_lt_eq_indexOf xs hs x hxmem
    have hklen : k < xs.length := by
      rw [hkdef, hidx]
      exact List.indexOf_lt_length.mpr hxmem
    have hgetk : xs.get ⟨k, hklen⟩ = x := by
      have h1 : ¬ (xs.get ⟨k, hklen⟩ < x) := by
        rw [get_lt_iff_lt_countP xs hs x k hklen]
        omega
      have h2 : ¬ (x < xs.get ⟨k, hklen⟩) := by
        intro hcon
        obtain ⟨j, hgj⟩ := List.mem_iff_get.mp hxmem
        rcases lt_trichotomy (j : Nat) k with hc | hc | hc
        · have : xs.get j < x := by
            rw [get_lt_iff_lt_countP xs hs x j j.isLt]
            exact hc
          omega
        · have : xs.get j = xs.get ⟨k, hklen⟩ := by
            congr 1
            exact Fin.ext hc
          rw [this] at hgj
          omega
        · have hjlt : ¬ (xs.get j < x) := by
            rw [get_lt_iff_lt_countP xs hs x j j.isLt]
            omega
          have hles : xs.get ⟨k, hklen⟩ < xs.get j := by
            exact List.pairwise_iff_get.mp hs ⟨k, hklen⟩ j hc
          omega
      omega
    have hex : ∃ hh : k < (xs.map JSVal.num).length,
        jsTruthy ((xs.map JSVal.num).get ⟨k, hh⟩) = true ∧
        Comparator ((xs.map JSVal.num).get ⟨k, hh⟩) (JSVal.num x) = 0 := by
      have hkk : k < (xs.map JSVal.num).length := by simpa using hklen
      have hgg : (xs.map JSVal.num).get ⟨k, hkk⟩ = JSVal.num (xs.get ⟨k, hklen⟩) := by
        simp
      refine ⟨hkk, ?_, ?_⟩
      · rw [hgg, hgetk]
        simp [jsTruthy, hxne]
      · rw [hgg, hgetk, Comparator_num_num]
        simp
    rw [dif_pos hex, if_pos hmem, hkdef, hidx]
  · have hex : ¬ ∃ hh : k < (xs.map JSVal.num).length,
        jsTruthy ((xs.map JSVal.num).get ⟨k, hh⟩) = true ∧
        Comparator ((xs.map JSVal.num).get ⟨k, hh⟩) (JSVal.num x) = 0 := by
      rintro ⟨hh, htr, hcc⟩
      have hklen : k < xs.length := by simpa using hh
      have hgg : (xs.map JSVal.num).get ⟨k, hh⟩ = JSVal.num (xs.get ⟨k, hklen⟩) := by
        simp
      rw [hgg, Comparator_num_num] at hcc
      rw [hgg] at htr
      have hgetx : xs.get ⟨k, hklen⟩ = x := by
        by_cases hceq : xs.get ⟨k, hklen⟩ = x
        · exact hceq
        · rw [if_neg hceq] at hcc
          by_cases hcgt : xs.get ⟨k, hklen⟩ > x
          · rw [if_pos hcgt] at hcc
            omega
          · rw [if_neg hcgt] at hcc
            omega
      have hxne : x ≠ 0 := by
        simp only [jsTruthy, decide_eq_true_eq] at htr
        rw [hgetx] at htr
        exact htr
      exact hmem ⟨hgetx ▸ xs.get_mem _ _, hxne⟩
    rw [dif_neg hex, if_neg hmem, hmaplen]

/-- Witness for C5 at the concrete inputs `seq = [1, 3, 5]` (strictly
sorted), probing the present value 3 (exact match at index 1) and the
absent value 4 (insertion point 1.5). -/
theorem binarySearch_sorted_characterisation_witness :
    binarySearch jsTruthy ([1, 3, 5].map JSVal.num) (JSVal.num 3) Comparator = 1 ∧
    binarySearch jsTruthy ([1, 3, 5].map JSVal.num) (JSVal.num 4) Comparator = 3/2 := by
  constructor
  · have h := binarySearch_sorted_characterisation [1, 3, 5] 3 (by decide)
    rw [h]
    norm_num [List.indexOf_cons, List.countP_cons]
  · have h := binarySearch_sorted_characterisation [1, 3, 5] 4 (by decide)
    rw [h]
    norm_num [List.indexOf_cons, List.countP_cons]

/-- **C5 counterexample.** In the strictly sorted singleton sequence
`[0]`, the value 0 is present at index 0 and the comparator says they are
equal, yet `binarySearch` returns −1, not the claimed index 0: the number
0 fails the `index[r] &&` truthiness test, so the code takes the
`r - 0.5` branch and the final clamp turns `-0.5` into `-1`. -/
theorem binarySearch_falsy_zero_counterexample :
    (0 : Int) ∈ [(0 : Int)] ∧
    Comparator (JSVal.num 0) (JSVal.num 0) = 0 ∧
    binarySearch jsTruthy ([(0 : Int)].map JSVal.num) (JSVal.num 0) Comparator = -1 := by
  refine ⟨by decide, by decide, ?_⟩
  norm_num [binarySearch, binarySearchLoop, binarySearchProbe, binarySearchRawResult,
    binarySearchClamp, jsGetElem, jsTruthy, Comparator, jsEq, isAbsent, jsGt, jsCompare]

/-! ## The scalar comparator and absent values (claim C2)

The claim (and the function's own documentation: "Null/undefined values
are pushed to the end of the sorted collection") requires
`Comparator(l, r) = -1` whenever `l` is defined and `r` is absent.  The
code disagrees: with `r = null` the JavaScript relational comparison
`l > r` converts `null` to 0, so any positive number on the left yields
`+1`.  Both orientations of the pair `(5, null)` return `+1`, so the
comparator is not even antisymmetric there. -/

/-- **C2 failing input.** `Comparator(5, null)` returns `+1`, not `-1` as
the claim requires for a defined left and an absent right value; moreover
`Comparator(null, 5)` also returns `+1`, so the two orders contradict
each other. -/
theorem comparator_defined_left_null_right :
    Comparator (JSVal.num 5) JSVal.null = 1 ∧
    Comparator JSVal.null (JSVal.num 5) = 1 := by
  constructor
  · rfl
  · rfl

/-! ## Criteria, the single-row cost and the access-path selection
(claim C4; source lines 287–295 and 514–535)

`findWhere(...).getRows()` seeds the `<table scan>` plan with cost
`rows.length * calculateSingleRowCriteriaCost(criteria)` and folds over
the indexes with `(bestCase.cost > thisCase.cost) ? thisCase : bestCase`,
so an index plan replaces the incumbent only on a strictly lower cost.
The per-index `computeCost` result enters this fold only through its
`cost` field, so the selection theorems quantify over an arbitrary list of
index plans. -/

/-- A criterion operand: a scalar for the comparison operators, a
`DataTable.Range` for `between` (the `Range` constructor stores `start`
and `end` and never sets the `exclusive` flag), or the array of values
for `in` (the only operand shape for which the source's
`c.value.length - 1` cost is a number). -/
inductive CritValue : Type where
  | scalar (v : JSVal)
  | range (start stop : JSVal)
  | values (vs : List JSVal)
deriving DecidableEq, Repr

/-- One `(column, operator, value)` predicate as accumulated by
`findWhere` / `and`. -/
structure Criterion : Type where
  columnName : String
  operator : String
  value : CritValue
deriving DecidableEq, Repr

/-- `calculateSingleRowCriteriaCost` (source lines 287–295):
`criteria.inject(criteria.length, ...)` adding one extra for `between`
and `value.length - 1` extras for `in`. -/
def calculateSingleRowCriteriaCost (criteria : List Criterion) : Int :=
  criteria.foldl
    (fun cost c =>
      match c.operator with
      | "between" => cost + 1
      | "in" =>
        cost + (match c.value with
          | CritValue.values vs => (vs.length : Int)
          | _ => 1) - 1
      | _ => cost)
    (criteria.length : Int)

/-- The part of a `computeCost` descriptor that the access-path selection
in `getRows` inspects: the estimated cost and the human-readable
signature. -/
structure AccessPlan : Type where
  cost : Rat
  indexSignature : String
deriving DecidableEq, Repr

/-- The `worstCase` descriptor seeded by `getRows` (source lines 516–521):
a full scan with cost `rows.length * calculateSingleRowCriteriaCost`. -/
def worstCasePlan (rowCount : Nat) (criteria : List Criterion) : AccessPlan :=
  { cost := (rowCount : Rat) * ((calculateSingleRowCriteriaCost criteria : Int) : Rat),
    indexSignature := "<table scan>" }

/-- The selection fold of `getRows` (source lines 529–533):
`inject(worstCase, (bestCase, index) => bestCase.cost > thisCase.cost ?
thisCase : bestCase)`. -/
def selectBestCase (worstCase : AccessPlan) (indexCases : List AccessPlan) : AccessPlan :=
  indexCases.foldl
    (fun bestCase thisCase =>
      if bestCase.cost > thisCase.cost then thisCase else bestCase)
    worstCase

theorem selectBestCase_cost_le (worstCase : AccessPlan) :
    ∀ indexCases : List AccessPlan,
      (selectBestCase worstCase indexCases).cost ≤ worstCase.cost := by
  suffices h : ∀ (cs : List AccessPlan) (w : AccessPlan),
      (selectBestCase w cs).cost ≤ w.cost by
    intro cs
    exact h cs worstCase
  intro cs
  induction cs with
  | nil => intro w; exact le_refl _
  | cons c cs ih =>
    intro w
    simp only [selectBestCase, List.foldl_cons]
    by_cases hcase : w.cost > c.cost
    · rw [if_pos hcase]
      exact le_trans (ih c) (le_of_lt hcase)
    · rw [if_neg hcase]
      exact ih w

theorem selectBestCase_cost_le_of_mem (worstCase : AccessPlan) :
    ∀ (indexCases : List AccessPlan), ∀ c ∈ indexCases,
      (selectBestCase worstCase indexCases).cost ≤ c.cost := by
  suffices h : ∀ (cs : List AccessPlan) (w : AccessPlan), ∀ c ∈ cs,
      (selectBestCase w cs).cost ≤ c.cost by
    intro cs
    exact h cs worstCase
  intro cs
  induction cs with
  | nil => intro w c hc; simp at hc
  | cons c0 cs ih =>
    intro w c hc
    simp only [selectBestCase, List.foldl_cons]
    rcases List.mem_cons.mp hc with hcase | hcase
    · subst hcase
      by_cases hcmp : w.cost > c.cost
      · rw [if_pos hcmp]
        exact selectBestCase_cost_le c cs
      · rw [if_neg hcmp]
        exact le_trans (selectBestCase_cost_le w cs) (not_lt.mp hcmp)
    · by_cases hcmp : w.cost > c0.cost
      · rw [if_pos hcmp]
        exact ih c0 c hcase
      · rw [if_neg hcmp]
        exact ih w c hcase

/-- The selected plan is the earliest-seeded one of minimal cost: it is
either the seed itself, or an index plan strictly cheaper than the seed
and than every index plan listed before it. -/
theorem selectBestCase_earliest (worstCase : AccessPlan) :
    ∀ indexCases : List AccessPlan,
      selectBestCase worstCase indexCases = worstCase ∨
      ∃ cs₁ c cs₂, indexCases = cs₁ ++ c :: cs₂ ∧
        selectBestCase worstCase indexCases = c ∧
        c.cost < worstCase.cost ∧ ∀ p ∈ cs₁, c.cost < p.cost := by
  suffices h : ∀ (cs : List AccessPlan) (w : AccessPlan),
      selectBestCase w cs = w ∨
      ∃ cs₁ c cs₂, cs = cs₁ ++ c :: cs₂ ∧ selectBestCase w cs = c ∧
        c.cost < w.cost ∧ ∀ p ∈ cs₁, c.cost < p.cost by
    intro cs
    exact h cs worstCase
  intro cs
  induction cs with
  | nil => intro w; exact Or.inl rfl
  | cons c0 cs ih =>
    intro w
    have hunfold : selectBestCase w (c0 :: cs) =
        selectBestCase (if w.cost > c0.cost then c0 else w) cs := by
      simp only [selectBestCase, List.foldl_cons]
    by_cases hcmp : w.cost > c0.cost
    · rw [hunfold, if_pos hcmp]
      rcases ih c0 with hres | ⟨cs₁, c, cs₂, hsplit, hres, hlt, hearlier⟩
      · refine Or.inr ⟨[], c0, cs, rfl, hres, hcmp, ?_⟩
        intro p hp
        simp at hp
      · refine Or.inr ⟨c0 :: cs₁, c, cs₂, by rw [hsplit]; rfl, hres, lt_trans hlt hcmp, ?_⟩
        intro p hp
        rcases List.mem_cons.mp hp with hcase | hcase
        · subst hcase
          exact hlt
        · exact hearlier p hcase
    · rw [hunfold, if_neg hcmp]
      rcases ih w with hres | ⟨cs₁, c, cs₂, hsplit, hres, hlt, hearlier⟩
      · exact Or.inl hres
      · refine Or.inr ⟨c0 :: cs₁, c, cs₂, by rw [hsplit]; rfl, hres, hlt, ?_⟩
        intro p hp
        rcases List.mem_cons.mp hp with hcase | hcase
        · subst hcase
          exact lt_of_lt_of_le hlt (not_lt.mp hcmp)
        · exact hearlier p hcase

/-- **C4.** For every row count, criteria list and list of per-index cost
descriptors, the plan selected by `getRows` never costs more than the
full-scan baseline `rows.length · Σ singleRowCost(criteria)`; it costs no
more than any index plan; and on ties the earlier-seeded candidate is
kept: the selected plan is the baseline itself unless some index plan is
strictly cheaper than the baseline and than every index plan seeded
before it. -/
theorem getRows_plan_selection (rowCount : Nat) (criteria : List Criterion)
    (indexCases : List AccessPlan) :
    (selectBestCase (worstCasePlan rowCount criteria) indexCases).cost ≤
      (rowCount : Rat) * ((calculateSingleRowCriteriaCost criteria : Int) : Rat) ∧
    (∀ c ∈ indexCases,
      (selectBestCase (worstCasePlan rowCount criteria) indexCases).cost ≤ c.cost) ∧
    (selectBestCase (worstCasePlan rowCount criteria) indexCases =
        worstCasePlan rowCount criteria ∨
      ∃ cs₁ c cs₂, indexCases = cs₁ ++ c :: cs₂ ∧
        selectBestCase (worstCasePlan rowCount criteria) indexCases = c ∧
        c.cost < (worstCasePlan rowCount criteria).cost ∧
        ∀ p ∈ cs₁, c.cost < p.cost) :=
  ⟨selectBestCase_cost_le (worstCasePlan rowCount criteria) indexCases,
   selectBestCase_cost_le_of_mem (worstCasePlan rowCount criteria) indexCases,
   selectBestCase_earliest (worstCasePlan rowCount criteria) indexCases⟩

/-! ## Rows, index entries and table state

A canonical row's `$` closure is modelled by a numeric `id`; the data
properties are an association list (a missing property reads as
`undefined`, as in JavaScript).  A caller-side row object (`InputRow`)
optionally carries a back-reference `{tableTag, rowId}` standing for the
`$` closure it shares with its canonical row. -/

/-- A canonical data row. -/
structure Row : Type where
  id : Nat
  data : List (String × JSVal)
deriving DecidableEq, Repr

/-- JavaScript property read `obj[c]` on a row-like object. -/
def rowGet (data : List (String × JSVal)) (c : String) : JSVal :=
  match data.find? (fun p => p.1 == c) with
  | some p => p.2
  | none => JSVal.undef

/-- The cell value of a row in a column. -/
def Row.get (r : Row) (c : String) : JSVal := rowGet r.data c

/-- The identity carried by a `$` closure: which table it belongs to and
which canonical row it locates. -/
structure BackRef : Type where
  tableTag : Nat
  rowId : Nat
deriving DecidableEq, Repr

/-- A row object as seen from a caller: data properties plus the optional
`$` back-reference. -/
structure InputRow : Type where
  backref : Option BackRef
  data : List (String × JSVal)
deriving DecidableEq, Repr

/-- One index entry `{value, size, subtotal, data}`.  `data` is the list
of rows at the leaf level and a nested entry sequence (which in the
source carries its own `total` property) otherwise.  `size` and
`subtotal` are JavaScript numbers and may in principle go negative, so
they are integers. -/
inductive Entry : Type where
  | leaf (value : JSVal) (size subtotal : Int) (rows : List Row)
  | node (value : JSVal) (size subtotal : Int) (entries : List Entry) (total : Int)

namespace Entry

def value : Entry → JSVal
  | leaf v _ _ _ => v
  | node v _ _ _ _ => v

def size : Entry → Int
  | leaf _ s _ _ => s
  | node _ s _ _ _ => s

def subtotal : Entry → Int
  | leaf _ _ st _ => st
  | node _ _ st _ _ => st

/-- The length of the entry's `data` array (rows at a leaf, nested
entries at a node). -/
def dataLength : Entry → Nat
  | leaf _ _ _ rs => rs.length
  | node _ _ _ es _ => es.length

/-- Replace the subtotal, keeping everything else. -/
def withSubtotal : Entry → Int → Entry
  | leaf v s _ rs, st => leaf v s st rs
  | node v s _ es t, st => node v s st es t

end Entry

/-- One index of a table: the ordered column list and the top-level entry
sequence with its `total`. -/
structure IndexState : Type where
  columns : List String
  entries : List Entry
  total : Int

/-- The whole table: fixed column list, canonical row vector, indexes,
mode flags, the live/dropped state and the id generator for rows. -/
structure TableState : Type where
  columnNames : List String
  rows : List Row
  indicies : List IndexState
  paranoia : Bool
  verbose : Bool
  active : Bool
  nextId : Nat
  tableTag : Nat

/-! ## Sorting with a JavaScript comparator

`Array.prototype.sort` with a user comparator is stable (ES2019); the
embedding uses a stable insertion sort.  `undefined` elements are moved
to the end of the array without consulting the comparator (ECMA-262
SortCompare), which matters because `insert` hands `rowsAdded` an array
with `undefined` holes for the skipped rows. -/

/-- Insert `x` into `l`, after every element comparing strictly below it
and before the rest (stability: an element equal under the comparator to
`x` but originally after it stays after it). -/
def jsSortInsert (cmp : α → α → Int) (x : α) : List α → List α
  | [] => [x]
  | y :: ys => if cmp y x < 0 then y :: jsSortInsert cmp x ys else x :: y :: ys

/-- Stable sort by a JavaScript comparator. -/
def jsSort (cmp : α → α → Int) (l : List α) : List α :=
  l.foldr (jsSortInsert cmp) []

/-- `Array.prototype.sort` on an array with `undefined` holes: the
defined elements are sorted stably by the comparator, the holes all move
to the end. -/
def jsSortWithHoles (cmp : α → α → Int) (l : List (Option α)) : List (Option α) :=
  ((jsSort cmp (l.filterMap id)).map some) ++
    List.replicate (l.countP (fun o => o.isNone)) none

/-! ## Index bulk build (`DataTable.Index.prototype.buildIndex`,
source lines 999–1047)

`buildShallowIndex` sorts the rows by the column's comparator and groups
runs of strictly-equal (`===`) adjacent key values into entries, keeping
a running inclusive `subtotal`; the level's `total` is the last entry's
subtotal.  `buildIndex` then recursively rebuilds each entry's row list
into a sub-index over the remaining columns. -/

/-- Group maximal runs of adjacent rows with strictly-equal (`===`)
values in the given column. -/
def groupRunsBy (keyEq : Row → Row → Bool) : List Row → List (List Row)
  | [] => []
  | x :: xs =>
    match groupRunsBy keyEq xs with
    | [] => [[x]]
    | [] :: gs => [x] :: gs
    | (y :: g) :: gs =>
      if keyEq x y then (x :: y :: g) :: gs else [x] :: (y :: g) :: gs

/-- Turn the grouped runs into leaf entries with running subtotals
starting from `acc`. -/
def entriesOfRuns (col : String) (acc : Int) : List (List Row) → List Entry
  | [] => []
  | g :: gs =>
    let v := match g with
      | r :: _ => r.get col
      | [] => JSVal.undef
    Entry.leaf v (g.length : Int) (acc + (g.length : Int)) g ::
      entriesOfRuns col (acc + (g.length : Int)) gs

/-- `buildShallowIndex(rows, columnName, comparator)`: sort, group runs,
record `total` as the last entry's subtotal (0 for no rows). -/
def buildShallowIndex (col : String) (rows : List Row) : List Entry × Int :=
  let sorted := jsSort (fun a b => Comparator (a.get col) (b.get col)) rows
  let entries := entriesOfRuns col 0
    (groupRunsBy (fun a b => jsStrictEq (a.get col) (b.get col)) sorted)
  (entries,
   match entries.getLast? with
   | some e => e.subtotal
   | none => 0)

/-- `buildIndex(rows, columns)`: shallow index on the first column, then
recursively replace each entry's row list by a sub-index over the
remaining columns. -/
def buildIndexRows : (columns : List String) → List Row → List Entry × Int
  | [], _ => ([], 0)
  | [c], rows => buildShallowIndex c rows
  | c :: c2 :: rest, rows =>
    let shallow := buildShallowIndex c rows
    (shallow.1.map (fun e =>
      match e with
      | Entry.leaf v s st rs =>
        let sub := buildIndexRows (c2 :: rest) rs
        Entry.node v s st sub.1 sub.2
      | e => e),
     shallow.2)

/-- The bulk build as `rowsAdded` invokes it, on an array that may carry
`undefined` holes (skipped rows from `insert`): the holes sort to the
end, and the grouping loop then reads `r[columnName]` off `undefined`
and throws a `TypeError`; with no holes the build is total. -/
def buildIndexE (columns : List String) (orows : List (Option Row)) :
    Except String (List Entry × Int) :=
  if orows.any (fun o => o.isNone) then
    Except.error "TypeError: cannot read properties of undefined"
  else
    Except.ok (buildIndexRows columns (orows.filterMap id))

/-! ## Structural validation (`DataTable.Index.prototype.validateIndex`,
source lines 1263–1305)

The checks are embedded in source order: a zero `size`, empty `data`,
`data.length > size`, a duplicated (`==`) or out-of-order (`<`) entry
value, a wrong inclusive-prefix `subtotal`, recursively the nested
levels, the leaf `data.length != size`, and finally the level's `total`
against the computed sum.  (`ix.data == null` cannot arise in the
embedding because an entry always carries its data.)  A leaf entry found
where a deeper level is expected surfaces as the source's "undefined
data" error, since JavaScript then reads `.data` off row objects. -/

/-- The duplicate (`==`) and out-of-order (`<`) checks of one validation
step, against the previous entry's value. -/
def entryOrderCheck (e : Entry) : Option JSVal → Except String Unit
  | some lv =>
    if jsEq e.value lv then
      Except.error "Index entry was duplicated"
    else if jsLt e.value lv then
      Except.error "Index entry was out of order"
    else pure ()
  | none => pure ()

/-- The per-entry data check of one validation step: recurse through the
nested level's checker when one is expected, otherwise compare the leaf
data length against the recorded size. -/
def entryChildCheck :
    Option (List Entry → Int → Except String Unit) → Entry → Except String Unit
  | some check, Entry.node _ _ _ ces ct => check ces ct
  | some _, Entry.leaf _ _ _ _ =>
    Except.error "Index entry with undefined data"
  | none, Entry.leaf _ s _ rs =>
    if (rs.length : Int) ≠ s then
      Except.error "Final index entry where size was incorrect"
    else pure ()
  | none, Entry.node _ s _ ces _ =>
    if (ces.length : Int) ≠ s then
      Except.error "Final index entry where size was incorrect"
    else pure ()

/-- Validate the entries of one level, given the optional checker for the
nested level, the running subtotal and the previous entry's value.
Returns the computed sum of sizes. -/
def validateEntriesWith
    (childCheck : Option (List Entry → Int → Except String Unit)) :
    List Entry → Int → Option JSVal → Except String Int
  | [], sub, _ => Except.ok sub
  | e :: es, sub, lastValue =>
    if e.size = 0 then
      Except.error "Index entry with a size of 0"
    else if e.dataLength = 0 then
      Except.error "Index entry with no data"
    else if (e.dataLength : Int) > e.size then
      Except.error "Index entry with more data than the recorded size"
    else
      entryOrderCheck e lastValue >>= fun _ =>
      if sub + e.size ≠ e.subtotal then
        Except.error "Subtotal was not correct"
      else
        entryChildCheck childCheck e >>= fun _ =>
        validateEntriesWith childCheck es (sub + e.size) (some e.value)

/-- `check(index, columns, path)`: validate one level and its nested
levels, then the level's `total`. -/
def validateLevel : (columns : List String) → List Entry → Int → Except String Unit
  | [], _, _ => Except.ok ()
  | [_], entries, total => do
    let sub ← validateEntriesWith none entries 0 none
    if total ≠ sub then Except.error "Total was not correct" else pure ()
  | _ :: c2 :: rest, entries, total => do
    let sub ← validateEntriesWith (some (validateLevel (c2 :: rest))) entries 0 none
    if total ≠ sub then Except.error "Total was not correct" else pure ()

/-- `Index.validateIndex()` for one index. -/
def IndexState.validateIndex (ix : IndexState) : Except String Unit :=
  validateLevel ix.columns ix.entries ix.total

/-! ## Incremental merge (`mergeIndex`, `rowsAdded`, `rowsRemoved`,
source lines 1066–1257)

`mergeIndex` walks the left (existing) and right (freshly built) entry
sequences with two cursors, dispatching on `==` / `<` comparisons of the
raw `value`s, and is instantiated with one callback set for `rowsAdded`
and one for `rowsRemoved`; the embedding specialises the walk per
instantiation.  The walk is fuel-indexed (each step consumes at least one
entry, so `left.length + right.length` fuel always suffices) to stay
structurally recursive and hence kernel-computable.  The two running
integers stand for `right[r-1].subtotal` (0 before any right entry is
consumed — the callbacks add or subtract nothing in that case, which is
the same as adding 0) and for `left[l-1].subtotal` in the partially
merged output (0 when no entry has been emitted yet). -/

/-- `rowsAdded`'s `mergeLeftAndRightEntries` at the leaf level: append
the right rows, add the right `size` and `subtotal`. -/
def pairAddLeaf (l r : Entry) : Entry :=
  match l, r with
  | Entry.leaf v s st rsL, Entry.leaf _ sR stR rsR =>
    Entry.leaf v (s + sR) (st + stR) (rsL ++ rsR)
  | _, _ => l

/-- `rowsAdded`'s equal-value case above the leaf level: merge the nested
sub-indexes (which applies the nested `mergeTotals`: add the right total
and re-sort), then add the right `size` and `subtotal`.  A constructor
mismatch cannot arise under the structural invariant. -/
def pairAddNode
    (childLevel : List Entry × Int → List Entry × Int → List Entry × Int)
    (l r : Entry) : Entry :=
  match l, r with
  | Entry.node v s st esL tL, Entry.node _ sR stR esR tR =>
    let sub := childLevel (esL, tL) (esR, tR)
    Entry.node v (s + sR) (st + stR) sub.1 sub.2
  | _, _ => pairAddLeaf l r

/-- The two-cursor walk of `mergeIndex` as instantiated by `rowsAdded`:
left-only entries have the cumulated right contribution added to their
subtotal; right-only entries are inserted as near-clones whose subtotal
is their size plus the previous output entry's subtotal; equal values are
merged by `pairMerge`, and (as in the source) a merged entry whose size
dropped to zero is spliced out. -/
def mergeWalkAdd (pairMerge : Entry → Entry → Entry) :
    Nat → List Entry → List Entry → Int → Int → List Entry
  | 0, _, _, _, _ => []
  | Nat.succ fuel, left, right, prevRightSub, prevOutSub =>
    match left, right with
    | [], [] => []
    | l :: ls, [] =>
      let adjusted := l.withSubtotal (l.subtotal + prevRightSub)
      adjusted :: mergeWalkAdd pairMerge fuel ls [] prevRightSub adjusted.subtotal
    | [], r :: rs =>
      let inserted := r.withSubtotal (r.size + prevOutSub)
      inserted :: mergeWalkAdd pairMerge fuel [] rs r.subtotal inserted.subtotal
    | l :: ls, r :: rs =>
      if jsEq l.value r.value then
        let merged := pairMerge l r
        if merged.size = 0 then
          mergeWalkAdd pairMerge fuel ls rs r.subtotal prevOutSub
        else
          merged :: mergeWalkAdd pairMerge fuel ls rs r.subtotal merged.subtotal
      else if jsLt l.value r.value then
        let adjusted := l.withSubtotal (l.subtotal + prevRightSub)
        adjusted :: mergeWalkAdd pairMerge fuel ls (r :: rs) prevRightSub adjusted.subtotal
      else
        let inserted := r.withSubtotal (r.size + prevOutSub)
        inserted :: mergeWalkAdd pairMerge fuel (l :: ls) rs r.subtotal inserted.subtotal

/-- One level of `rowsAdded`'s merge including its `mergeTotals` callback:
add the right total and stably re-sort the level by entry value. -/
def mergeAddLevel : Nat → List Entry × Int → List Entry × Int → List Entry × Int
  | 0, l, r =>
    (jsSort (fun a b => Comparator a.value b.value)
      (mergeWalkAdd pairAddLeaf (l.1.length + r.1.length) l.1 r.1 0 0),
     l.2 + r.2)
  | 1, l, r =>
    (jsSort (fun a b => Comparator a.value b.value)
      (mergeWalkAdd pairAddLeaf (l.1.length + r.1.length) l.1 r.1 0 0),
     l.2 + r.2)
  | d + 2, l, r =>
    (jsSort (fun a b => Comparator a.value b.value)
      (mergeWalkAdd (pairAddNode (mergeAddLevel (d + 1)))
        (l.1.length + r.1.length) l.1 r.1 0 0),
     l.2 + r.2)

/-- `Index.rowsAdded(rows)`: build a right-hand index from the rows (an
array that may contain `undefined` holes when called from `insert`) and
merge it in. -/
def IndexState.rowsAdded (ix : IndexState) (orows : List (Option Row)) :
    Except String IndexState := do
  let right ← buildIndexE ix.columns orows
  let merged := mergeAddLevel ix.columns.length (ix.entries, ix.total) right
  Except.ok { columns := ix.columns, entries := merged.1, total := merged.2 }

/-- `rowsRemoved`'s `mergeLeftAndRightEntries` at the leaf level: delete
the left rows whose `$` identity (modelled by `id`) occurs among the
right rows, subtract the right `size` and `subtotal`. -/
def pairRemoveLeaf (l r : Entry) : Entry :=
  match l, r with
  | Entry.leaf v s st rsL, Entry.leaf _ sR stR rsR =>
    let rightIds := rsR.map Row.id
    Entry.leaf v (s - sR) (st - stR)
      (rsL.filter (fun row => !(rightIds.contains row.id)))
  | _, _ => l

/-- The two-cursor walk of `mergeIndex` as instantiated by `rowsRemoved`:
left-only entries have the cumulated right contribution subtracted from
their subtotal, a right-only entry is impossible and fails loudly, equal
values are merged by `pairMerge` and spliced out when the size drops to
zero. -/
def mergeWalkRemove (pairMerge : Entry → Entry → Except String Entry) :
    Nat → List Entry → List Entry → Int → Except String (List Entry)
  | 0, _, _, _ => Except.ok []
  | Nat.succ fuel, left, right, prevRightSub =>
    match left, right with
    | [], [] => Except.ok []
    | l :: ls, [] => do
      let adjusted := l.withSubtotal (l.subtotal - prevRightSub)
      let rest ← mergeWalkRemove pairMerge fuel ls [] prevRightSub
      Except.ok (adjusted :: rest)
    | [], _ :: _ =>
      Except.error "How did a value in the sublist, not start in the list?"
    | l :: ls, r :: rs =>
      if jsEq l.value r.value then do
        let merged ← pairMerge l r
        let rest ← mergeWalkRemove pairMerge fuel ls rs r.subtotal
        if merged.size = 0 then Except.ok rest else Except.ok (merged :: rest)
      else if jsLt l.value r.value then do
        let adjusted := l.withSubtotal (l.subtotal - prevRightSub)
        let rest ← mergeWalkRemove pairMerge fuel ls (r :: rs) prevRightSub
        Except.ok (adjusted :: rest)
      else
        Except.error "How did a value in the sublist, not start in the list?"

/-- `rowsRemoved`'s equal-value case above the leaf level. -/
def pairRemoveNode
    (childLevel : List Entry × Int → List Entry × Int →
      Except String (List Entry × Int))
    (l r : Entry) : Except String Entry :=
  match l, r with
  | Entry.node v s st esL tL, Entry.node _ sR stR esR tR => do
    let sub ← childLevel (esL, tL) (esR, tR)
    Except.ok (Entry.node v (s - sR) (st - stR) sub.1 sub.2)
  | _, _ => Except.ok (pairRemoveLeaf l r)

/-- One level of `rowsRemoved`'s merge including its `mergeTotals`
callback: subtract the right total (no re-sort). -/
def mergeRemoveLevel :
    Nat → List Entry × Int → List Entry × Int → Except String (List Entry × Int)
  | 0, l, r => do
    let es ← mergeWalkRemove (fun a b => Except.ok (pairRemoveLeaf a b))
      (l.1.length + r.1.length) l.1 r.1 0
    Except.ok (es, l.2 - r.2)
  | 1, l, r => do
    let es ← mergeWalkRemove (fun a b => Except.ok (pairRemoveLeaf a b))
      (l.1.length + r.1.length) l.1 r.1 0
    Except.ok (es, l.2 - r.2)
  | d + 2, l, r => do
    let es ← mergeWalkRemove (pairRemoveNode (mergeRemoveLevel (d + 1)))
      (l.1.length + r.1.length) l.1 r.1 0
    Except.ok (es, l.2 - r.2)

/-- `Index.rowsRemoved(rows)`: build a right-hand index from the rows
being removed (always canonical rows, no holes) and merge-subtract it. -/
def IndexState.rowsRemoved (ix : IndexState) (rows : List Row) :
    Except String IndexState := do
  let right := buildIndexRows ix.columns rows
  let merged ← mergeRemoveLevel ix.columns.length (ix.entries, ix.total) right
  Except.ok { columns := ix.columns, entries := merged.1, total := merged.2 }

/-! ## Table construction and helpers (source lines 260–331) -/

/-- The column-name syntax `[a-zA-Z_][a-zA-Z0-9_$]*`. -/
def isValidColumnName (s : String) : Bool :=
  match s.data with
  | [] => false
  | c :: cs =>
    (c.isAlpha || c = '_') &&
      cs.all (fun ch => ch.isAlphanum || ch = '_' || ch = '$')

/-- `checkColumnNames(columnNames, superSet)`: non-empty, syntactically
valid, duplicate-free, and contained in the optional super set. -/
def checkColumnNamesGo (superSet : Option (List String)) :
    List String → List String → Except String Unit
  | _, [] => Except.ok ()
  | seen, name :: rest =>
    if !isValidColumnName name then
      Except.error ("Invalid column name: " ++ name)
    else if seen.contains name then
      Except.error ("Duplicate column name: " ++ name)
    else
      match superSet with
      | some ss =>
        if !ss.contains name then
          Except.error ("Column name not found: " ++ name)
        else checkColumnNamesGo superSet (name :: seen) rest
      | none => checkColumnNamesGo superSet (name :: seen) rest

def checkColumnNames (columnNames : List String) (superSet : Option (List String)) :
    Except String Unit :=
  if columnNames.length = 0 then Except.error "No column names specified"
  else checkColumnNamesGo superSet [] columnNames

/-- `buildIndexSignature(columnNames)`. -/
def buildIndexSignature (columnNames : List String) : String :=
  "[" ++ String.intercalate "," columnNames ++ "]"

/-- The active check every operation performs: a dropped table's `active`
closure throws. -/
def TableState.checkActive (st : TableState) : Except String Unit :=
  if st.active then Except.ok () else Except.error "Table has been dropped"

/-- `new DataTable(columnNames)`: validate the names and create an empty
live table.  `tag` stands for the timestamp-based table identity. -/
def DataTableNew (columnNames : List String) (tag : Nat) :
    Except String TableState := do
  checkColumnNames columnNames none
  Except.ok { columnNames := columnNames, rows := [], indicies := [],
              paranoia := false, verbose := false, active := true,
              nextId := 0, tableTag := tag }

/-- The fast clone projects exactly the table's columns (plus the `$`
back-reference, modelled separately); a missing property clones as
`undefined`. -/
def cloneRowData (columnNames : List String) (data : List (String × JSVal)) :
    List (String × JSVal) :=
  columnNames.map (fun c => (c, rowGet data c))

/-- `validateIndex()` on the table: validate every index. -/
def TableState.tableValidateIndex (st : TableState) : Except String Unit := do
  st.checkActive
  st.indicies.forM (fun ix => ix.validateIndex)

/-- A batch argument: `rows` may be an `Array` or a single row object. -/
inductive BatchArg : Type where
  | arr (rows : List InputRow)
  | single (row : InputRow)

/-! ## `insert` (source lines 359–398)

`rows.collect(...)` skips a row that already carries a `$` back-reference
by returning `undefined` from the callback, which leaves an `undefined`
hole in the `result` array; survivors are cloned onto fresh canonical
rows and pushed.  The holes then flow into every index's `rowsAdded` and
into the final `result.collect(this._.clone)`, both of which throw a
`TypeError` on `undefined`. -/

/-- The per-row body of `insert`'s `collect`: `none` for a skipped row
(the `undefined` hole), otherwise the fresh canonical row; threading the
id generator. -/
def processInsertRows (columnNames : List String) :
    List InputRow → Nat → List (Option Row) × Nat
  | [], n => ([], n)
  | ir :: irs, n =>
    match ir.backref with
    | some _ =>
      let rest := processInsertRows columnNames irs n
      (none :: rest.1, rest.2)
    | none =>
      let row : Row := ⟨n, cloneRowData columnNames ir.data⟩
      let rest := processInsertRows columnNames irs (n + 1)
      (some row :: rest.1, rest.2)

/-- `DataTable.prototype.insert`. -/
def TableState.insert (st : TableState) (arg : BatchArg) :
    Except String (List InputRow × TableState) := do
  st.checkActive
  let batch := match arg with
    | BatchArg.arr l => l
    | BatchArg.single r => [r]
  let processed := processInsertRows st.columnNames batch st.nextId
  let st1 : TableState :=
    { st with rows := st.rows ++ processed.1.filterMap id, nextId := processed.2 }
  let newIndicies ← st.indicies.mapM (fun ix => ix.rowsAdded processed.1)
  let st2 : TableState := { st1 with indicies := newIndicies }
  if st.paranoia then st2.tableValidateIndex else pure ()
  let clones ← processed.1.mapM (fun o =>
    match o with
    | some r =>
      Except.ok ({ backref := some ⟨st.tableTag, r.id⟩, data := r.data } : InputRow)
    | none => Except.error "TypeError: cannot read properties of undefined")
  Except.ok (clones, st2)

/-! ## `remove` (source lines 404–432)

A non-array argument is spread through `newArray.apply(null, rows)`,
which treats the row object as array-like: its `length` property (via
`ToLength`, 0 for a missing or non-positive value) determines the element
count, and the elements `rows[0], rows[1], ...` are all `undefined`
because column names can never be numeric strings.  Resolving a victim
reads `r.$(TABLE_ID)` (a `TypeError` on `undefined` or on a row without
`$`), verifies the table identity and takes `r.$()`, a fresh clone of the
canonical row.  The embedding resolves the `$` closure by id lookup and
faults on a stale reference where the JavaScript closure would yield
stale data; the swap-remove phase likewise relies on the stored position
agreeing with the actual one, which holds for present, distinct victims. -/

/-- `ToLength` of a cell value: a nonnegative integer, 0 for absent or
non-numeric values. -/
def toLengthNat (v : JSVal) : Nat :=
  match v with
  | JSVal.num n => if n ≤ 0 then 0 else n.toNat
  | _ => 0

/-- Resolve one element of the (possibly spread) `remove`/`update` batch
to its canonical row. -/
def resolveOrigRow (st : TableState) (o : Option InputRow) : Except String Row :=
  match o with
  | none => Except.error "TypeError: cannot read properties of undefined"
  | some ir =>
    match ir.backref with
    | none => Except.error "TypeError: row.$ is not a function"
    | some br =>
      if br.tableTag ≠ st.tableTag then
        Except.error "A row was passed that does not belong to this table."
      else
        match st.rows.find? (fun row => row.id == br.rowId) with
        | some row => Except.ok row
        | none => Except.error "stale back-reference: canonical row not present"

/-- The swap-remove loop over the resolved victims.  `row != last`
compares a fresh clone against the canonical object and is therefore
always true, so the swap always runs when more than one row remains (a
self-assignment when the victim is last).  `self._.rows.length--` on an
empty vector is a `RangeError`. -/
def removeVictims : List Row → List Row → Except String (List Row)
  | rows, [] => Except.ok rows
  | [], _ :: _ => Except.error "RangeError: invalid array length"
  | [_], _ :: vs => removeVictims [] vs
  | r0 :: r1 :: rrest, v :: vs =>
    let rows := r0 :: r1 :: rrest
    match rows.getLast? with
    | none => Except.error "unreachable: nonempty by the pattern"
    | some last =>
      match rows.findIdx? (fun row => row.id == v.id) with
      | none => Except.error "stale back-reference: victim not in the row vector"
      | some p => removeVictims ((rows.set p last).dropLast) vs

/-- `DataTable.prototype.remove`. -/
def TableState.remove (st : TableState) (arg : BatchArg) :
    Except String TableState := do
  st.checkActive
  let batch : List (Option InputRow) := match arg with
    | BatchArg.arr l => l.map some
    | BatchArg.single r => List.replicate (toLengthNat (rowGet r.data "length")) none
  let origRows ← batch.mapM (resolveOrigRow st)
  let newIndicies ← st.indicies.mapM (fun ix => ix.rowsRemoved origRows)
  let newRows ← removeVictims st.rows origRows
  let st' : TableState := { st with rows := newRows, indicies := newIndicies }
  if st.paranoia then st'.tableValidateIndex else pure ()
  Except.ok st'

/-! ## `update` (source lines 438–470)

For each input row the changed-column set is computed against a fresh
snapshot of its canonical row (`markChangedColumns` compares every table
column with `!==`); the per-row flags accumulate into one shared
`changedColumns` set for the whole batch.  Unchanged rows are filtered
out; if none remain the call returns before touching any index.
Otherwise each index whose column list meets the changed set runs
merge-remove of the old canonical rows followed by merge-add of the
caller's row objects (with an optional validation between phases), and
finally each canonical row is overwritten in place by a clone of the
caller's row. -/

/-- The generated `markChangedColumns` body restricted to its observable
result: the list of table columns on which the caller's row differs
(`!==`) from the canonical snapshot. -/
def markChangedColumns (columnNames : List String) (ir : InputRow) (orig : Row) :
    List String :=
  columnNames.filter (fun c => !(jsStrictEq (rowGet ir.data c) (orig.get c)))

/-- The `findAll` body of `update`: resolve each input row's canonical
row (with the identity check) and record its changed columns. -/
def updateResolve (st : TableState) (batch : List InputRow) :
    Except String (List (InputRow × Row × List String)) :=
  batch.mapM (fun ir => do
    let orig ← resolveOrigRow st (some ir)
    Except.ok (ir, orig, markChangedColumns st.columnNames ir orig))

/-- The batch-wide `changedColumns` set (the union over all rows of their
changed columns). -/
def updateChangedColumns (resolved : List (InputRow × Row × List String)) :
    List String :=
  resolved.foldl (fun acc t => acc ++ t.2.2) []

/-- The `findAll` survivors: rows with at least one changed column. -/
def updateChangedRows (resolved : List (InputRow × Row × List String)) :
    List (InputRow × Row × List String) :=
  resolved.filter (fun t => !t.2.2.isEmpty)

/-- The `oldRows` of `update`: the canonical rows of the survivors. -/
def updateOldRows (resolved : List (InputRow × Row × List String)) : List Row :=
  (updateChangedRows resolved).map (fun t => t.2.1)

/-- The row objects handed to `rowsAdded` by `update`: the caller's
clones, carrying the canonical id through their `$` back-reference. -/
def updateAddedRows (resolved : List (InputRow × Row × List String)) :
    List (Option Row) :=
  (updateChangedRows resolved).map (fun t =>
    some ⟨(t.1.backref.map BackRef.rowId).getD 0, t.1.data⟩)

/-- What `update` does to one index whose column list meets the changed
set: merge-remove of the old canonical rows, then merge-add of the
caller's rows, with the optional paranoia validations in between. -/
def updateTouchIndex (paranoia : Bool) (oldRows : List Row)
    (addedRows : List (Option Row)) (ix : IndexState) :
    Except String IndexState := do
  let ix1 ← ix.rowsRemoved oldRows
  if paranoia then ix1.validateIndex else pure ()
  let ix2 ← ix1.rowsAdded addedRows
  if paranoia then ix2.validateIndex else pure ()
  Except.ok ix2

/-- `DataTable.prototype.update`. -/
def TableState.update (st : TableState) (arg : BatchArg) :
    Except String TableState := do
  st.checkActive
  let batch := match arg with
    | BatchArg.arr l => l
    | BatchArg.single r => [r]
  let resolved ← updateResolve st batch
  let changedColumns := updateChangedColumns resolved
  let changedRows := updateChangedRows resolved
  let oldRows := updateOldRows resolved
  if changedRows.length == 0 then Except.ok st
  else do
    let newIndicies ← st.indicies.mapM (fun ix =>
      if ix.columns.any (fun c => changedColumns.contains c) then
        updateTouchIndex st.paranoia oldRows (updateAddedRows resolved) ix
      else Except.ok ix)
    let newRows := changedRows.foldl
      (fun rows t => rows.map (fun row =>
        if row.id = t.2.1.id then
          ⟨row.id, cloneRowData st.columnNames t.1.data⟩
        else row))
      st.rows
    Except.ok { st with rows := newRows, indicies := newIndicies }

/-! ## Remaining operations (source lines 339–352, 481–633) -/

/-- `getRows()`: clones of all rows (clones carry the `$`
back-reference). -/
def TableState.getRows (st : TableState) : Except String (List InputRow) := do
  st.checkActive
  Except.ok (st.rows.map (fun r =>
    { backref := some ⟨st.tableTag, r.id⟩, data := r.data }))

/-- `getCount()`. -/
def TableState.getCount (st : TableState) : Except String Nat := do
  st.checkActive
  Except.ok st.rows.length

/-- `drop()`: rebind the active check so every further call fails. -/
def TableState.drop (st : TableState) : Except String TableState := do
  st.checkActive
  Except.ok { st with active := false }

/-- `paranoia(enable)` with an argument (the switching form). -/
def TableState.setParanoia (st : TableState) (enable : Bool) :
    Except String TableState := do
  st.checkActive
  Except.ok { st with paranoia := enable }

/-- `verbose(enable)` with an argument. -/
def TableState.setVerbose (st : TableState) (enable : Bool) :
    Except String TableState := do
  st.checkActive
  Except.ok { st with verbose := enable }

/-- `index()` with no argument: the early return on
`arguments.length == 0` runs BEFORE the active check, so it succeeds even
on a dropped table, returning the column lists of the current indexes. -/
def TableState.indexList (st : TableState) : Except String (List (List String)) :=
  Except.ok (st.indicies.map (fun ix => ix.columns))

/-- `index(columnNames)`: find the index with the same signature or
create it, bulk-loading the current rows. -/
def TableState.indexCreate (st : TableState) (columnNames : List String) :
    Except String (IndexState × TableState) := do
  st.checkActive
  checkColumnNames columnNames (some st.columnNames)
  let signature := buildIndexSignature columnNames
  match st.indicies.find? (fun ix => buildIndexSignature ix.columns == signature) with
  | some ix => Except.ok (ix, st)
  | none => do
    let ix0 : IndexState := { columns := columnNames, entries := [], total := 0 }
    let ix1 ← ix0.rowsAdded (st.rows.map some)
    Except.ok (ix1, { st with indicies := st.indicies ++ [ix1] })

/-- The operator grammar `/^([=!<>]=|[<>]|between|in)$/`. -/
def checkOperatorAndValue (op : String) : Except String Unit :=
  if op = "<" ∨ op = "<=" ∨ op = "==" ∨ op = "!=" ∨ op = ">=" ∨ op = ">" ∨
      op = "between" ∨ op = "in" then Except.ok ()
  else Except.error ("Unknown operator: " ++ op)

/-- `findWhere(columnName, operator, value)`: the active check runs
first, so on a dropped table the whole chain (including any later
`getRows()`) fails here.  Returns the initial criteria list. -/
def TableState.findWhere (st : TableState) (columnName operator : String)
    (value : CritValue) : Except String (List Criterion) := do
  st.checkActive
  let op := operator.toLower
  checkColumnNames [columnName] (some st.columnNames)
  checkOperatorAndValue op
  Except.ok [⟨columnName, op, value⟩]

/-! ## Generic helpers about `Except` and `mapM` -/

theorem exceptBind_ok (a : α) (f : α → Except ε β) :
    (Except.ok a >>= f) = f a := rfl

theorem exceptBind_error (e : ε) (f : α → Except ε β) :
    ((Except.error e : Except ε α) >>= f) = Except.error e := rfl

theorem exceptMapM_ok_of_forall (f : α → Except ε β) (g : α → β) :
    ∀ l : List α, (∀ a ∈ l, f a = Except.ok (g a)) →
      l.mapM f = Except.ok (l.map g) := by
  intro l
  induction l with
  | nil => intro _; rfl
  | cons a l ih =>
    intro h
    rw [List.mapM_cons, h a (List.mem_cons_self a l)]
    rw [ih (fun b hb => h b (List.mem_cons_of_mem a hb))]
    rfl

theorem exceptMapM_ok_length (f : α → Except ε β) :
    ∀ (l : List α) (l₂ : List β), l.mapM f = Except.ok l₂ → l₂.length = l.length := by
  intro l
  induction l with
  | nil =>
    intro l₂ h
    simp only [List.mapM_nil] at h
    cases h
    rfl
  | cons a l ih =>
    intro l₂ h
    rw [List.mapM_cons] at h
    cases hfa : f a with
    | error e =>
      rw [hfa] at h
      simp [exceptBind_error] at h
    | ok b =>
      rw [hfa, exceptBind_ok] at h
      cases hml : l.mapM f with
      | error e =>
        rw [hml] at h
        simp [exceptBind_error] at h
      | ok bs =>
        rw [hml, exceptBind_ok] at h
        cases h
        simp [ih bs hml]

theorem exceptMapM_ok_get (f : α → Except ε β) :
    ∀ (l : List α) (l₂ : List β), l.mapM f = Except.ok l₂ →
      ∀ (i : Nat) (h : i < l.length) (h₂ : i < l₂.length),
        f (l.get ⟨i, h⟩) = Except.ok (l₂.get ⟨i, h₂⟩) := by
  intro l
  induction l with
  | nil =>
    intro l₂ _ i h
    simp at h
  | cons a l ih =>
    intro l₂ h i hi hi₂
    rw [List.mapM_cons] at h
    cases hfa : f a with
    | error e =>
      rw [hfa] at h
      simp [exceptBind_error] at h
    | ok b =>
      rw [hfa, exceptBind_ok] at h
      cases hml : l.mapM f with
      | error e =>
        rw [hml] at h
        simp [exceptBind_error] at h
      | ok bs =>
        rw [hml, exceptBind_ok] at h
        cases h
        cases i with
        | zero => exact hfa
        | succ j =>
          exact ih bs hml j (by simpa using hi) (by simpa using hi₂)

/-! ## Small facts about the operations -/

theorem checkActive_of_dropped (st : TableState) (h : st.active = false) :
    st.checkActive = Except.error "Table has been dropped" := by
  simp [TableState.checkActive, h]

theorem checkActive_of_live (st : TableState) (h : st.active = true) :
    st.checkActive = Except.ok () := by
  simp [TableState.checkActive, h]

/-- `Entry.withSubtotal` with the entry's own subtotal is the entry. -/
theorem withSubtotal_self (e : Entry) : e.withSubtotal e.subtotal = e := by
  cases e <;> rfl

/-- The remove walk with an empty right-hand index leaves the level
unchanged (each left entry's subtotal decreases by the zero cumulated
right contribution). -/
theorem mergeWalkRemove_nil_right (pairMerge : Entry → Entry → Except String Entry) :
    ∀ (left : List Entry) (fuel : Nat), left.length ≤ fuel →
      mergeWalkRemove pairMerge fuel left [] 0 = Except.ok left := by
  intro left
  induction left with
  | nil =>
    intro fuel _
    cases fuel with
    | zero => rfl
    | succ n => rfl
  | cons l ls ih =>
    intro fuel hfuel
    cases fuel with
    | zero => simp at hfuel
    | succ n =>
      simp only [mergeWalkRemove]
      rw [ih n (by simpa using hfuel)]
      simp only [exceptBind_ok]
      simp [sub_zero, withSubtotal_self]

/-- `buildIndexRows` on no rows is the empty level. -/
theorem buildIndexRows_nil (columns : List String) :
    buildIndexRows columns [] = ([], 0) := by
  match columns with
  | [] => rfl
  | [c] => rfl
  | c :: c2 :: rest => rfl

/-- `rowsRemoved` with no rows is the identity on the index. -/
theorem rowsRemoved_nil (ix : IndexState) :
    ix.rowsRemoved [] = Except.ok ix := by
  unfold IndexState.rowsRemoved
  have hwalk : ∀ d, mergeRemoveLevel d (ix.entries, ix.total) ([], 0) =
      Except.ok (ix.entries, ix.total) := by
    intro d
    match d with
    | 0 =>
      simp only [mergeRemoveLevel]
      rw [mergeWalkRemove_nil_right _ ix.entries (ix.entries.length + [].length)
        (by simp)]
      simp [exceptBind_ok]
    | 1 =>
      simp only [mergeRemoveLevel]
      rw [mergeWalkRemove_nil_right _ ix.entries (ix.entries.length + [].length)
        (by simp)]
      simp [exceptBind_ok]
    | d + 2 =>
      simp only [mergeRemoveLevel]
      rw [mergeWalkRemove_nil_right _ ix.entries (ix.entries.length + [].length)
        (by simp)]
      simp [exceptBind_ok]
  simp only [buildIndexRows_nil, hwalk ix.columns.length, exceptBind_ok]

/-- `rowsAdded` never fails on a hole-free array. -/
theorem rowsAdded_map_some (ix : IndexState) (rows : List Row) :
    ix.rowsAdded (rows.map some) =
      Except.ok { columns := ix.columns,
                  entries := (mergeAddLevel ix.columns.length (ix.entries, ix.total)
                    (buildIndexRows ix.columns rows)).1,
                  total := (mergeAddLevel ix.columns.length (ix.entries, ix.total)
                    (buildIndexRows ix.columns rows)).2 } := by
  unfold IndexState.rowsAdded buildIndexE
  have hnone : (rows.map some).any (fun o => o.isNone) = false := by
    simp [List.any_map]
  rw [if_neg (by simp [hnone])]
  have hfilter : (rows.map some).filterMap id = rows := by
    simp [List.filterMap_map]
  rw [hfilter]
  rfl

/-! ## Claim C7: operations on a dropped table

Every operation guards itself with `this._.active()`, which `drop`
rebinds to a throwing closure — with one exception: `index()` with no
arguments returns the signature list from an early `return` placed
BEFORE the active check (source line 341), so it keeps succeeding on a
dropped table.  The claim is therefore corrected: all the listed
operations fail except the zero-argument `index()`. -/

/-- **C7 (amended).** On a dropped table, `getCount`, `getRows`,
`insert`, `update`, `remove`, `findWhere` (and hence any
`findWhere(...).getRows()` chain, which dies at the `findWhere` call),
`index(columns)`, `validateIndex`, `paranoia` and `verbose` all fail with
the table-dropped error; `index()` with no arguments is the exception and
returns the current index column lists without error. -/
theorem dropped_table_operations (st : TableState) (hdropped : st.active = false) :
    st.getCount = Except.error "Table has been dropped" ∧
    st.getRows = Except.error "Table has been dropped" ∧
    (∀ arg, st.insert arg = Except.error "Table has been dropped") ∧
    (∀ arg, st.update arg = Except.error "Table has been dropped") ∧
    (∀ arg, st.remove arg = Except.error "Table has been dropped") ∧
    (∀ c op v, st.findWhere c op v = Except.error "Table has been dropped") ∧
    (∀ cols, st.indexCreate cols = Except.error "Table has been dropped") ∧
    st.tableValidateIndex = Except.error "Table has been dropped" ∧
    (∀ b, st.setParanoia b = Except.error "Table has been dropped") ∧
    (∀ b, st.setVerbose b = Except.error "Table has been dropped") ∧
    st.indexList = Except.ok (st.indicies.map (fun ix => ix.columns)) := by
  have hfail := checkActive_of_dropped st hdropped
  refine ⟨?_, ?_, ?_, ?_, ?_, ?_, ?_, ?_, ?_, ?_, ?_⟩
  · simp [TableState.getCount, hfail, exceptBind_error]
  · simp [TableState.getRows, hfail, exceptBind_error]
  · intro arg
    simp [TableState.insert, hfail, exceptBind_error]
  · intro arg
    simp [TableState.update, hfail, exceptBind_error]
  · intro arg
    simp [TableState.remove, hfail, exceptBind_error]
  · intro c op v
    simp [TableState.findWhere, hfail, exceptBind_error]
  · intro cols
    simp [TableState.indexCreate, hfail, exceptBind_error]
  · simp [TableState.tableValidateIndex, hfail, exceptBind_error]
  · intro b
    simp [TableState.setParanoia, hfail, exceptBind_error]
  · intro b
    simp [TableState.setVerbose, hfail, exceptBind_error]
  · rfl

/-- **C7 counterexample.** The claim as stated says `index` fails on a
dropped table "with or without arguments"; but on a concretely built,
indexed and then dropped table, the zero-argument `index()` completes
without error and returns the signature list. -/
theorem dropped_index_zeroArg_counterexample :
    (do
      let t0 ← DataTableNew ["a"] 0
      let r1 ← t0.indexCreate ["a"]
      let t2 ← r1.2.drop
      t2.indexList) = Except.ok [["a"]] := by
  rfl

/-- Witness for C7 at a concrete dropped table with one index. -/
theorem dropped_table_operations_witness :
    ({ columnNames := ["a"], rows := [], indicies := [⟨["a"], [], 0⟩],
       paranoia := false, verbose := false, active := false, nextId := 0,
       tableTag := 0 } : TableState).getCount =
        Except.error "Table has been dropped" ∧
    ({ columnNames := ["a"], rows := [], indicies := [⟨["a"], [], 0⟩],
       paranoia := false, verbose := false, active := false, nextId := 0,
       tableTag := 0 } : TableState).insert (BatchArg.arr []) =
        Except.error "Table has been dropped" ∧
    ({ columnNames := ["a"], rows := [], indicies := [⟨["a"], [], 0⟩],
       paranoia := false, verbose := false, active := false, nextId := 0,
       tableTag := 0 } : TableState).indexList = Except.ok [["a"]] := by
  have h := dropped_table_operations
    { columnNames := ["a"], rows := [], indicies := [⟨["a"], [], 0⟩],
      paranoia := false, verbose := false, active := false, nextId := 0,
      tableTag := 0 } rfl
  exact ⟨h.1, h.2.2.1 (BatchArg.arr []), h.2.2.2.2.2.2.2.2.2.2⟩

/-! ## Claim C8: `insert` of a row that already carries a back-reference

`rows.collect` skips such a row by returning `undefined` from its
callback, which leaves an `undefined` HOLE in the `result` array.  That
hole is then passed to every index's `rowsAdded` (where the grouping loop
reads `r[columnName]` off `undefined`) and to the final
`result.collect(this._.clone)` (where the generated clone function reads
`object.$` off `undefined`) — either way the call dies with a
`TypeError` instead of completing.  The inline comment "row is already in
the table" and the documentation's `duplicateRow` recipe show the intent
was to skip such rows silently, so this is a bug in the code. -/

/-- **C8 failing input.** Create a table with column `c`, insert `{c: 1}`
and keep the returned clone `a` (which carries the `$` back-reference);
then `insert([a])` throws a `TypeError` instead of completing: the
skipped row leaves an `undefined` hole that the final
`result.collect(this._.clone)` chokes on (with an index present,
`rowsAdded` would throw first).  The row count stays unchanged either
way, but the call does not complete without error and returns no array
of clones. -/
theorem insert_backref_row_throws :
    (do
      let t0 ← DataTableNew ["c"] 0
      let r1 ← t0.insert (BatchArg.single ⟨none, [("c", JSVal.num 1)]⟩)
      r1.2.insert (BatchArg.arr [⟨some ⟨0, 0⟩, [("c", JSVal.num 1)]⟩]))
    = Except.error "TypeError: cannot read properties of undefined" := by
  rfl

/-! ## Claim C9: `remove` called with a bare row object

`remove` spreads a non-array argument through
`newArray.apply(null, rows)`, which treats the row as an array-like:
`ToLength(rows.length)` elements, all `undefined` (column names are
identifiers and never numeric strings).  For an ordinary row without a
`length` column this gives an empty batch and the call is a complete
no-op; but if the table has a `length` column holding a positive number,
the spread produces that many `undefined` entries and the call throws a
`TypeError` at `r.$(...)`.  The claim is therefore corrected with the
proviso on the `length` property. -/

/-- **C9 counterexample.** On a table whose columns include `length`,
removing a row `{length: 2}` by passing the bare clone throws a
`TypeError` (the spread produced two `undefined` victims), so the call
does not "complete without error" as claimed. -/
theorem remove_single_length_row_counterexample :
    (do
      let t0 ← DataTableNew ["length"] 0
      let r1 ← t0.insert (BatchArg.single ⟨none, [("length", JSVal.num 2)]⟩)
      r1.2.remove (BatchArg.single ⟨some ⟨0, 0⟩, [("length", JSVal.num 2)]⟩))
    = Except.error "TypeError: cannot read properties of undefined" := by
  rfl

/-- **C9 (amended).** On a live table with paranoia off, `remove` applied
to a single row object whose `length` property is absent or not a
positive number (any ordinary row of a table without a `length` column)
completes without error and leaves the table state entirely unchanged:
same row vector, same count, and every index untouched. -/
theorem remove_single_row_noop (st : TableState) (ir : InputRow)
    (hactive : st.active = true) (hpar : st.paranoia = false)
    (hlen : toLengthNat (rowGet ir.data "length") = 0) :
    st.remove (BatchArg.single ir) = Except.ok st := by
  obtain ⟨cn, rws, idx, par, verb, act, nid, tag⟩ := st
  dsimp only at hactive hpar hlen
  subst hactive
  subst hpar
  have hidx : idx.mapM (fun ix => ix.rowsRemoved []) = Except.ok (idx.map id) :=
    exceptMapM_ok_of_forall _ id idx (fun ix _ => rowsRemoved_nil ix)
  simp only [TableState.remove, TableState.checkActive, if_true, exceptBind_ok, hlen,
    List.replicate, List.mapM_nil, pure_bind, hidx, List.map_id, removeVictims]
  simp

/-- Witness for C9 on a concrete one-row table with one index. -/
theorem remove_single_row_noop_witness :
    ({ columnNames := ["c"], rows := [⟨0, [("c", JSVal.num 1)]⟩],
       indicies := [⟨["c"], [Entry.leaf (JSVal.num 1) 1 1 [⟨0, [("c", JSVal.num 1)]⟩]], 1⟩],
       paranoia := false, verbose := false, active := true, nextId := 1,
       tableTag := 0 } : TableState).remove
        (BatchArg.single ⟨some ⟨0, 0⟩, [("c", JSVal.num 1)]⟩) =
      Except.ok
        { columnNames := ["c"], rows := [⟨0, [("c", JSVal.num 1)]⟩],
          indicies := [⟨["c"], [Entry.leaf (JSVal.num 1) 1 1 [⟨0, [("c", JSVal.num 1)]⟩]], 1⟩],
          paranoia := false, verbose := false, active := true, nextId := 1,
          tableTag := 0 } :=
  remove_single_row_noop _ _ rfl rfl rfl

/-! ## Claim C10: `insert` called with a bare row object

Unlike `remove`, `insert` wraps a non-array argument with
`newArray(rows)`, a one-element batch. -/

/-- **C10.** On a live table (paranoia off), `insert` applied to a single
fresh row object (no `$` back-reference) behaves exactly like the
one-element batch: the row is cloned onto a fresh canonical row and
appended to the row vector, the count grows by one, every index ingests
it through merge-add of the one-row right index, and the call returns a
one-element array holding a clone that carries the new back-reference. -/
theorem insert_single_row (st : TableState) (ir : InputRow)
    (hactive : st.active = true) (hpar : st.paranoia = false)
    (hfresh : ir.backref = none) :
    st.insert (BatchArg.single ir) = st.insert (BatchArg.arr [ir]) ∧
    st.insert (BatchArg.single ir) =
      Except.ok
        ([⟨some ⟨st.tableTag, st.nextId⟩, cloneRowData st.columnNames ir.data⟩],
         { columnNames := st.columnNames,
           rows := st.rows ++ [⟨st.nextId, cloneRowData st.columnNames ir.data⟩],
           indicies := st.indicies.map (fun ix =>
             { columns := ix.columns,
               entries := (mergeAddLevel ix.columns.length (ix.entries, ix.total)
                 (buildIndexRows ix.columns
                   [⟨st.nextId, cloneRowData st.columnNames ir.data⟩])).1,
               total := (mergeAddLevel ix.columns.length (ix.entries, ix.total)
                 (buildIndexRows ix.columns
                   [⟨st.nextId, cloneRowData st.columnNames ir.data⟩])).2 }),
           paranoia := st.paranoia, verbose := st.verbose, active := st.active,
           nextId := st.nextId + 1, tableTag := st.tableTag }) := by
  obtain ⟨cn, rws, idx, par, verb, act, nid, tag⟩ := st
  dsimp only at hactive hpar ⊢
  subst hactive
  subst hpar
  constructor
  · rfl
  · have hproc : processInsertRows cn [ir] nid =
        ([some ⟨nid, cloneRowData cn ir.data⟩], nid + 1) := by
      simp [processInsertRows, hfresh]
    have hrow : [some (⟨nid, cloneRowData cn ir.data⟩ : Row)] =
        [(⟨nid, cloneRowData cn ir.data⟩ : Row)].map some := by
      rfl
    have hidx : idx.mapM (fun ix =>
        ix.rowsAdded [some (⟨nid, cloneRowData cn ir.data⟩ : Row)]) =
        Except.ok (idx.map (fun ix =>
          { columns := ix.columns,
            entries := (mergeAddLevel ix.columns.length (ix.entries, ix.total)
              (buildIndexRows ix.columns
                [⟨nid, cloneRowData cn ir.data⟩])).1,
            total := (mergeAddLevel ix.columns.length (ix.entries, ix.total)
              (buildIndexRows ix.columns
                [⟨nid, cloneRowData cn ir.data⟩])).2 })) := by
      refine exceptMapM_ok_of_forall _ _ idx (fun ix _ => ?_)
      rw [hrow]
      exact rowsAdded_map_some ix _
    simp only [TableState.insert, TableState.checkActive, if_true, exceptBind_ok,
      hproc, hidx, List.filterMap, pure_bind]
    rfl

/-- Witness for C10 on a concrete empty table with one index on `c`. -/
theorem insert_single_row_witness :
    ({ columnNames := ["c"], rows := [], indicies := [⟨["c"], [], 0⟩],
       paranoia := false, verbose := false, active := true, nextId := 0,
       tableTag := 3 } : TableState).insert
        (BatchArg.single ⟨none, [("c", JSVal.num 5)]⟩) =
      Except.ok
        ([⟨some ⟨3, 0⟩, [("c", JSVal.num 5)]⟩],
         { columnNames := ["c"], rows := [⟨0, [("c", JSVal.num 5)]⟩],
           indicies := [⟨["c"],
             [Entry.leaf (JSVal.num 5) 1 1 [⟨0, [("c", JSVal.num 5)]⟩]], 1⟩],
           paranoia := false, verbose := false, active := true, nextId := 1,
           tableTag := 3 }) := by
  have h := insert_single_row
    { columnNames := ["c"], rows := [], indicies := [⟨["c"], [], 0⟩],
      paranoia := false, verbose := false, active := true, nextId := 0, tableTag := 3 }
    ⟨none, [("c", JSVal.num 5)]⟩ rfl rfl rfl
  exact h.2.trans (by rfl)

/-! ## Claim C3: update locality -/

/-- If no resolved row has a changed column, the batch-wide changed set
is empty. -/
theorem updateChangedColumns_of_all_unchanged
    (resolved : List (InputRow × Row × List String))
    (hall : ∀ t ∈ resolved, t.2.2 = ([] : List String)) :
    updateChangedColumns resolved = [] := by
  unfold updateChangedColumns
  suffices h : ∀ acc : List String,
      resolved.foldl (fun acc t => acc ++ t.2.2) acc = acc by
    exact h []
  induction resolved with
  | nil => intro acc; rfl
  | cons t ts ih =>
    intro acc
    rw [List.foldl_cons, hall t (List.mem_cons_self t ts), List.append_nil]
    exact ih (fun u hu => hall u (List.mem_cons_of_mem t hu)) acc

/-- **C3.** For a live table (paranoia off) and an update batch whose
rows all resolve against their canonical snapshots (`resolved` is the
outcome of `update`'s own resolution pass): (1) if every row's cell
values strictly equal its canonical snapshot on every table column (no
changed columns), `update` returns the table state unchanged, performing
zero index operations; (2) whenever `update` succeeds, an index whose
column list misses the batch's changed-column set is returned literally
unchanged, and an index whose column list meets it is exactly the result
of merge-remove of the old canonical rows followed by merge-add of the
caller's rows. -/
theorem update_locality (st : TableState) (batch : List InputRow)
    (hactive : st.active = true) (hpar : st.paranoia = false)
    (resolved : List (InputRow × Row × List String))
    (hres : updateResolve st batch = Except.ok resolved) :
    ((∀ t ∈ resolved, t.2.2 = ([] : List String)) →
      st.update (BatchArg.arr batch) = Except.ok st) ∧
    (∀ st', st.update (BatchArg.arr batch) = Except.ok st' →
      st'.indicies.length = st.indicies.length ∧
      ∀ (i : Nat) (h : i < st.indicies.length) (h₂ : i < st'.indicies.length),
        ((st.indicies.get ⟨i, h⟩).columns.any
            (fun c => (updateChangedColumns resolved).contains c) = false →
          st'.indicies.get ⟨i, h₂⟩ = st.indicies.get ⟨i, h⟩) ∧
        ((st.indicies.get ⟨i, h⟩).columns.any
            (fun c => (updateChangedColumns resolved).contains c) = true →
          updateTouchIndex false (updateOldRows resolved) (updateAddedRows resolved)
            (st.indicies.get ⟨i, h⟩) = Except.ok (st'.indicies.get ⟨i, h₂⟩))) := by
  obtain ⟨cn, rws, idx, par, verb, act, nid, tag⟩ := st
  dsimp only at hactive hpar hres ⊢
  subst hactive
  subst hpar
  constructor
  · intro hall
    have hcr : updateChangedRows resolved = [] := by
      unfold updateChangedRows
      rw [List.filter_eq_nil_iff]
      intro t ht
      rw [hall t ht]
      simp
    simp only [TableState.update, TableState.checkActive, if_true, exceptBind_ok,
      hres, hcr]
    rfl
  · intro st' hupd
    simp only [TableState.update, TableState.checkActive, if_true, exceptBind_ok,
      hres] at hupd
    by_cases hcr : ((updateChangedRows resolved).length == 0) = true
    · rw [if_pos hcr] at hupd
      cases hupd
      have hempty : updateChangedColumns resolved = [] := by
        apply updateChangedColumns_of_all_unchanged
        intro t ht
        have hfil : updateChangedRows resolved = [] := by
          have hlen0 : (updateChangedRows resolved).length = 0 := by simpa using hcr
          exact List.eq_nil_of_length_eq_zero hlen0
        by_contra hne
        have hmem : t ∈ updateChangedRows resolved := by
          unfold updateChangedRows
          rw [List.mem_filter]
          refine ⟨ht, ?_⟩
          simp [List.isEmpty_iff, hne]
        rw [hfil] at hmem
        simp at hmem
      refine ⟨rfl, fun i h h₂ => ⟨fun _ => rfl, fun htouch => ?_⟩⟩
      rw [hempty] at htouch
      simp [List.any_eq_true] at htouch
    · rw [if_neg hcr] at hupd
      cases hmap : idx.mapM (fun ix =>
          if ix.columns.any (fun c => (updateChangedColumns resolved).contains c) then
            updateTouchIndex false (updateOldRows resolved) (updateAddedRows resolved) ix
          else Except.ok ix) with
      | error e =>
        rw [hmap] at hupd
        simp [exceptBind_error] at hupd
      | ok ni =>
        rw [hmap, exceptBind_ok] at hupd
        cases hupd
        have hlen := exceptMapM_ok_length _ idx ni hmap
        refine ⟨hlen, fun i h h₂ => ?_⟩
        have hget := exceptMapM_ok_get _ idx ni hmap i h h₂
        constructor
        · intro huntouched
          rw [if_neg (by rw [huntouched]; simp)] at hget
          exact (Except.ok.inj hget).symm
        · intro htouch
          rw [if_pos (by rw [htouch])] at hget
          exact hget

/-- Witness for C3: on a concrete table with indexes on `a` and on `b`,
updating a clone whose values equal the canonical snapshot is a perfect
no-op. -/
theorem update_locality_witness :
    ({ columnNames := ["a", "b"],
       rows := [⟨0, [("a", JSVal.num 1), ("b", JSVal.num 2)]⟩],
       indicies := [⟨["a"], [Entry.leaf (JSVal.num 1) 1 1
                      [⟨0, [("a", JSVal.num 1), ("b", JSVal.num 2)]⟩]], 1⟩,
                    ⟨["b"], [Entry.leaf (JSVal.num 2) 1 1
                      [⟨0, [("a", JSVal.num 1), ("b", JSVal.num 2)]⟩]], 1⟩],
       paranoia := false, verbose := false, active := true, nextId := 1,
       tableTag := 0 } : TableState).update
        (BatchArg.arr [⟨some ⟨0, 0⟩, [("a", JSVal.num 1), ("b", JSVal.num 2)]⟩]) =
      Except.ok
        { columnNames := ["a", "b"],
          rows := [⟨0, [("a", JSVal.num 1), ("b", JSVal.num 2)]⟩],
          indicies := [⟨["a"], [Entry.leaf (JSVal.num 1) 1 1
                         [⟨0, [("a", JSVal.num 1), ("b", JSVal.num 2)]⟩]], 1⟩,
                       ⟨["b"], [Entry.leaf (JSVal.num 2) 1 1
                         [⟨0, [("a", JSVal.num 1), ("b", JSVal.num 2)]⟩]], 1⟩],
          paranoia := false, verbose := false, active := true, nextId := 1,
          tableTag := 0 } := by
  have h := update_locality
    { columnNames := ["a", "b"],
      rows := [⟨0, [("a", JSVal.num 1), ("b", JSVal.num 2)]⟩],
      indicies := [⟨["a"], [Entry.leaf (JSVal.num 1) 1 1
                     [⟨0, [("a", JSVal.num 1), ("b", JSVal.num 2)]⟩]], 1⟩,
                   ⟨["b"], [Entry.leaf (JSVal.num 2) 1 1
                     [⟨0, [("a", JSVal.num 1), ("b", JSVal.num 2)]⟩]], 1⟩],
      paranoia := false, verbose := false, active := true, nextId := 1,
      tableTag := 0 }
    [⟨some ⟨0, 0⟩, [("a", JSVal.num 1), ("b", JSVal.num 2)]⟩]
    rfl rfl
    [(⟨some ⟨0, 0⟩, [("a", JSVal.num 1), ("b", JSVal.num 2)]⟩,
      ⟨0, [("a", JSVal.num 1), ("b", JSVal.num 2)]⟩, [])]
    (by rfl)
  refine h.1 ?_
  intro t ht
  simp only [List.mem_singleton] at ht
  subst ht
  rfl

/-! ## Structural well-formedness of an index over numeric keys

`StructLevel cols es t` is the inductive invariant behind claim C1's
amended statement: at each level the entry values are numbers in strictly
increasing order, every entry's subtotal is the inclusive running sum of
sizes, a leaf entry's size is its row count, a node entry's size is its
nested level's total, every row below an entry carries the entry's key
value in the level's column, and the level's `total` is the sum of the
sizes.  All index values are numbers here: the counterexample shows the
invariant genuinely fails for mixed value kinds. -/

/-- The integer of a numeric cell value (0 for the non-numeric values,
which the hypotheses rule out where it matters). -/
def numOf : JSVal → Int
  | JSVal.num n => n
  | _ => 0

mutual

/-- All rows stored at or below an entry. -/
def Entry.leafRows : Entry → List Row
  | Entry.leaf _ _ _ rs => rs
  | Entry.node _ _ _ es _ => entriesLeafRows es

/-- All rows stored below a list of entries, in order. -/
def entriesLeafRows : List Entry → List Row
  | [] => []
  | e :: es => e.leafRows ++ entriesLeafRows es

end

/-- The sum of the entries' sizes. -/
def sumSizes (es : List Entry) : Int :=
  (es.map Entry.size).sum

/-- The running spine of one level: every entry satisfies the per-entry
predicate `P`, has a numeric value strictly above the previous one, and a
subtotal equal to the running sum of sizes. -/
def EntriesStruct (P : Entry → Prop) : Option Int → Int → List Entry → Prop
  | _, _, [] => True
  | prev, acc, e :: es =>
    P e ∧
    ∃ v : Int, e.value = JSVal.num v ∧
      (∀ pv, prev = some pv → pv < v) ∧
      e.subtotal = acc + e.size ∧
      EntriesStruct P (some v) (acc + e.size) es

/-- The per-entry well-formedness of a leaf entry on the last index
column: a numeric value, the recorded size is the number of rows, the
rows are nonempty and all carry the entry's value in the column. -/
def leafPred (c : String) : Entry → Prop := fun e =>
  match e with
  | Entry.leaf (JSVal.num v) s _ rs =>
    s = (rs.length : Int) ∧ rs ≠ [] ∧ ∀ r ∈ rs, r.get c = JSVal.num v
  | _ => False

/-- The per-entry well-formedness of a node entry: a numeric value, a
well-formed nonempty nested level (through `child`) whose total is the
recorded size, and every row below carries the entry's value in the
column. -/
def nodePred (c : String) (child : List Entry → Int → Prop) : Entry → Prop := fun e =>
  match e with
  | Entry.node (JSVal.num v) s _ ces ct =>
    child ces ct ∧ s = ct ∧ ces ≠ [] ∧
      ∀ r ∈ entriesLeafRows ces, r.get c = JSVal.num v
  | _ => False

/-- Structural well-formedness of one level of an index over the given
column list (numeric keys). -/
def StructLevel : List String → List Entry → Int → Prop
  | [], _, _ => False
  | [c], es, t =>
    EntriesStruct (leafPred c) none 0 es ∧ t = sumSizes es
  | c :: c2 :: rest, es, t =>
    EntriesStruct (nodePred c (StructLevel (c2 :: rest))) none 0 es ∧ t = sumSizes es

theorem entriesLeafRows_cons (e : Entry) (es : List Entry) :
    entriesLeafRows (e :: es) = e.leafRows ++ entriesLeafRows es := by
  rw [entriesLeafRows]

theorem leafRows_leaf (v : JSVal) (s st : Int) (rs : List Row) :
    (Entry.leaf v s st rs).leafRows = rs := by
  rw [Entry.leafRows]

theorem leafRows_node (v : JSVal) (s st : Int) (es : List Entry) (t : Int) :
    (Entry.node v s st es t).leafRows = entriesLeafRows es := by
  rw [Entry.leafRows]

/-- `EntriesStruct` only inspects `prev` at the head, so the previous
value can be weakened. -/
theorem EntriesStruct_mono_prev (P : Entry → Prop) (pv pv' : Int) (acc : Int)
    (es : List Entry) (h : EntriesStruct P (some pv) acc es) (hle : pv' ≤ pv) :
    EntriesStruct P (some pv') acc es := by
  cases es with
  | nil => trivial
  | cons e es =>
    obtain ⟨hP, v, hv, hprev, hsub, hrest⟩ := h
    refine ⟨hP, v, hv, ?_, hsub, hrest⟩
    intro pv₂ hpv₂
    cases hpv₂
    exact lt_of_le_of_lt hle (hprev pv rfl)

theorem EntriesStruct_drop_prev (P : Entry → Prop) (prev : Option Int) (acc : Int)
    (es : List Entry) (h : EntriesStruct P prev acc es) :
    EntriesStruct P none acc es := by
  cases es with
  | nil => trivial
  | cons e es =>
    obtain ⟨hP, v, hv, _, hsub, hrest⟩ := h
    refine ⟨hP, v, hv, ?_, hsub, hrest⟩
    intro pv hpv
    cases hpv

/-- Every entry on a well-formed spine satisfies `P`. -/
theorem EntriesStruct_forall (P : Entry → Prop) :
    ∀ (prev : Option Int) (acc : Int) (es : List Entry),
      EntriesStruct P prev acc es → ∀ e ∈ es, P e := by
  intro prev acc es
  induction es generalizing prev acc with
  | nil => intro _ e he; simp at he
  | cons e₀ es ih =>
    intro h e he
    obtain ⟨hP, v, _, _, _, hrest⟩ := h
    rcases List.mem_cons.mp he with hcase | hcase
    · exact hcase ▸ hP
    · exact ih _ _ hrest e hcase

/-- Sizes of entries on a well-formed level are at least 1 (leaf entries
carry their nonempty row list, node entries their nested total). -/
theorem StructLevel_size_pos :
    ∀ (cols : List String) (es : List Entry) (t : Int),
      StructLevel cols es t → ∀ e ∈ es, 1 ≤ e.size := by
  intro cols
  induction cols with
  | nil => intro es t h; exact absurd h (by simp [StructLevel])
  | cons c rest ih =>
    intro es t h e he
    cases rest with
    | nil =>
      obtain ⟨hspine, _⟩ := h
      have hP := EntriesStruct_forall _ _ _ _ hspine e he
      cases e with
      | leaf v s st rs =>
        cases v with
        | num n =>
          obtain ⟨hs, hne, _⟩ := hP
          have : 1 ≤ rs.length := List.length_pos.mpr hne
          simp only [Entry.size, hs]
          exact_mod_cast this
        | null => exact absurd hP (by simp [leafPred, nodePred])
        | undef => exact absurd hP (by simp [leafPred, nodePred])
      | node _ _ _ _ _ => exact absurd hP (by simp [leafPred, nodePred])
    | cons c2 rest2 =>
      obtain ⟨hspine, _⟩ := h
      have hP := EntriesStruct_forall _ _ _ _ hspine e he
      cases e with
      | leaf _ _ _ _ => exact absurd hP (by simp [leafPred, nodePred])
      | node v s st ces ct =>
        cases v with
        | num n =>
          obtain ⟨hsub, hs, hne, _⟩ := hP
          have hsizes := ih ces ct hsub
          have hsum : 1 ≤ sumSizes ces := by
            cases ces with
            | nil => exact absurd rfl hne
            | cons e₀ ces₀ =>
              have h₀ := hsizes e₀ (List.mem_cons_self _ _)
              have hrest : 0 ≤ sumSizes ces₀ := by
                have : ∀ x ∈ ces₀.map Entry.size, 0 ≤ x := by
                  intro x hx
                  obtain ⟨e₁, he₁, hx₁⟩ := List.mem_map.mp hx
                  have := hsizes e₁ (List.mem_cons_of_mem _ he₁)
                  omega
                exact List.sum_nonneg this
              simp only [sumSizes, List.map_cons, List.sum_cons]
              have : sumSizes ces₀ = (ces₀.map Entry.size).sum := rfl
              omega
          have htot : ct = sumSizes ces := by
            cases rest2 with
            | nil => exact hsub.2
            | cons _ _ => exact hsub.2
          simp only [Entry.size, hs, htot]
          exact hsum
        | null => exact absurd hP (by simp [leafPred, nodePred])
        | undef => exact absurd hP (by simp [leafPred, nodePred])

theorem sumSizes_nil : sumSizes [] = 0 := rfl

theorem sumSizes_cons (e : Entry) (es : List Entry) :
    sumSizes (e :: es) = e.size + sumSizes es := by
  simp [sumSizes]

theorem sumSizes_nonneg (es : List Entry) (h : ∀ e ∈ es, 1 ≤ e.size) :
    0 ≤ sumSizes es := by
  induction es with
  | nil => simp [sumSizes]
  | cons e es ih =>
    rw [sumSizes_cons]
    have h₀ := h e (List.mem_cons_self _ _)
    have h₁ := ih (fun x hx => h x (List.mem_cons_of_mem _ hx))
    omega

theorem sumSizes_pos (es : List Entry) (hne : es ≠ [])
    (h : ∀ e ∈ es, 1 ≤ e.size) : 1 ≤ sumSizes es := by
  cases es with
  | nil => exact absurd rfl hne
  | cons e es =>
    rw [sumSizes_cons]
    have h₀ := h e (List.mem_cons_self _ _)
    have h₁ := sumSizes_nonneg es (fun x hx => h x (List.mem_cons_of_mem _ hx))
    omega

theorem length_le_sumSizes (es : List Entry) (h : ∀ e ∈ es, 1 ≤ e.size) :
    (es.length : Int) ≤ sumSizes es := by
  induction es with
  | nil => simp [sumSizes]
  | cons e es ih =>
    rw [sumSizes_cons]
    have h₀ := h e (List.mem_cons_self _ _)
    have h₁ := ih (fun x hx => h x (List.mem_cons_of_mem _ hx))
    simp only [List.length_cons]
    push_cast
    omega

theorem StructLevel_total_eq :
    ∀ (cols : List String) (es : List Entry) (t : Int),
      StructLevel cols es t → t = sumSizes es := by
  intro cols es t h
  match cols with
  | [] => exact absurd h (by simp [StructLevel])
  | [c] => exact h.2
  | c :: c2 :: rest => exact h.2

theorem validateEntriesWith_cons
    (childCheck : Option (List Entry → Int → Except String Unit))
    (e : Entry) (es : List Entry) (sub : Int) (lastValue : Option JSVal) :
    validateEntriesWith childCheck (e :: es) sub lastValue =
    (if e.size = 0 then
      Except.error "Index entry with a size of 0"
    else if e.dataLength = 0 then
      Except.error "Index entry with no data"
    else if (e.dataLength : Int) > e.size then
      Except.error "Index entry with more data than the recorded size"
    else
      entryOrderCheck e lastValue >>= fun _ =>
      if sub + e.size ≠ e.subtotal then
        Except.error "Subtotal was not correct"
      else
        entryChildCheck childCheck e >>= fun _ =>
        validateEntriesWith childCheck es (sub + e.size) (some e.value)) := rfl

/-- A well-formed spine passes the per-level entry walk of
`validateIndex`, computing the running sum. -/
theorem validateEntriesWith_ok (P : Entry → Prop)
    (childCheck : Option (List Entry → Int → Except String Unit))
    (hP : ∀ e, P e → e.size ≠ 0 ∧ e.dataLength ≠ 0 ∧ (e.dataLength : Int) ≤ e.size ∧
      (match childCheck with
       | some chk => ∃ vv ss stt ces ct, e = Entry.node vv ss stt ces ct ∧
          chk ces ct = Except.ok ()
       | none => (e.dataLength : Int) = e.size)) :
    ∀ (es : List Entry) (prev : Option Int) (acc : Int),
      EntriesStruct P prev acc es →
      validateEntriesWith childCheck es acc (prev.map JSVal.num) =
        Except.ok (acc + sumSizes es) := by
  intro es
  induction es with
  | nil =>
    intro prev acc _
    simp [validateEntriesWith, sumSizes_nil]
  | cons e es ih =>
    intro prev acc hes
    obtain ⟨hPe, v, hv, hprev, hsub, hrest⟩ := hes
    obtain ⟨hs0, hd0, hdle, hchild⟩ := hP e hPe
    rw [validateEntriesWith_cons]
    rw [if_neg hs0, if_neg (by simpa using hd0), if_neg (by omega)]
    have hlast : entryOrderCheck e (prev.map JSVal.num) = pure () := by
      cases prev with
      | none => rfl
      | some pv =>
        have hpv := hprev pv rfl
        show (if jsEq e.value (JSVal.num pv) then
            (Except.error "Index entry was duplicated" : Except String Unit)
          else if jsLt e.value (JSVal.num pv) then
            Except.error "Index entry was out of order"
          else pure ()) = pure ()
        rw [hv]
        have h1 : jsEq (JSVal.num v) (JSVal.num pv) = false := by
          simp [jsEq]
          omega
        have h2 : jsLt (JSVal.num v) (JSVal.num pv) = false := by
          simp only [jsLt, jsCompare]
          have : compare v pv = Ordering.gt := by
            simp [compare_gt_iff_gt]
            omega
          rw [this]
          rfl
        rw [h1, h2]
        simp
    rw [hlast]
    simp only [exceptBind_ok, pure_bind]
    rw [if_neg (by omega)]
    have hinner : entryChildCheck childCheck e = pure () := by
      cases childCheck with
      | some chk =>
        obtain ⟨vv, ss, stt, ces, ct, he, hchk⟩ := hchild
        subst he
        exact hchk
      | none =>
        cases e with
        | leaf vv ss stt rs =>
          have hx : (rs.length : Int) = ss := by
            simpa [Entry.dataLength, Entry.size] using hchild
          show (if (rs.length : Int) ≠ ss then
              (Except.error "Final index entry where size was incorrect" : Except String Unit)
            else pure ()) = pure ()
          rw [if_neg (by omega)]
        | node vv ss stt ces ct =>
          have hx : (ces.length : Int) = ss := by
            simpa [Entry.dataLength, Entry.size] using hchild
          show (if (ces.length : Int) ≠ ss then
              (Except.error "Final index entry where size was incorrect" : Except String Unit)
            else pure ()) = pure ()
          rw [if_neg (by omega)]
    rw [hinner]
    simp only [pure_bind]
    have hrec : validateEntriesWith childCheck es (acc + e.size) (some (JSVal.num v)) =
        Except.ok (acc + e.size + sumSizes es) := ih (some v) (acc + e.size) hrest
    rw [hv, hrec, sumSizes_cons]
    congr 1
    omega

/-- A structurally well-formed level passes `validateIndex`. -/
theorem StructLevel_validate :
    ∀ (cols : List String) (es : List Entry) (t : Int),
      StructLevel cols es t → validateLevel cols es t = Except.ok () := by
  intro cols
  induction cols with
  | nil => intro es t h; exact absurd h (by simp [StructLevel])
  | cons c rest ih =>
    intro es t h
    have hsizes := StructLevel_size_pos (c :: rest) es t h
    have htot := StructLevel_total_eq (c :: rest) es t h
    cases rest with
    | nil =>
      obtain ⟨hspine, _⟩ := h
      have hwalk := validateEntriesWith_ok _ none ?_ es none 0 hspine
      · rw [show Option.map JSVal.num (none : Option Int) = (none : Option JSVal)
          from rfl] at hwalk
        rw [validateLevel]
        rw [hwalk]
        simp only [exceptBind_ok]
        rw [if_neg (by omega)]
        rfl
      · intro e hPe
        cases e with
        | leaf vv ss stt rs =>
          cases vv with
          | num n =>
            obtain ⟨hs, hne, _⟩ := hPe
            have hlen : 1 ≤ rs.length := List.length_pos.mpr hne
            refine ⟨?_, ?_, ?_, ?_⟩
            · simp only [Entry.size, hs]
              intro hcon
              omega
            · simp only [Entry.dataLength]
              omega
            · show (rs.length : Int) ≤ ss
              omega
            · show (rs.length : Int) = ss
              omega
          | null => exact absurd hPe (by simp [leafPred, nodePred])
          | undef => exact absurd hPe (by simp [leafPred, nodePred])
        | node _ _ _ _ _ => exact absurd hPe (by simp [leafPred, nodePred])
    | cons c2 rest2 =>
      obtain ⟨hspine, _⟩ := h
      have hwalk := validateEntriesWith_ok _ (some (validateLevel (c2 :: rest2))) ?_
        es none 0 hspine
      · rw [show Option.map JSVal.num (none : Option Int) = (none : Option JSVal)
          from rfl] at hwalk
        rw [validateLevel]
        rw [hwalk]
        simp only [exceptBind_ok]
        rw [if_neg (by omega)]
        rfl
      · intro e hPe
        cases e with
        | leaf _ _ _ _ => exact absurd hPe (by simp [leafPred, nodePred])
        | node vv ss stt ces ct =>
          cases vv with
          | num n =>
            obtain ⟨hsub, hs, hne, _⟩ := hPe
            have hchild := ih ces ct hsub
            have hcsizes := StructLevel_size_pos (c2 :: rest2) ces ct hsub
            have hctot := StructLevel_total_eq (c2 :: rest2) ces ct hsub
            have hcpos := sumSizes_pos ces hne hcsizes
            have hclen := length_le_sumSizes ces hcsizes
            refine ⟨?_, ?_, ?_, ?_⟩
            · simp only [Entry.size, hs]
              omega
            · simp only [Entry.dataLength]
              have : 0 < ces.length := List.length_pos.mpr hne
              omega
            · simp only [Entry.dataLength, Entry.size, hs]
              omega
            · exact ⟨_, _, _, _, _, rfl, hchild⟩
          | null => exact absurd hPe (by simp [leafPred, nodePred])
          | undef => exact absurd hPe (by simp [leafPred, nodePred])

/-! ## Sorting facts for key-driven comparators

All comparators the index machinery uses compare numeric `value`s, so
their behaviour on the lists at hand is fully described by an integer
key function. -/

theorem jsSortInsert_perm (cmp : α → α → Int) (x : α) :
    ∀ l : List α, List.Perm (jsSortInsert cmp x l) (x :: l) := by
  intro l
  induction l with
  | nil => simp [jsSortInsert]
  | cons y ys ih =>
    rw [jsSortInsert]
    by_cases h : cmp y x < 0
    · rw [if_pos h]
      exact (ih.cons y).trans (List.Perm.swap x y ys)
    · rw [if_neg h]

theorem jsSort_perm (cmp : α → α → Int) (l : List α) :
    List.Perm (jsSort cmp l) l := by
  induction l with
  | nil => simp [jsSort]
  | cons x xs ih =>
    have hstep : jsSort cmp (x :: xs) = jsSortInsert cmp x (jsSort cmp xs) := rfl
    rw [hstep]
    exact (jsSortInsert_perm cmp x (jsSort cmp xs)).trans (ih.cons x)

theorem jsSortInsert_sorted (cmp : α → α → Int) (k : α → Int) (x : α) :
    ∀ l : List α,
      l.Pairwise (fun a b => k a ≤ k b) →
      (∀ a ∈ l, (cmp a x < 0 → k a < k x) ∧ (¬ cmp a x < 0 → k x ≤ k a)) →
      (jsSortInsert cmp x l).Pairwise (fun a b => k a ≤ k b) := by
  intro l
  induction l with
  | nil =>
    intro _ _
    simp [jsSortInsert]
  | cons y ys ih =>
    intro hl hc
    rw [jsSortInsert]
    rcases List.pairwise_cons.mp hl with ⟨hyys, hys⟩
    by_cases h : cmp y x < 0
    · rw [if_pos h]
      refine List.pairwise_cons.mpr ⟨?_, ?_⟩
      · intro a ha
        have ha' := (jsSortInsert_perm cmp x ys).mem_iff.mp ha
        rcases List.mem_cons.mp ha' with rfl | hmem
        · exact le_of_lt ((hc y (List.mem_cons_self _ _)).1 h)
        · exact hyys a hmem
      · exact ih hys (fun a ha => hc a (List.mem_cons_of_mem _ ha))
    · rw [if_neg h]
      refine List.pairwise_cons.mpr ⟨?_, hl⟩
      intro a ha
      have hxy := (hc y (List.mem_cons_self _ _)).2 h
      rcases List.mem_cons.mp ha with rfl | hmem
      · exact hxy
      · exact le_trans hxy (hyys a hmem)

/-- Sorting with a comparator whose sign agrees with an integer key
yields a key-sorted list. -/
theorem jsSort_sorted (cmp : α → α → Int) (k : α → Int) (l : List α)
    (hcmp : ∀ a ∈ l, ∀ b ∈ l, (cmp a b < 0 ↔ k a < k b)) :
    (jsSort cmp l).Pairwise (fun a b => k a ≤ k b) := by
  induction l with
  | nil => simp [jsSort]
  | cons x xs ih =>
    have hstep : jsSort cmp (x :: xs) = jsSortInsert cmp x (jsSort cmp xs) := rfl
    rw [hstep]
    have hxs := ih (fun a ha b hb =>
      hcmp a (List.mem_cons_of_mem _ ha) b (List.mem_cons_of_mem _ hb))
    refine jsSortInsert_sorted cmp k x (jsSort cmp xs) hxs ?_
    intro a ha
    have hamem : a ∈ x :: xs :=
      List.mem_cons_of_mem _ ((jsSort_perm cmp xs).mem_iff.mp ha)
    have hiff := hcmp a hamem x (List.mem_cons_self _ _)
    have hiff2 := hcmp x (List.mem_cons_self _ _) a hamem
    constructor
    · intro h
      exact hiff.mp h
    · intro h
      by_contra hxa
      push_neg at hxa
      exact h (hiff.mpr (by omega))

/-- A list whose keys already strictly increase is a fixpoint of the
sort. -/
theorem jsSort_fixpoint (cmp : α → α → Int) (k : α → Int) :
    ∀ l : List α,
      l.Chain' (fun a b => k a < k b) →
      (∀ a ∈ l, ∀ b ∈ l, (cmp a b < 0 ↔ k a < k b)) →
      jsSort cmp l = l := by
  intro l
  induction l with
  | nil => intro _ _; rfl
  | cons x xs ih =>
    intro hch hcmp
    have hstep : jsSort cmp (x :: xs) = jsSortInsert cmp x (jsSort cmp xs) := rfl
    rw [hstep]
    have hxs : jsSort cmp xs = xs :=
      ih hch.tail (fun a ha b hb =>
        hcmp a (List.mem_cons_of_mem _ ha) b (List.mem_cons_of_mem _ hb))
    rw [hxs]
    cases xs with
    | nil => rfl
    | cons y ys =>
      rw [jsSortInsert]
      have hxy : k x < k y := by
        have := hch
        rw [List.chain'_cons] at this
        exact this.1
      have : ¬ cmp y x < 0 := by
        intro h
        have := (hcmp y (by simp) x (by simp)).mp h
        omega
      rw [if_neg this]

/-! ## Grouping facts (`buildShallowIndex`) -/

/-- The key of a run of rows: its first row's key. -/
def runKey (k : Row → Int) : List Row → Int
  | [] => 0
  | r :: _ => k r

theorem groupRunsBy_join (q : Row → Row → Bool) :
    ∀ l : List Row, (groupRunsBy q l).flatten = l := by
  intro l
  induction l with
  | nil => rfl
  | cons x xs ih =>
    rw [groupRunsBy]
    cases hG : groupRunsBy q xs with
    | nil =>
      rw [hG] at ih
      simp only [List.flatten_nil] at ih
      simp [← ih]
    | cons g1 gs =>
      rw [hG] at ih
      cases g1 with
      | nil =>
        simp only [List.flatten_cons, List.nil_append] at ih
        simp [ih]
      | cons y g0 =>
        by_cases hq : q x y
        · simp only [if_pos hq, List.flatten_cons]
          simp only [List.flatten_cons] at ih
          simp [ih]
        · simp only [if_neg hq, List.flatten_cons]
          simp only [List.flatten_cons] at ih
          simp [ih]

theorem groupRunsBy_ne_nil (q : Row → Row → Bool) :
    ∀ l : List Row, ∀ g ∈ groupRunsBy q l, g ≠ [] := by
  intro l
  induction l with
  | nil => intro g hg; simp [groupRunsBy] at hg
  | cons x xs ih =>
    intro g hg
    rw [groupRunsBy] at hg
    cases hG : groupRunsBy q xs with
    | nil =>
      rw [hG] at hg
      simp only [List.mem_singleton] at hg
      subst hg
      simp
    | cons g1 gs =>
      rw [hG] at hg
      cases g1 with
      | nil =>
        rcases List.mem_cons.mp hg with rfl | h
        · simp
        · exact ih g (hG ▸ List.mem_cons_of_mem _ h)
      | cons y g0 =>
        by_cases hq : q x y
        · simp only [if_pos hq] at hg
          rcases List.mem_cons.mp hg with rfl | h
          · simp
          · exact ih g (hG ▸ List.mem_cons_of_mem _ h)
        · simp only [if_neg hq] at hg
          rcases List.mem_cons.mp hg with rfl | h
          · simp
          · exact ih g (hG ▸ h)

/-- On a key-sorted list whose equality test agrees with key equality,
the runs have constant keys and strictly increasing run keys. -/
theorem groupRunsBy_sorted (q : Row → Row → Bool) (k : Row → Int) :
    ∀ l : List Row,
      l.Pairwise (fun a b => k a ≤ k b) →
      (∀ a ∈ l, ∀ b ∈ l, (q a b = true ↔ k a = k b)) →
      (∀ g ∈ groupRunsBy q l, ∀ r ∈ g, ∀ r' ∈ g, k r = k r') ∧
      (groupRunsBy q l).Chain' (fun g g' => runKey k g < runKey k g') := by
  intro l
  induction l with
  | nil => intro _ _; exact ⟨by simp [groupRunsBy], by simp [groupRunsBy]⟩
  | cons x xs ih =>
    intro hsort hq
    rcases List.pairwise_cons.mp hsort with ⟨hxle, hxs⟩
    obtain ⟨ihConst, ihChain⟩ := ih hxs (fun a ha b hb =>
      hq a (List.mem_cons_of_mem _ ha) b (List.mem_cons_of_mem _ hb))
    rw [groupRunsBy]
    cases hG : groupRunsBy q xs with
    | nil =>
      constructor
      · intro g hg r hr r' hr'
        simp only [List.mem_singleton] at hg
        subst hg
        simp only [List.mem_singleton] at hr hr'
        subst hr; subst hr'
        rfl
      · simp
    | cons g1 gs =>
      rw [hG] at ihConst ihChain
      cases g1 with
      | nil =>
        exact absurd rfl (groupRunsBy_ne_nil q xs [] (hG ▸ List.mem_cons_self _ _))
      | cons y g0 =>
        have hymem : y ∈ xs := by
          have : y ∈ ((y :: g0) :: gs).flatten :=
            List.mem_flatten.mpr ⟨y :: g0, List.mem_cons_self _ _, List.mem_cons_self _ _⟩
          rw [← hG, groupRunsBy_join] at this
          exact this
        have hky : ∀ r ∈ y :: g0, k r = k y :=
          fun r hr => ihConst (y :: g0) (List.mem_cons_self _ _) r hr y
            (List.mem_cons_self _ _)
        by_cases hqxy : q x y
        · simp only [if_pos hqxy]
          have hkxy : k x = k y :=
            (hq x (List.mem_cons_self _ _) y (List.mem_cons_of_mem _ hymem)).mp hqxy
          constructor
          · intro g hg r hr r' hr'
            rcases List.mem_cons.mp hg with rfl | h
            · have hval : ∀ r₀ ∈ x :: y :: g0, k r₀ = k x := by
                intro r₀ hr₀
                rcases List.mem_cons.mp hr₀ with rfl | h₀
                · rfl
                · rw [hky r₀ h₀, ← hkxy]
              rw [hval r hr, hval r' hr']
            · exact ihConst g (List.mem_cons_of_mem _ h) r hr r' hr'
          · rcases List.chain'_cons'.mp ihChain with ⟨hhead, htail⟩
            refine List.chain'_cons'.mpr ⟨?_, htail⟩
            intro b hb
            have := hhead b hb
            simpa [runKey, hkxy] using this
        · simp only [if_neg hqxy]
          have hkne : k x ≠ k y := by
            intro h
            exact hqxy ((hq x (List.mem_cons_self _ _) y
              (List.mem_cons_of_mem _ hymem)).mpr h)
          have hkxy : k x < k y := lt_of_le_of_ne (hxle y hymem) hkne
          constructor
          · intro g hg r hr r' hr'
            rcases List.mem_cons.mp hg with rfl | h
            · simp only [List.mem_singleton] at hr hr'
              subst hr; subst hr'
              rfl
            · exact ihConst g h r hr r' hr'
          · refine List.chain'_cons'.mpr ⟨?_, ihChain⟩
            intro b hb
            simp only [List.head?] at hb
            cases hb
            simpa [runKey] using hkxy

theorem entriesOfRuns_cons (c : String) (acc : Int) (g : List Row)
    (gs : List (List Row)) :
    entriesOfRuns c acc (g :: gs) =
    Entry.leaf (match g with | r :: _ => r.get c | [] => JSVal.undef)
      (g.length : Int) (acc + (g.length : Int)) g ::
      entriesOfRuns c (acc + (g.length : Int)) gs := rfl

theorem entriesOfRuns_leafRows (c : String) :
    ∀ (gs : List (List Row)) (acc : Int),
      entriesLeafRows (entriesOfRuns c acc gs) = gs.flatten := by
  intro gs
  induction gs with
  | nil => intro acc; rfl
  | cons g gs ih =>
    intro acc
    rw [entriesOfRuns_cons, entriesLeafRows_cons, ih, List.flatten_cons, leafRows_leaf]

theorem entriesOfRuns_sumSizes (c : String) :
    ∀ (gs : List (List Row)) (acc : Int),
      sumSizes (entriesOfRuns c acc gs) = ((gs.flatten.length : Nat) : Int) := by
  intro gs
  induction gs with
  | nil => intro acc; rfl
  | cons g gs ih =>
    intro acc
    rw [entriesOfRuns_cons, sumSizes_cons, ih, List.flatten_cons]
    simp only [Entry.size, List.length_append]
    push_cast
    ring

theorem entriesOfRuns_total (c : String) :
    ∀ (gs : List (List Row)) (acc : Int),
      (match (entriesOfRuns c acc gs).getLast? with
       | some e => e.subtotal
       | none => acc) = acc + sumSizes (entriesOfRuns c acc gs) := by
  intro gs
  induction gs with
  | nil => intro acc; simp [entriesOfRuns, sumSizes_nil]
  | cons g gs ih =>
    intro acc
    rw [entriesOfRuns_cons]
    cases hrest : entriesOfRuns c (acc + (g.length : Int)) gs with
    | nil =>
      simp only [List.getLast?_singleton, sumSizes_cons, hrest, sumSizes_nil,
        Entry.subtotal, Entry.size]
      ring
    | cons e2 rest2 =>
      have hih := ih (acc + (g.length : Int))
      rw [hrest] at hih
      rw [List.getLast?_cons_cons]
      have hne2 : (e2 :: rest2) ≠ [] := by simp
      have hlast : (e2 :: rest2).getLast? = some ((e2 :: rest2).getLast hne2) :=
        List.getLast?_eq_getLast _ hne2
      rw [hlast] at hih ⊢
      have hih2 : ((e2 :: rest2).getLast hne2).subtotal =
          acc + (g.length : Int) + sumSizes (e2 :: rest2) := hih
      show ((e2 :: rest2).getLast hne2).subtotal = _
      rw [sumSizes_cons]
      simp only [Entry.size]
      omega

/-- The spine facts of `entriesOfRuns` over well-formed runs. -/
theorem entriesOfRuns_struct (c : String) (k : Row → Int) :
    ∀ (gs : List (List Row)) (acc : Int) (prev : Option Int),
      (∀ g ∈ gs, g ≠ []) →
      (∀ g ∈ gs, ∀ r ∈ g, r.get c = JSVal.num (k r)) →
      (∀ g ∈ gs, ∀ r ∈ g, ∀ r' ∈ g, k r = k r') →
      gs.Chain' (fun g g' => runKey k g < runKey k g') →
      (∀ pv, prev = some pv → ∀ g, gs.head? = some g → pv < runKey k g) →
      EntriesStruct (leafPred c) prev acc (entriesOfRuns c acc gs) := by
  intro gs
  induction gs with
  | nil => intro acc prev _ _ _ _ _; trivial
  | cons g gs ih =>
    intro acc prev hne hnum hconst hchain hprev
    cases g with
    | nil => exact absurd rfl (hne [] (List.mem_cons_self _ _))
    | cons y g0 =>
      rw [entriesOfRuns_cons]
      have hyval : y.get c = JSVal.num (k y) :=
        hnum (y :: g0) (List.mem_cons_self _ _) y (List.mem_cons_self _ _)
      refine ⟨?_, k y, ?_, ?_, ?_, ?_⟩
      · show leafPred c (Entry.leaf (y.get c) _ _ (y :: g0))
        rw [hyval]
        refine ⟨rfl, by simp, ?_⟩
        intro r hr
        rw [hnum (y :: g0) (List.mem_cons_self _ _) r hr,
          hconst (y :: g0) (List.mem_cons_self _ _) r hr y (List.mem_cons_self _ _)]
      · show (y.get c) = JSVal.num (k y)
        exact hyval
      · intro pv hpv
        have := hprev pv hpv (y :: g0) rfl
        simpa [runKey] using this
      · rfl
      · refine ih (acc + ((y :: g0).length : Int)) (some (k y))
          (fun g hg => hne g (List.mem_cons_of_mem _ hg))
          (fun g hg => hnum g (List.mem_cons_of_mem _ hg))
          (fun g hg => hconst g (List.mem_cons_of_mem _ hg))
          hchain.tail ?_
        intro pv hpv g hg
        cases hpv
        rcases List.chain'_cons'.mp hchain with ⟨hhead, _⟩
        have := hhead g hg
        simpa [runKey] using this

/-! ## Structural well-formedness of the bulk build -/

theorem Comparator_lt_iff (a b : Int) :
    (Comparator (JSVal.num a) (JSVal.num b) < 0) ↔ a < b := by
  rw [Comparator_num_num]
  rcases lt_trichotomy a b with h | h | h
  · rw [if_neg (ne_of_lt h), if_neg (by omega)]
    simp [h]
  · rw [if_pos h]
    simp
    omega
  · rw [if_neg (ne_of_gt h), if_pos (by omega)]
    constructor
    · intro h'
      omega
    · intro h'
      omega

theorem mem_entriesLeafRows_of_mem {r : Row} :
    ∀ (es : List Entry) (e : Entry), e ∈ es → r ∈ e.leafRows →
      r ∈ entriesLeafRows es := by
  intro es
  induction es with
  | nil => intro e he; simp at he
  | cons e0 es ih =>
    intro e he hr
    rw [entriesLeafRows_cons]
    rcases List.mem_cons.mp he with rfl | h
    · exact List.mem_append_left _ hr
    · exact List.mem_append_right _ (ih e h hr)

theorem EntriesStruct_map (P Q : Entry → Prop) (f : Entry → Entry) :
    ∀ (prev : Option Int) (acc : Int) (es : List Entry),
      (∀ e ∈ es, P e → Q (f e) ∧ (f e).value = e.value ∧ (f e).size = e.size ∧
        (f e).subtotal = e.subtotal) →
      EntriesStruct P prev acc es → EntriesStruct Q prev acc (es.map f) := by
  intro prev acc es
  induction es generalizing prev acc with
  | nil => intro _ _; trivial
  | cons e es ih =>
    intro hf h
    obtain ⟨hP, v, hv, hprev, hsub, hrest⟩ := h
    obtain ⟨hQ, hval, hsz, hst⟩ := hf e (List.mem_cons_self _ _) hP
    rw [List.map_cons]
    refine ⟨hQ, v, by rw [hval, hv], hprev, by rw [hst, hsz, hsub], ?_⟩
    rw [hsz]
    exact ih _ _ (fun x hx => hf x (List.mem_cons_of_mem _ hx)) hrest

theorem sumSizes_map (f : Entry → Entry) :
    ∀ es : List Entry, (∀ e ∈ es, (f e).size = e.size) →
      sumSizes (es.map f) = sumSizes es := by
  intro es
  induction es with
  | nil => intro _; rfl
  | cons e es ih =>
    intro h
    rw [List.map_cons, sumSizes_cons, sumSizes_cons,
      h e (List.mem_cons_self _ _), ih (fun x hx => h x (List.mem_cons_of_mem _ hx))]

theorem entriesLeafRows_map_perm (f : Entry → Entry) :
    ∀ es : List Entry, (∀ e ∈ es, List.Perm ((f e).leafRows) e.leafRows) →
      List.Perm (entriesLeafRows (es.map f)) (entriesLeafRows es) := by
  intro es
  induction es with
  | nil => intro _; rfl
  | cons e es ih =>
    intro h
    rw [List.map_cons, entriesLeafRows_cons, entriesLeafRows_cons]
    exact (h e (List.mem_cons_self _ _)).append
      (ih (fun x hx => h x (List.mem_cons_of_mem _ hx)))

theorem buildShallowIndex_snd_eq (c : String) (rows : List Row) :
    (buildShallowIndex c rows).2 =
      match (buildShallowIndex c rows).1.getLast? with
      | some e0 => e0.subtotal
      | none => (0 : Int) := rfl

theorem buildShallowIndex_fst (c : String) (rows : List Row) :
    (buildShallowIndex c rows).1 =
    entriesOfRuns c 0 (groupRunsBy (fun a b => jsStrictEq (a.get c) (b.get c))
      (jsSort (fun a b => Comparator (a.get c) (b.get c)) rows)) := rfl

/-- The core facts about `buildShallowIndex` on numeric rows: its level
is a well-formed spine, its `total` is the sum of sizes, and its rows
are the sorted input rows. -/
theorem buildShallowIndex_struct (c : String) (rows : List Row)
    (hget : ∀ r ∈ rows, r.get c = JSVal.num (numOf (r.get c))) :
    EntriesStruct (leafPred c) none 0 (buildShallowIndex c rows).1 ∧
    (buildShallowIndex c rows).2 = sumSizes (buildShallowIndex c rows).1 ∧
    entriesLeafRows (buildShallowIndex c rows).1 =
      jsSort (fun a b => Comparator (a.get c) (b.get c)) rows := by
  have hperm : List.Perm
      (jsSort (fun a b => Comparator (a.get c) (b.get c)) rows) rows :=
    jsSort_perm _ rows
  have hgets : ∀ r ∈ jsSort (fun a b => Comparator (a.get c) (b.get c)) rows,
      r.get c = JSVal.num (numOf (r.get c)) :=
    fun r hr => hget r (hperm.mem_iff.mp hr)
  have hsorted : (jsSort (fun a b => Comparator (a.get c) (b.get c)) rows).Pairwise
      (fun a b => numOf (a.get c) ≤ numOf (b.get c)) := by
    refine jsSort_sorted _ (fun r => numOf (r.get c)) rows ?_
    intro a ha b hb
    rw [hget a ha, hget b hb, Comparator_lt_iff]
  have hq : ∀ a ∈ jsSort (fun a b => Comparator (a.get c) (b.get c)) rows,
      ∀ b ∈ jsSort (fun a b => Comparator (a.get c) (b.get c)) rows,
      ((jsStrictEq (a.get c) (b.get c)) = true ↔
        numOf (a.get c) = numOf (b.get c)) := by
    intro a ha b hb
    rw [hgets a ha, hgets b hb]
    simp [jsStrictEq, numOf]
  obtain ⟨hconst, hchain⟩ := groupRunsBy_sorted
    (fun a b => jsStrictEq (a.get c) (b.get c)) (fun r => numOf (r.get c))
    (jsSort (fun a b => Comparator (a.get c) (b.get c)) rows) hsorted hq
  have hjoin := groupRunsBy_join (fun a b => jsStrictEq (a.get c) (b.get c))
    (jsSort (fun a b => Comparator (a.get c) (b.get c)) rows)
  have hmemg : ∀ g ∈ groupRunsBy (fun a b => jsStrictEq (a.get c) (b.get c))
      (jsSort (fun a b => Comparator (a.get c) (b.get c)) rows),
      ∀ r ∈ g, r.get c = JSVal.num (numOf (r.get c)) := by
    intro g hg r hr
    refine hgets r ?_
    rw [← hjoin]
    exact List.mem_flatten.mpr ⟨g, hg, hr⟩
  have hstruct : EntriesStruct (leafPred c) none 0 (buildShallowIndex c rows).1 := by
    rw [buildShallowIndex_fst]
    refine entriesOfRuns_struct c (fun r => numOf (r.get c)) _ 0 none
      (groupRunsBy_ne_nil _ _) hmemg hconst hchain ?_
    intro pv hpv
    cases hpv
  refine ⟨hstruct, ?_, ?_⟩
  · have htot := entriesOfRuns_total c
      (groupRunsBy (fun a b => jsStrictEq (a.get c) (b.get c))
        (jsSort (fun a b => Comparator (a.get c) (b.get c)) rows)) 0
    rw [← buildShallowIndex_fst] at htot
    cases hlast : (buildShallowIndex c rows).1.getLast? with
    | none =>
      rw [hlast] at htot
      have h2 : (buildShallowIndex c rows).2 = 0 := by
        rw [buildShallowIndex_snd_eq, hlast]
      have h3 : (0 : Int) = 0 + sumSizes (buildShallowIndex c rows).1 := htot
      rw [h2]
      omega
    | some e =>
      rw [hlast] at htot
      have h2 : (buildShallowIndex c rows).2 = e.subtotal := by
        rw [buildShallowIndex_snd_eq, hlast]
      have h3 : e.subtotal = 0 + sumSizes (buildShallowIndex c rows).1 := htot
      rw [h2]
      omega
  · rw [buildShallowIndex_fst, entriesOfRuns_leafRows, hjoin]

theorem sumSizes_eq_len (es : List Entry)
    (h : ∀ e ∈ es, e.size = ((e.leafRows).length : Int)) :
    sumSizes es = ((entriesLeafRows es).length : Int) := by
  induction es with
  | nil => rfl
  | cons e es ih =>
    rw [sumSizes_cons, entriesLeafRows_cons, h e (List.mem_cons_self _ _),
      ih (fun x hx => h x (List.mem_cons_of_mem _ hx))]
    simp [List.length_append]

/-- On a well-formed level the sum of sizes counts the rows below. -/
theorem StructLevel_sumSizes_len :
    ∀ (cols : List String) (es : List Entry) (t : Int),
      StructLevel cols es t → sumSizes es = ((entriesLeafRows es).length : Int) := by
  intro cols
  induction cols with
  | nil => intro es t h; exact absurd h (by simp [StructLevel])
  | cons c rest ih =>
    intro es t h
    cases rest with
    | nil =>
      obtain ⟨hspine, _⟩ := h
      refine sumSizes_eq_len es ?_
      intro e he
      have hP := EntriesStruct_forall _ _ _ _ hspine e he
      cases e with
      | leaf v s st rs =>
        cases v with
        | num n =>
          obtain ⟨hs, _, _⟩ := hP
          simpa [Entry.size, leafRows_leaf] using hs
        | null => exact absurd hP (by simp [leafPred])
        | undef => exact absurd hP (by simp [leafPred])
      | node _ _ _ _ _ => exact absurd hP (by simp [leafPred])
    | cons c2 rest2 =>
      obtain ⟨hspine, _⟩ := h
      refine sumSizes_eq_len es ?_
      intro e he
      have hP := EntriesStruct_forall _ _ _ _ hspine e he
      cases e with
      | leaf _ _ _ _ => exact absurd hP (by simp [nodePred])
      | node v s st ces ct =>
        cases v with
        | num n =>
          obtain ⟨hsub, hs, _, _⟩ := hP
          have hlen := ih ces ct hsub
          have hct := StructLevel_total_eq _ _ _ hsub
          rw [leafRows_node]
          simp only [Entry.size]
          omega
        | null => exact absurd hP (by simp [nodePred])
        | undef => exact absurd hP (by simp [nodePred])

theorem buildIndexRows_cons₂ (c c2 : String) (rest : List String) (rows : List Row) :
    buildIndexRows (c :: c2 :: rest) rows =
    ((buildShallowIndex c rows).1.map (fun e =>
      match e with
      | Entry.leaf v s st rs =>
        Entry.node v s st (buildIndexRows (c2 :: rest) rs).1
          (buildIndexRows (c2 :: rest) rs).2
      | e => e),
     (buildShallowIndex c rows).2) := rfl

/-- The bulk build over numeric rows produces a well-formed index whose
rows are a permutation of the input. -/
theorem buildIndexRows_struct :
    ∀ (cols : List String) (rows : List Row),
      cols ≠ [] →
      (∀ c ∈ cols, ∀ r ∈ rows, r.get c = JSVal.num (numOf (r.get c))) →
      StructLevel cols (buildIndexRows cols rows).1 (buildIndexRows cols rows).2 ∧
      List.Perm (entriesLeafRows (buildIndexRows cols rows).1) rows := by
  intro cols
  induction cols with
  | nil => intro rows h; exact absurd rfl h
  | cons c rest ih =>
    intro rows _ hnum
    cases rest with
    | nil =>
      obtain ⟨h1, h2, h3⟩ :=
        buildShallowIndex_struct c rows (hnum c (List.mem_cons_self _ _))
      constructor
      · exact ⟨h1, h2⟩
      · show List.Perm (entriesLeafRows (buildShallowIndex c rows).1) rows
        rw [h3]
        exact jsSort_perm _ rows
    | cons c2 rest2 =>
      obtain ⟨h1, h2, h3⟩ :=
        buildShallowIndex_struct c rows (hnum c (List.mem_cons_self _ _))
      have hmemrows : ∀ e ∈ (buildShallowIndex c rows).1, ∀ r ∈ e.leafRows,
          r ∈ rows := by
        intro e he r hr
        have : r ∈ entriesLeafRows (buildShallowIndex c rows).1 :=
          mem_entriesLeafRows_of_mem _ e he hr
        rw [h3] at this
        exact (jsSort_perm _ rows).mem_iff.mp this
      have hsub : ∀ e ∈ (buildShallowIndex c rows).1, leafPred c e →
          ∀ v s st rs, e = Entry.leaf v s st rs →
          StructLevel (c2 :: rest2) (buildIndexRows (c2 :: rest2) rs).1
            (buildIndexRows (c2 :: rest2) rs).2 ∧
          List.Perm (entriesLeafRows (buildIndexRows (c2 :: rest2) rs).1) rs := by
        intro e he _ v s st rs hE
        refine ih rs (by simp) ?_
        intro c' hc' r hr
        refine hnum c' (List.mem_cons_of_mem _ hc') r (hmemrows e he r ?_)
        rw [hE, leafRows_leaf]
        exact hr
      rw [buildIndexRows_cons₂]
      constructor
      · show EntriesStruct (nodePred c (StructLevel (c2 :: rest2))) none 0 _ ∧ _
        constructor
        · refine EntriesStruct_map (leafPred c) _ _ none 0 _ ?_ h1
          intro e he hP
          cases e with
          | leaf v s st rs =>
            cases v with
            | num n =>
              obtain ⟨hcs, hcp⟩ := hsub _ he hP (JSVal.num n) s st rs rfl
              obtain ⟨hs, hne, hval⟩ := hP
              have hct := StructLevel_total_eq _ _ _ hcs
              have hlenrows := StructLevel_sumSizes_len _ _ _ hcs
              have hlens := hcp.length_eq
              refine ⟨?_, rfl, rfl, rfl⟩
              show nodePred c (StructLevel (c2 :: rest2)) (Entry.node (JSVal.num n) s st
                (buildIndexRows (c2 :: rest2) rs).1 (buildIndexRows (c2 :: rest2) rs).2)
              refine ⟨hcs, ?_, ?_, ?_⟩
              · rw [hs, hct, hlenrows, hlens]
              · intro hnil
                rw [hnil] at hcp
                have : rs = [] := hcp.symm.eq_nil
                exact hne this
              · intro r hr
                exact hval r (hcp.mem_iff.mp hr)
            | null => exact absurd hP (by simp [leafPred])
            | undef => exact absurd hP (by simp [leafPred])
          | node _ _ _ _ _ => exact absurd hP (by simp [leafPred])
        · show (buildShallowIndex c rows).2 = sumSizes _
          rw [h2]
          refine (sumSizes_map _ _ ?_).symm
          intro e _
          cases e with
          | leaf v s st rs => rfl
          | node _ _ _ _ _ => rfl
      · refine List.Perm.trans (entriesLeafRows_map_perm _ _ ?_) ?_
        · intro e he
          cases hE : e with
          | leaf v s st rs =>
            have hP := EntriesStruct_forall _ _ _ _ h1 e he
            rw [hE] at hP
            cases v with
            | num n =>
              obtain ⟨hcs, hcp⟩ := hsub e he (hE ▸ hP) (JSVal.num n) s st rs hE
              simpa [leafRows_node, leafRows_leaf] using hcp
            | null => exact absurd hP (by simp [leafPred])
            | undef => exact absurd hP (by simp [leafPred])
          | node nv ns nst nces nct =>
            exact List.Perm.refl _
        · rw [h3]
          exact jsSort_perm _ rows

/-! ## Structure preservation by the `rowsAdded` merge walk -/

theorem withSubtotal_value (e : Entry) (st' : Int) :
    (e.withSubtotal st').value = e.value := by cases e <;> rfl

theorem withSubtotal_size (e : Entry) (st' : Int) :
    (e.withSubtotal st').size = e.size := by cases e <;> rfl

theorem withSubtotal_subtotal (e : Entry) (st' : Int) :
    (e.withSubtotal st').subtotal = st' := by cases e <;> rfl

theorem withSubtotal_leafRows (e : Entry) (st' : Int) :
    (e.withSubtotal st').leafRows = e.leafRows := by cases e <;> rfl

theorem jsEq_num (a b : Int) :
    jsEq (JSVal.num a) (JSVal.num b) = true ↔ a = b := by
  simp [jsEq]

theorem jsLt_num (a b : Int) :
    jsLt (JSVal.num a) (JSVal.num b) = true ↔ a < b := by
  show ((some (compare a b) : Option Ordering) == some Ordering.lt) = true ↔ a < b
  rcases lt_trichotomy a b with h | h | h
  · rw [compare_lt_iff_lt.mpr h]
    constructor
    · intro _
      exact h
    · intro _
      decide
  · rw [compare_eq_iff_eq.mpr h]
    constructor
    · intro hx
      exact absurd hx (by decide)
    · intro hx
      exact absurd hx (by omega)
  · rw [compare_gt_iff_gt.mpr h]
    constructor
    · intro hx
      exact absurd hx (by decide)
    · intro hx
      exact absurd hx (by omega)

theorem mergeWalkAdd_nil_nil (pm : Entry → Entry → Entry)
    (fuel : Nat) (accR prevOut : Int) :
    mergeWalkAdd pm (fuel + 1) [] [] accR prevOut = [] := rfl

theorem mergeWalkAdd_cons_nil (pm : Entry → Entry → Entry)
    (fuel : Nat) (l : Entry) (ls : List Entry) (accR prevOut : Int) :
    mergeWalkAdd pm (fuel + 1) (l :: ls) [] accR prevOut =
    (l.withSubtotal (l.subtotal + accR)) ::
      mergeWalkAdd pm fuel ls [] accR
        (l.withSubtotal (l.subtotal + accR)).subtotal := rfl

theorem mergeWalkAdd_nil_cons (pm : Entry → Entry → Entry)
    (fuel : Nat) (r : Entry) (rs : List Entry) (accR prevOut : Int) :
    mergeWalkAdd pm (fuel + 1) [] (r :: rs) accR prevOut =
    (r.withSubtotal (r.size + prevOut)) ::
      mergeWalkAdd pm fuel [] rs r.subtotal
        (r.withSubtotal (r.size + prevOut)).subtotal := rfl

theorem mergeWalkAdd_cons_cons (pm : Entry → Entry → Entry)
    (fuel : Nat) (l : Entry) (ls : List Entry) (r : Entry) (rs : List Entry)
    (accR prevOut : Int) :
    mergeWalkAdd pm (fuel + 1) (l :: ls) (r :: rs) accR prevOut =
    (if jsEq l.value r.value then
      (if (pm l r).size = 0 then mergeWalkAdd pm fuel ls rs r.subtotal prevOut
       else (pm l r) :: mergeWalkAdd pm fuel ls rs r.subtotal (pm l r).subtotal)
     else if jsLt l.value r.value then
      (l.withSubtotal (l.subtotal + accR)) ::
        mergeWalkAdd pm fuel ls (r :: rs) accR
          (l.withSubtotal (l.subtotal + accR)).subtotal
     else
      (r.withSubtotal (r.size + prevOut)) ::
        mergeWalkAdd pm fuel (l :: ls) rs r.subtotal
          (r.withSubtotal (r.size + prevOut)).subtotal) := rfl

theorem entriesLeafRows_nil : entriesLeafRows [] = [] := rfl

theorem mergeWalkAdd_zero (pm : Entry → Entry → Entry)
    (left right : List Entry) (accR prevOut : Int) :
    mergeWalkAdd pm 0 left right accR prevOut = [] := rfl

theorem perm_rotate (b c d : List Row) :
    List.Perm (b ++ (c ++ d)) (c ++ (b ++ d)) := by
  have e3 : b ++ (c ++ d) = (b ++ c) ++ d := (List.append_assoc b c d).symm
  have e4 : c ++ (b ++ d) = (c ++ b) ++ d := (List.append_assoc c b d).symm
  rw [e3, e4]
  exact List.perm_append_comm.append_right d

theorem perm_middle_swap (a b c d : List Row) :
    List.Perm ((a ++ b) ++ (c ++ d)) ((a ++ c) ++ (b ++ d)) := by
  have e1 : (a ++ b) ++ (c ++ d) = a ++ (b ++ (c ++ d)) := List.append_assoc a b (c ++ d)
  have e2 : (a ++ c) ++ (b ++ d) = a ++ (c ++ (b ++ d)) := List.append_assoc a c (b ++ d)
  rw [e1, e2]
  exact (perm_rotate b c d).append_left a

/-- Structure preservation of the add-merge walk: both inputs well-formed
from the same bound with running sums `accL` and `accR`, the output is
well-formed from `accL + accR`, sums the sizes, and its rows are exactly
the two sides' rows. -/
theorem mergeWalkAdd_struct (pm : Entry → Entry → Entry) (P : Entry → Prop)
    (hPsub : ∀ e st', P e → P (e.withSubtotal st'))
    (hPpos : ∀ e, P e → 1 ≤ e.size)
    (hmerge : ∀ l r, P l → P r → jsEq l.value r.value = true →
      P (pm l r) ∧ (pm l r).value = l.value ∧
      (pm l r).size = l.size + r.size ∧
      (pm l r).subtotal = l.subtotal + r.subtotal ∧
      List.Perm (pm l r).leafRows (l.leafRows ++ r.leafRows)) :
    ∀ (fuel : Nat) (left right : List Entry) (lb : Option Int) (accL accR : Int),
      left.length + right.length ≤ fuel →
      EntriesStruct P lb accL left →
      EntriesStruct P lb accR right →
      EntriesStruct P lb (accL + accR)
        (mergeWalkAdd pm fuel left right accR (accL + accR)) ∧
      sumSizes (mergeWalkAdd pm fuel left right accR (accL + accR)) =
        sumSizes left + sumSizes right ∧
      List.Perm (entriesLeafRows (mergeWalkAdd pm fuel left right accR (accL + accR)))
        (entriesLeafRows left ++ entriesLeafRows right) := by
  intro fuel
  induction fuel with
  | zero =>
    intro left right lb accL accR hfuel hL hR
    cases left with
    | cons l ls => simp at hfuel
    | nil =>
      cases right with
      | cons r rs => simp at hfuel
      | nil =>
        refine ⟨trivial, by simp [mergeWalkAdd, sumSizes_nil], ?_⟩
        rw [mergeWalkAdd_zero, entriesLeafRows_nil]
        exact List.Perm.refl _
  | succ fuel ih =>
    intro left right lb accL accR hfuel hL hR
    cases left with
    | nil =>
      cases right with
      | nil =>
        refine ⟨trivial, by simp [mergeWalkAdd_nil_nil, sumSizes_nil], ?_⟩
        rw [mergeWalkAdd_nil_nil, entriesLeafRows_nil]
        exact List.Perm.refl _
      | cons r rs =>
        obtain ⟨hPr, b, hb, hprevR, hsubR, hrestR⟩ := hR
        rw [mergeWalkAdd_nil_cons]
        rw [withSubtotal_subtotal]
        have hsub2 : r.size + (accL + accR) = accL + (accR + r.size) := by ring
        rw [hsub2, hsubR]
        have hfuel2 : ([] : List Entry).length + rs.length ≤ fuel := by
          simp at hfuel ⊢
          omega
        obtain ⟨ihS, ihSum, ihRows⟩ := ih [] rs (some b) accL (accR + r.size) hfuel2
          trivial hrestR
        refine ⟨⟨hPsub r _ hPr, b, ?_, hprevR, ?_, ?_⟩, ?_, ?_⟩
        · rw [withSubtotal_value, hb]
        · rw [withSubtotal_subtotal, withSubtotal_size]
          ring
        · rw [withSubtotal_size]
          have harr : accL + accR + r.size = accL + (accR + r.size) := by ring
          rw [harr]
          exact ihS
        · rw [sumSizes_cons, withSubtotal_size, ihSum]
          simp only [sumSizes_nil, sumSizes_cons]
          ring
        · simp only [entriesLeafRows_cons, entriesLeafRows_nil, withSubtotal_leafRows,
            List.nil_append] at ihRows ⊢
          exact ihRows.append_left r.leafRows
    | cons l ls =>
      obtain ⟨hPl, v, hv, hprevL, hsubL, hrestL⟩ := hL
      cases right with
      | nil =>
        rw [mergeWalkAdd_cons_nil]
        rw [withSubtotal_subtotal, hsubL]
        have hfuel2 : ls.length + ([] : List Entry).length ≤ fuel := by
          simp at hfuel ⊢
          omega
        obtain ⟨ihS, ihSum, ihRows⟩ := ih ls [] (some v) (accL + l.size) accR hfuel2
          hrestL trivial
        refine ⟨⟨hPsub l _ hPl, v, ?_, hprevL, ?_, ?_⟩, ?_, ?_⟩
        · rw [withSubtotal_value, hv]
        · rw [withSubtotal_subtotal, withSubtotal_size]
          ring
        · rw [withSubtotal_size]
          have harr : accL + accR + l.size = accL + l.size + accR := by ring
          rw [harr]
          exact ihS
        · rw [sumSizes_cons, withSubtotal_size, ihSum]
          simp only [sumSizes_nil, sumSizes_cons]
          ring
        · simp only [entriesLeafRows_cons, entriesLeafRows_nil, withSubtotal_leafRows,
            List.append_nil] at ihRows ⊢
          exact ihRows.append_left l.leafRows
      | cons r rs =>
        obtain ⟨hPr, b, hb, hprevR, hsubR, hrestR⟩ := hR
        rw [mergeWalkAdd_cons_cons]
        by_cases heq : jsEq l.value r.value
        · rw [if_pos heq]
          have hvb : v = b := by
            rw [hv, hb] at heq
            exact (jsEq_num v b).mp heq
          obtain ⟨hPm, hmv, hms, hmst, hmrows⟩ := hmerge l r hPl hPr heq
          have hs0 : ¬ (pm l r).size = 0 := by
            have h1 := hPpos l hPl
            have h2 := hPpos r hPr
            rw [hms]
            omega
          rw [if_neg hs0]
          rw [hmst, hsubL, hsubR]
          have hfuel2 : ls.length + rs.length ≤ fuel := by
            simp at hfuel ⊢
            omega
          have hrestR' : EntriesStruct P (some v) (accR + r.size) rs := by
            rw [hvb]
            exact hrestR
          obtain ⟨ihS, ihSum, ihRows⟩ := ih ls rs (some v) (accL + l.size)
            (accR + r.size) hfuel2 hrestL hrestR'
          refine ⟨⟨hPm, v, ?_, hprevL, ?_, ?_⟩, ?_, ?_⟩
          · rw [hmv, hv]
          · rw [hmst, hsubL, hsubR, hms]
            ring
          · have harr2 : accL + accR + (pm l r).size =
                accL + l.size + (accR + r.size) := by
              rw [hms]
              ring
            rw [harr2]
            exact ihS
          · rw [sumSizes_cons, ihSum, hms]
            simp only [sumSizes_cons]
            ring
          · simp only [entriesLeafRows_cons]
            refine (hmrows.append ihRows).trans ?_
            exact perm_middle_swap _ _ _ _
        · rw [if_neg heq]
          have hvne : v ≠ b := by
            intro h
            rw [hv, hb] at heq
            exact heq ((jsEq_num v b).mpr h)
          by_cases hlt : jsLt l.value r.value
          · rw [if_pos hlt]
            have hvb : v < b := by
              rw [hv, hb] at hlt
              exact (jsLt_num v b).mp hlt
            rw [withSubtotal_subtotal, hsubL]
            have hfuel2 : ls.length + (r :: rs).length ≤ fuel := by
              simp at hfuel ⊢
              omega
            have hR' : EntriesStruct P (some v) accR (r :: rs) := by
              refine ⟨hPr, b, hb, ?_, hsubR, hrestR⟩
              intro pv hpv
              cases hpv
              exact hvb
            obtain ⟨ihS, ihSum, ihRows⟩ := ih ls (r :: rs) (some v)
              (accL + l.size) accR hfuel2 hrestL hR'
            refine ⟨⟨hPsub l _ hPl, v, ?_, hprevL, ?_, ?_⟩, ?_, ?_⟩
            · rw [withSubtotal_value, hv]
            · rw [withSubtotal_subtotal, withSubtotal_size]
              ring
            · rw [withSubtotal_size]
              have harr : accL + accR + l.size = accL + l.size + accR := by ring
              rw [harr]
              exact ihS
            · rw [sumSizes_cons, withSubtotal_size, ihSum]
              simp only [sumSizes_cons]
              ring
            · simp only [entriesLeafRows_cons, withSubtotal_leafRows] at ihRows ⊢
              refine (ihRows.append_left l.leafRows).trans ?_
              rw [← List.append_assoc]
          · rw [if_neg hlt]
            have hbv : b < v := by
              rw [hv, hb] at hlt
              have hnlt : ¬ v < b := fun h => hlt ((jsLt_num v b).mpr h)
              omega
            rw [withSubtotal_subtotal]
            have hsub2 : r.size + (accL + accR) = accL + (accR + r.size) := by ring
            rw [hsub2, hsubR]
            have hfuel2 : (l :: ls).length + rs.length ≤ fuel := by
              simp at hfuel ⊢
              omega
            have hL' : EntriesStruct P (some b) accL (l :: ls) := by
              refine ⟨hPl, v, hv, ?_, hsubL, hrestL⟩
              intro pv hpv
              cases hpv
              exact hbv
            obtain ⟨ihS, ihSum, ihRows⟩ := ih (l :: ls) rs (some b) accL
              (accR + r.size) hfuel2 hL' hrestR
            refine ⟨⟨hPsub r _ hPr, b, ?_, hprevR, ?_, ?_⟩, ?_, ?_⟩
            · rw [withSubtotal_value, hb]
            · rw [withSubtotal_subtotal, withSubtotal_size]
              ring
            · rw [withSubtotal_size]
              have harr : accL + accR + r.size = accL + (accR + r.size) := by ring
              rw [harr]
              exact ihS
            · rw [sumSizes_cons, withSubtotal_size, ihSum]
              simp only [sumSizes_cons]
              ring
            · simp only [entriesLeafRows_cons, withSubtotal_leafRows] at ihRows ⊢
              refine (ihRows.append_left r.leafRows).trans ?_
              exact perm_rotate _ _ _

/-- A well-formed spine has numeric values, strictly increasing keys, and
its head key exceeds the bound. -/
theorem EntriesStruct_values (P : Entry → Prop) :
    ∀ (prev : Option Int) (acc : Int) (es : List Entry),
      EntriesStruct P prev acc es →
      (∀ e ∈ es, e.value = JSVal.num (numOf e.value)) ∧
      es.Chain' (fun a b => numOf a.value < numOf b.value) ∧
      (∀ pv, prev = some pv → ∀ e, es.head? = some e → pv < numOf e.value) := by
  intro prev acc es
  induction es generalizing prev acc with
  | nil =>
    intro _
    refine ⟨by simp, by simp, ?_⟩
    intro pv _ e he
    simp at he
  | cons e es ih =>
    intro h
    obtain ⟨hP, v, hv, hprev, hsub, hrest⟩ := h
    obtain ⟨ihnum, ihchain, ihhead⟩ := ih _ _ hrest
    have hnumv : numOf e.value = v := by rw [hv]; rfl
    refine ⟨?_, ?_, ?_⟩
    · intro e' he'
      rcases List.mem_cons.mp he' with rfl | h'
      · rw [hv]
        rfl
      · exact ihnum e' h'
    · refine List.chain'_cons'.mpr ⟨?_, ihchain⟩
      intro b hb
      have := ihhead v rfl b hb
      rw [hnumv]
      exact this
    · intro pv hpv e' he'
      simp only [List.head?] at he'
      cases he'
      rw [hnumv]
      exact hprev pv hpv

theorem mergeAddLevel_one (esL : List Entry) (tL : Int) (esR : List Entry) (tR : Int) :
    mergeAddLevel 1 (esL, tL) (esR, tR) =
    (jsSort (fun a b => Comparator a.value b.value)
      (mergeWalkAdd pairAddLeaf (esL.length + esR.length) esL esR 0 0),
     tL + tR) := rfl

theorem mergeAddLevel_two (d : Nat) (esL : List Entry) (tL : Int) (esR : List Entry)
    (tR : Int) :
    mergeAddLevel (d + 2) (esL, tL) (esR, tR) =
    (jsSort (fun a b => Comparator a.value b.value)
      (mergeWalkAdd (pairAddNode (mergeAddLevel (d + 1)))
        (esL.length + esR.length) esL esR 0 0),
     tL + tR) := rfl

/-- The sort inside `mergeTotals` is the identity on the already-sorted
walk output. -/
theorem jsSort_entries_fixpoint (es : List Entry)
    (hnum : ∀ e ∈ es, e.value = JSVal.num (numOf e.value))
    (hchain : es.Chain' (fun a b => numOf a.value < numOf b.value)) :
    jsSort (fun a b => Comparator a.value b.value) es = es := by
  refine jsSort_fixpoint _ (fun e => numOf e.value) es hchain ?_
  intro a ha b hb
  have hiff := Comparator_lt_iff (numOf a.value) (numOf b.value)
  rw [← hnum a ha, ← hnum b hb] at hiff
  exact hiff

/-- One level of `rowsAdded`'s merge preserves structural
well-formedness, adds the totals, and introduces no rows beyond the two
sides'. -/
theorem mergeAddLevel_struct :
    ∀ (cols : List String) (esL : List Entry) (tL : Int) (esR : List Entry) (tR : Int),
      StructLevel cols esL tL → StructLevel cols esR tR →
      StructLevel cols (mergeAddLevel cols.length (esL, tL) (esR, tR)).1
        (mergeAddLevel cols.length (esL, tL) (esR, tR)).2 ∧
      (mergeAddLevel cols.length (esL, tL) (esR, tR)).2 = tL + tR ∧
      List.Perm (entriesLeafRows (mergeAddLevel cols.length (esL, tL) (esR, tR)).1)
        (entriesLeafRows esL ++ entriesLeafRows esR) := by
  intro cols
  induction cols with
  | nil => intro esL tL esR tR h; exact absurd h (by simp [StructLevel])
  | cons c rest ih =>
    intro esL tL esR tR hL hR
    cases rest with
    | nil =>
      obtain ⟨hLs, hLt⟩ := hL
      obtain ⟨hRs, hRt⟩ := hR
      have hPsub : ∀ (e : Entry) (st' : Int), leafPred c e →
          leafPred c (e.withSubtotal st') := by
        intro e st' he
        cases e with
        | leaf v s st rs =>
          cases v with
          | num n => exact he
          | null => exact absurd he (by simp [leafPred])
          | undef => exact absurd he (by simp [leafPred])
        | node _ _ _ _ _ => exact absurd he (by simp [leafPred])
      have hPpos : ∀ e : Entry, leafPred c e → 1 ≤ e.size := by
        intro e he
        cases e with
        | leaf v s st rs =>
          cases v with
          | num n =>
            obtain ⟨hs, hne, _⟩ := he
            have : 1 ≤ rs.length := List.length_pos.mpr hne
            simp only [Entry.size, hs]
            exact_mod_cast this
          | null => exact absurd he (by simp [leafPred])
          | undef => exact absurd he (by simp [leafPred])
        | node _ _ _ _ _ => exact absurd he (by simp [leafPred])
      have hmerge : ∀ l r, leafPred c l → leafPred c r → jsEq l.value r.value = true →
          leafPred c (pairAddLeaf l r) ∧ (pairAddLeaf l r).value = l.value ∧
          (pairAddLeaf l r).size = l.size + r.size ∧
          (pairAddLeaf l r).subtotal = l.subtotal + r.subtotal ∧
          List.Perm (pairAddLeaf l r).leafRows (l.leafRows ++ r.leafRows) := by
        intro l r hl hr heq
        cases l with
        | leaf lv lsz lst lrs =>
          cases lv with
          | num v =>
            cases r with
            | leaf rv rsz rst rrs =>
              cases rv with
              | num b =>
                obtain ⟨hls, hlne, hlval⟩ := hl
                obtain ⟨hrs, hrne, hrval⟩ := hr
                have hvb : v = b := (jsEq_num v b).mp (by simpa [Entry.value] using heq)
                subst hvb
                refine ⟨⟨?_, ?_, ?_⟩, rfl, rfl, rfl, ?_⟩
                · rw [hls, hrs]
                  simp [List.length_append]
                · simp [hlne]
                · intro row hrow
                  rcases List.mem_append.mp hrow with hcase | hcase
                  · exact hlval row hcase
                  · exact hrval row hcase
                · show List.Perm (lrs ++ rrs) (lrs ++ rrs)
                  exact List.Perm.refl _
              | null => exact absurd hr (by simp [leafPred])
              | undef => exact absurd hr (by simp [leafPred])
            | node _ _ _ _ _ => exact absurd hr (by simp [leafPred])
          | null => exact absurd hl (by simp [leafPred])
          | undef => exact absurd hl (by simp [leafPred])
        | node _ _ _ _ _ => exact absurd hl (by simp [leafPred])
      obtain ⟨hS, hSum, hRows⟩ := mergeWalkAdd_struct pairAddLeaf (leafPred c)
        hPsub hPpos hmerge (esL.length + esR.length) esL esR none 0 0
        (le_refl _) hLs hRs
      simp only [add_zero] at hS hSum hRows
      obtain ⟨hnum, hchain, _⟩ := EntriesStruct_values (leafPred c) none 0 _ hS
      have hfix := jsSort_entries_fixpoint _ hnum hchain
      have hlen : ((c : String) :: ([] : List String)).length = 1 := rfl
      rw [hlen, mergeAddLevel_one, hfix]
      refine ⟨⟨hS, ?_⟩, rfl, hRows⟩
      rw [hSum, hLt, hRt]
    | cons c2 rest2 =>
      obtain ⟨hLs, hLt⟩ := hL
      obtain ⟨hRs, hRt⟩ := hR
      have hlen1 : ((c2 :: rest2 : List String)).length = rest2.length + 1 := rfl
      have hPsub : ∀ (e : Entry) (st' : Int),
          nodePred c (StructLevel (c2 :: rest2)) e →
          nodePred c (StructLevel (c2 :: rest2)) (e.withSubtotal st') := by
        intro e st' he
        cases e with
        | leaf _ _ _ _ => exact absurd he (by simp [nodePred])
        | node v s st ces ct =>
          cases v with
          | num n => exact he
          | null => exact absurd he (by simp [nodePred])
          | undef => exact absurd he (by simp [nodePred])
      have hPpos : ∀ e : Entry, nodePred c (StructLevel (c2 :: rest2)) e →
          1 ≤ e.size := by
        intro e he
        cases e with
        | leaf _ _ _ _ => exact absurd he (by simp [nodePred])
        | node v s st ces ct =>
          cases v with
          | num n =>
            obtain ⟨hsub, hs, hne, _⟩ := he
            have hsizes := StructLevel_size_pos _ _ _ hsub
            have htot := StructLevel_total_eq _ _ _ hsub
            have := sumSizes_pos ces hne hsizes
            simp only [Entry.size, hs]
            omega
          | null => exact absurd he (by simp [nodePred])
          | undef => exact absurd he (by simp [nodePred])
      have hmerge : ∀ l r, nodePred c (StructLevel (c2 :: rest2)) l →
          nodePred c (StructLevel (c2 :: rest2)) r → jsEq l.value r.value = true →
          nodePred c (StructLevel (c2 :: rest2))
            (pairAddNode (mergeAddLevel (rest2.length + 1)) l r) ∧
          (pairAddNode (mergeAddLevel (rest2.length + 1)) l r).value = l.value ∧
          (pairAddNode (mergeAddLevel (rest2.length + 1)) l r).size =
            l.size + r.size ∧
          (pairAddNode (mergeAddLevel (rest2.length + 1)) l r).subtotal =
            l.subtotal + r.subtotal ∧
          List.Perm (pairAddNode (mergeAddLevel (rest2.length + 1)) l r).leafRows
            (l.leafRows ++ r.leafRows) := by
        intro l r hl hr heq
        cases l with
        | leaf _ _ _ _ => exact absurd hl (by simp [nodePred])
        | node lv lsz lst lces lct =>
          cases lv with
          | num v =>
            cases r with
            | leaf _ _ _ _ => exact absurd hr (by simp [nodePred])
            | node rv rsz rst rces rct =>
              cases rv with
              | num b =>
                obtain ⟨hlsub, hlsz, hlne, hlval⟩ := hl
                obtain ⟨hrsub, hrsz, hrne, hrval⟩ := hr
                have hvb : v = b := (jsEq_num v b).mp (by simpa [Entry.value] using heq)
                subst hvb
                have ihres := ih lces lct rces rct hlsub hrsub
                rw [hlen1] at ihres
                obtain ⟨ihS, ihT, ihRows⟩ := ihres
                refine ⟨⟨ihS, ?_, ?_, ?_⟩, rfl, rfl, rfl, ?_⟩
                · rw [hlsz, hrsz, ihT]
                · intro hnil
                  have htotz := StructLevel_total_eq _ _ _ ihS
                  rw [hnil] at htotz
                  rw [sumSizes_nil] at htotz
                  have h1 : 1 ≤ lct := by
                    have hsz := StructLevel_size_pos _ _ _ hlsub
                    have htot := StructLevel_total_eq _ _ _ hlsub
                    have := sumSizes_pos lces hlne hsz
                    omega
                  have h2 : 1 ≤ rct := by
                    have hsz := StructLevel_size_pos _ _ _ hrsub
                    have htot := StructLevel_total_eq _ _ _ hrsub
                    have := sumSizes_pos rces hrne hsz
                    omega
                  omega
                · intro row hrow
                  rcases List.mem_append.mp (ihRows.mem_iff.mp hrow) with hcase | hcase
                  · exact hlval row hcase
                  · exact hrval row hcase
                · show List.Perm (entriesLeafRows
                      ((mergeAddLevel (rest2.length + 1) (lces, lct) (rces, rct)).1))
                    (entriesLeafRows lces ++ entriesLeafRows rces)
                  exact ihRows
              | null => exact absurd hr (by simp [nodePred])
              | undef => exact absurd hr (by simp [nodePred])
          | null => exact absurd hl (by simp [nodePred])
          | undef => exact absurd hl (by simp [nodePred])
      obtain ⟨hS, hSum, hRows⟩ := mergeWalkAdd_struct
        (pairAddNode (mergeAddLevel (rest2.length + 1)))
        (nodePred c (StructLevel (c2 :: rest2)))
        hPsub hPpos hmerge (esL.length + esR.length) esL esR none 0 0
        (le_refl _) hLs hRs
      simp only [add_zero] at hS hSum hRows
      obtain ⟨hnum, hchain, _⟩ :=
        EntriesStruct_values (nodePred c (StructLevel (c2 :: rest2))) none 0 _ hS
      have hfix := jsSort_entries_fixpoint _ hnum hchain
      have hlen : ((c : String) :: c2 :: rest2).length = rest2.length + 2 := rfl
      rw [hlen, mergeAddLevel_two, hfix]
      refine ⟨⟨hS, ?_⟩, rfl, hRows⟩
      rw [hSum, hLt, hRt]

theorem buildIndexE_map_some (cols : List String) (rows : List Row) :
    buildIndexE cols (rows.map some) = Except.ok (buildIndexRows cols rows) := by
  have hfm : (rows.map some).filterMap id = rows := by
    simp [List.filterMap_map]
  rw [buildIndexE, if_neg (by simp), hfm]

/-- `rowsAdded` on a hole-free numeric batch: the run succeeds, keeps the
columns, preserves structural well-formedness, and the stored rows become
the old rows plus the batch. -/
theorem rowsAdded_struct (ix : IndexState) (rows : List Row)
    (hcols : ix.columns ≠ [])
    (hst : StructLevel ix.columns ix.entries ix.total)
    (hnum : ∀ c ∈ ix.columns, ∀ r ∈ rows, r.get c = JSVal.num (numOf (r.get c))) :
    ix.rowsAdded (rows.map some) = Except.ok
      { columns := ix.columns,
        entries := (mergeAddLevel ix.columns.length (ix.entries, ix.total)
          ((buildIndexRows ix.columns rows).1, (buildIndexRows ix.columns rows).2)).1,
        total := (mergeAddLevel ix.columns.length (ix.entries, ix.total)
          ((buildIndexRows ix.columns rows).1, (buildIndexRows ix.columns rows).2)).2 } ∧
    StructLevel ix.columns
      (mergeAddLevel ix.columns.length (ix.entries, ix.total)
        ((buildIndexRows ix.columns rows).1, (buildIndexRows ix.columns rows).2)).1
      (mergeAddLevel ix.columns.length (ix.entries, ix.total)
        ((buildIndexRows ix.columns rows).1, (buildIndexRows ix.columns rows).2)).2 ∧
    List.Perm (entriesLeafRows
      (mergeAddLevel ix.columns.length (ix.entries, ix.total)
        ((buildIndexRows ix.columns rows).1, (buildIndexRows ix.columns rows).2)).1)
      (entriesLeafRows ix.entries ++ rows) := by
  obtain ⟨hbs, hbperm⟩ := buildIndexRows_struct ix.columns rows hcols hnum
  obtain ⟨hms, hmt, hmrows⟩ := mergeAddLevel_struct ix.columns ix.entries ix.total
    (buildIndexRows ix.columns rows).1 (buildIndexRows ix.columns rows).2 hst hbs
  refine ⟨?_, hms, ?_⟩
  · rw [IndexState.rowsAdded, buildIndexE_map_some]
    rfl
  · exact hmrows.trans (hbperm.append_left (entriesLeafRows ix.entries))

/-! ## Structure preservation by the `rowsRemoved` merge walk

`SubEntries Q left right` states that the right level is a value-ordered
subsequence of the left level whose matched pairs satisfy `Q` — the shape
in which a freshly built removal index meets the stored index. -/

theorem jsStrictEq_iff_eq (a b : JSVal) : jsStrictEq a b = true ↔ a = b := by
  cases a <;> cases b <;> simp [jsStrictEq]

def SubEntries (Q : Entry → Entry → Prop) : List Entry → List Entry → Prop
  | _, [] => True
  | [], _ :: _ => False
  | l :: ls, r :: rs =>
    ((∃ a : Int, l.value = JSVal.num a ∧ r.value = JSVal.num a) ∧ Q l r ∧
      SubEntries Q ls rs) ∨
    ((∃ a b : Int, l.value = JSVal.num a ∧ r.value = JSVal.num b ∧ a < b) ∧
      SubEntries Q ls (r :: rs))

/-- What a removal leaf needs of its stored counterpart: every removed
row's identity is stored, and identities are duplicate-free on both
sides. -/
def leafRemovable (l r : Entry) : Prop :=
  match l, r with
  | Entry.leaf _ _ _ rsL, Entry.leaf _ _ _ rsR =>
    (∀ row ∈ rsR, row.id ∈ rsL.map Row.id) ∧
    (rsL.map Row.id).Nodup ∧ (rsR.map Row.id).Nodup
  | _, _ => False

def nodeRemovable (child : List Entry → List Entry → Prop) (l r : Entry) : Prop :=
  match l, r with
  | Entry.node _ _ _ cesL _, Entry.node _ _ _ cesR _ => child cesL cesR
  | _, _ => False

def RemovableLevel : List String → List Entry → List Entry → Prop
  | [], _, _ => False
  | [_], esL, esR => SubEntries leafRemovable esL esR
  | _ :: c2 :: rest, esL, esR =>
    SubEntries (nodeRemovable (RemovableLevel (c2 :: rest))) esL esR

theorem mergeWalkRemove_zero (pm : Entry → Entry → Except String Entry)
    (left right : List Entry) (prevRightSub : Int) :
    mergeWalkRemove pm 0 left right prevRightSub = Except.ok [] := rfl

theorem mergeWalkRemove_nil_nil (pm : Entry → Entry → Except String Entry)
    (fuel : Nat) (prevRightSub : Int) :
    mergeWalkRemove pm (fuel + 1) [] [] prevRightSub = Except.ok [] := rfl

theorem mergeWalkRemove_cons_nil (pm : Entry → Entry → Except String Entry)
    (fuel : Nat) (l : Entry) (ls : List Entry) (prevRightSub : Int) :
    mergeWalkRemove pm (fuel + 1) (l :: ls) [] prevRightSub =
    mergeWalkRemove pm fuel ls [] prevRightSub >>= fun rest =>
      Except.ok (l.withSubtotal (l.subtotal - prevRightSub) :: rest) := rfl

theorem mergeWalkRemove_cons_cons (pm : Entry → Entry → Except String Entry)
    (fuel : Nat) (l : Entry) (ls : List Entry) (r : Entry) (rs : List Entry)
    (prevRightSub : Int) :
    mergeWalkRemove pm (fuel + 1) (l :: ls) (r :: rs) prevRightSub =
    (if jsEq l.value r.value then
      pm l r >>= fun merged =>
      mergeWalkRemove pm fuel ls rs r.subtotal >>= fun rest =>
      if merged.size = 0 then Except.ok rest else Except.ok (merged :: rest)
     else if jsLt l.value r.value then
      mergeWalkRemove pm fuel ls (r :: rs) prevRightSub >>= fun rest =>
      Except.ok (l.withSubtotal (l.subtotal - prevRightSub) :: rest)
     else
      Except.error "How did a value in the sublist, not start in the list?") := rfl

/-- Structure preservation of the remove-merge walk: against a
well-formed removable right side, the walk succeeds, the output is
well-formed with the sums subtracted, and the stored rows split into the
output rows plus removed rows matching the right side's identities. -/
theorem mergeWalkRemove_struct (pm : Entry → Entry → Except String Entry)
    (P PR : Entry → Prop) (Q : Entry → Entry → Prop)
    (hPsub : ∀ e st', P e → P (e.withSubtotal st'))
    (hmerge : ∀ l r, P l → PR r → Q l r →
      (∃ a : Int, l.value = JSVal.num a ∧ r.value = JSVal.num a) →
      ∃ m, pm l r = Except.ok m ∧ m.value = l.value ∧
        m.size = l.size - r.size ∧ m.subtotal = l.subtotal - r.subtotal ∧
        r.size ≤ l.size ∧ (1 ≤ m.size → P m) ∧ (m.size = 0 → m.leafRows = []) ∧
        ∃ removed, List.Perm l.leafRows (m.leafRows ++ removed) ∧
          List.Perm (removed.map Row.id) (r.leafRows.map Row.id)) :
    ∀ (fuel : Nat) (left right : List Entry) (lb : Option Int) (accL accR : Int),
      left.length + right.length ≤ fuel →
      EntriesStruct P lb accL left →
      EntriesStruct PR lb accR right →
      SubEntries Q left right →
      ∃ out, mergeWalkRemove pm fuel left right accR = Except.ok out ∧
        EntriesStruct P lb (accL - accR) out ∧
        sumSizes out = sumSizes left - sumSizes right ∧
        ∃ removed,
          List.Perm (entriesLeafRows left) (entriesLeafRows out ++ removed) ∧
          List.Perm (removed.map Row.id) ((entriesLeafRows right).map Row.id) := by
  intro fuel
  induction fuel with
  | zero =>
    intro left right lb accL accR hfuel hL hR hSub
    cases left with
    | cons l ls => simp at hfuel
    | nil =>
      cases right with
      | cons r rs => simp at hfuel
      | nil =>
        refine ⟨[], mergeWalkRemove_zero pm _ _ _, trivial, by simp [sumSizes_nil], [],
          ?_, ?_⟩
        · simp [entriesLeafRows_nil]
        · simp [entriesLeafRows_nil]
  | succ fuel ih =>
    intro left right lb accL accR hfuel hL hR hSub
    cases left with
    | nil =>
      cases right with
      | cons r rs => exact absurd hSub (by simp [SubEntries])
      | nil =>
        refine ⟨[], mergeWalkRemove_nil_nil pm _ _, trivial, by simp [sumSizes_nil], [],
          ?_, ?_⟩
        · simp [entriesLeafRows_nil]
        · simp [entriesLeafRows_nil]
    | cons l ls =>
      obtain ⟨hPl, v, hv, hprevL, hsubL, hrestL⟩ := hL
      cases right with
      | nil =>
        have hfuel2 : ls.length + ([] : List Entry).length ≤ fuel := by
          simp at hfuel ⊢
          omega
        obtain ⟨out, hout, ihS, ihSum, removed, ihPerm, ihIds⟩ :=
          ih ls [] (some v) (accL + l.size) accR hfuel2 hrestL trivial
            (by cases ls <;> trivial)
        refine ⟨l.withSubtotal (l.subtotal - accR) :: out, ?_, ?_, ?_, removed, ?_, ihIds⟩
        · rw [mergeWalkRemove_cons_nil, hout]
          rfl
        · refine ⟨hPsub l _ hPl, v, ?_, hprevL, ?_, ?_⟩
          · rw [withSubtotal_value, hv]
          · rw [withSubtotal_subtotal, withSubtotal_size, hsubL]
            ring
          · rw [withSubtotal_size]
            have harr : accL - accR + l.size = accL + l.size - accR := by ring
            rw [harr]
            exact ihS
        · rw [sumSizes_cons, withSubtotal_size, ihSum]
          simp only [sumSizes_nil, sumSizes_cons]
          ring
        · simp only [entriesLeafRows_cons, withSubtotal_leafRows]
          refine (ihPerm.append_left l.leafRows).trans ?_
          rw [← List.append_assoc]
      | cons r rs =>
        obtain ⟨hPr, b, hb, hprevR, hsubR, hrestR⟩ := hR
        rcases hSub with ⟨⟨a, hva, hra⟩, hQ, hSubRest⟩ | ⟨⟨a, b', hva, hrb, hab⟩, hSubRest⟩
        · -- matched heads: equal numeric values
          have hveq : v = a := by
            rw [hv] at hva
            exact (JSVal.num.inj hva)
          have hbeq : b = a := by
            rw [hb] at hra
            exact (JSVal.num.inj hra)
          have heq : jsEq l.value r.value = true := by
            rw [hv, hb, hveq, hbeq]
            exact (jsEq_num a a).mpr rfl
          obtain ⟨m, hpm, hmv, hms, hmst, hrle, hmP, hmnil, removedM, hmPerm, hmIds⟩ :=
            hmerge l r hPl hPr hQ ⟨a, hva, hra⟩
          have hfuel2 : ls.length + rs.length ≤ fuel := by
            simp at hfuel ⊢
            omega
          have hrestR' : EntriesStruct PR (some v) (accR + r.size) rs := by
            rw [hveq, ← hbeq]
            exact hrestR
          obtain ⟨out, hout, ihS, ihSum, removed, ihPerm, ihIds⟩ :=
            ih ls rs (some v) (accL + l.size) (accR + r.size) hfuel2 hrestL
              hrestR' hSubRest
          by_cases hs0 : m.size = 0
          · refine ⟨out, ?_, ?_, ?_, removedM ++ removed, ?_, ?_⟩
            · rw [mergeWalkRemove_cons_cons, if_pos heq, hpm]
              simp only [exceptBind_ok]
              rw [hsubR, hout]
              simp only [exceptBind_ok]
              rw [if_pos hs0]
            · have hsz : l.size = r.size := by omega
              have hacc : accL + l.size - (accR + r.size) = accL - accR := by
                rw [hsz]
                ring
              rw [hacc] at ihS
              cases lb with
              | none => exact EntriesStruct_drop_prev _ _ _ _ ihS
              | some pv =>
                exact EntriesStruct_mono_prev _ v pv _ _ ihS
                  (le_of_lt (hprevL pv rfl))
            · rw [ihSum]
              simp only [sumSizes_cons]
              omega
            · simp only [entriesLeafRows_cons]
              have hml : m.leafRows = [] := hmnil hs0
              rw [hml] at hmPerm
              simp only [List.nil_append] at hmPerm
              refine (hmPerm.append ihPerm).trans ?_
              exact perm_rotate _ _ _
            · simp only [entriesLeafRows_cons, List.map_append]
              exact (hmIds.append ihIds)
          · refine ⟨m :: out, ?_, ?_, ?_, removedM ++ removed, ?_, ?_⟩
            · rw [mergeWalkRemove_cons_cons, if_pos heq, hpm]
              simp only [exceptBind_ok]
              rw [hsubR, hout]
              simp only [exceptBind_ok]
              rw [if_neg hs0]
            · have hms1 : 1 ≤ m.size := by
                rcases Int.lt_or_le 0 m.size with h | h
                · omega
                · exact absurd (by omega : m.size = 0) hs0
              refine ⟨hmP hms1, v, ?_, hprevL, ?_, ?_⟩
              · rw [hmv, hv]
              · rw [hmst, hsubL, hsubR, hms]
                ring
              · have harr : accL - accR + m.size =
                    accL + l.size - (accR + r.size) := by
                  rw [hms]
                  ring
                rw [harr]
                exact ihS
            · rw [sumSizes_cons, ihSum, hms]
              simp only [sumSizes_cons]
              ring
            · simp only [entriesLeafRows_cons]
              refine (hmPerm.append ihPerm).trans ?_
              exact perm_middle_swap _ _ _ _
            · simp only [entriesLeafRows_cons, List.map_append]
              exact (hmIds.append ihIds)
        · -- left head strictly below the right head: keep it
          have hveq : v = a := by
            rw [hv] at hva
            exact (JSVal.num.inj hva)
          have hbeq : b = b' := by
            rw [hb] at hrb
            exact (JSVal.num.inj hrb)
          have hvb : v < b := by omega
          have heq : jsEq l.value r.value = false := by
            rw [hv, hb]
            have : ¬ (v = b) := by omega
            rcases hx : jsEq (JSVal.num v) (JSVal.num b) with _ | _
            · rfl
            · exact absurd ((jsEq_num v b).mp hx) this
          have hlt : jsLt l.value r.value = true := by
            rw [hv, hb]
            exact (jsLt_num v b).mpr hvb
          have hfuel2 : ls.length + (r :: rs).length ≤ fuel := by
            simp at hfuel ⊢
            omega
          have hR' : EntriesStruct PR (some v) accR (r :: rs) := by
            refine ⟨hPr, b, hb, ?_, hsubR, hrestR⟩
            intro pv hpv
            cases hpv
            exact hvb
          obtain ⟨out, hout, ihS, ihSum, removed, ihPerm, ihIds⟩ :=
            ih ls (r :: rs) (some v) (accL + l.size) accR hfuel2 hrestL hR' hSubRest
          refine ⟨l.withSubtotal (l.subtotal - accR) :: out, ?_, ?_, ?_, removed,
            ?_, ihIds⟩
          · rw [mergeWalkRemove_cons_cons, if_neg (by rw [heq]; exact Bool.false_ne_true),
              if_pos hlt, hout]
            rfl
          · refine ⟨hPsub l _ hPl, v, ?_, hprevL, ?_, ?_⟩
            · rw [withSubtotal_value, hv]
            · rw [withSubtotal_subtotal, withSubtotal_size, hsubL]
              ring
            · rw [withSubtotal_size]
              have harr : accL - accR + l.size = accL + l.size - accR := by ring
              rw [harr]
              exact ihS
          · rw [sumSizes_cons, withSubtotal_size, ihSum]
            simp only [sumSizes_cons]
            ring
          · simp only [entriesLeafRows_cons, withSubtotal_leafRows]
            refine (ihPerm.append_left l.leafRows).trans ?_
            rw [← List.append_assoc]

/-- The split of a leaf's rows by the removal filter: kept plus removed
is everything, the removed identities are exactly the right side's, and
the kept length is the difference. -/
theorem filter_remove_spec (rsL rsR : List Row)
    (hsub : ∀ row ∈ rsR, row.id ∈ rsL.map Row.id)
    (hndL : (rsL.map Row.id).Nodup) (hndR : (rsR.map Row.id).Nodup) :
    List.Perm rsL
      (rsL.filter (fun row => !((rsR.map Row.id).contains row.id)) ++
       rsL.filter (fun row => (rsR.map Row.id).contains row.id)) ∧
    List.Perm ((rsL.filter (fun row => (rsR.map Row.id).contains row.id)).map Row.id)
      (rsR.map Row.id) ∧
    ((rsL.filter (fun row => !((rsR.map Row.id).contains row.id))).length : Int) =
      (rsL.length : Int) - (rsR.length : Int) := by
  have h0 := List.filter_append_perm
    (fun row => !((rsR.map Row.id).contains row.id)) rsL
  simp only [Bool.not_not] at h0
  have hremsub : (rsL.filter (fun row => (rsR.map Row.id).contains row.id)).Sublist
      rsL := List.filter_sublist _
  have hndRem : ((rsL.filter
      (fun row => (rsR.map Row.id).contains row.id)).map Row.id).Nodup :=
    hndL.sublist (hremsub.map Row.id)
  have hids : List.Perm
      ((rsL.filter (fun row => (rsR.map Row.id).contains row.id)).map Row.id)
      (rsR.map Row.id) := by
    refine (List.perm_ext_iff_of_nodup hndRem hndR).mpr ?_
    intro x
    constructor
    · intro hx
      obtain ⟨row, hrow, hxid⟩ := List.mem_map.mp hx
      obtain ⟨_, hcont⟩ := List.mem_filter.mp hrow
      rw [← hxid]
      simpa using hcont
    · intro hx
      obtain ⟨rr, hrr, hrid⟩ := List.mem_map.mp hx
      have hinL : x ∈ rsL.map Row.id := by
        rw [← hrid]
        exact hsub rr hrr
      obtain ⟨lrow, hlrow, hlid⟩ := List.mem_map.mp hinL
      refine List.mem_map.mpr ⟨lrow, ?_, hlid⟩
      refine List.mem_filter.mpr ⟨hlrow, ?_⟩
      have : lrow.id ∈ rsR.map Row.id := by
        rw [hlid]
        exact hx
      simpa using this
  refine ⟨h0.symm, hids, ?_⟩
  have hlen1 : rsL.length =
      (rsL.filter (fun row => !((rsR.map Row.id).contains row.id))).length +
      (rsL.filter (fun row => (rsR.map Row.id).contains row.id)).length := by
    have := h0.length_eq
    simpa [List.length_append] using this.symm
  have hlen2 : (rsL.filter (fun row => (rsR.map Row.id).contains row.id)).length =
      rsR.length := by
    have := hids.length_eq
    simpa [List.length_map] using this
  omega

theorem mergeRemoveLevel_one (esL : List Entry) (tL : Int) (esR : List Entry)
    (tR : Int) :
    mergeRemoveLevel 1 (esL, tL) (esR, tR) =
    mergeWalkRemove (fun a b => Except.ok (pairRemoveLeaf a b))
      (esL.length + esR.length) esL esR 0 >>= fun es =>
    Except.ok (es, tL - tR) := rfl

theorem mergeRemoveLevel_two (d : Nat) (esL : List Entry) (tL : Int)
    (esR : List Entry) (tR : Int) :
    mergeRemoveLevel (d + 2) (esL, tL) (esR, tR) =
    mergeWalkRemove (pairRemoveNode (mergeRemoveLevel (d + 1)))
      (esL.length + esR.length) esL esR 0 >>= fun es =>
    Except.ok (es, tL - tR) := rfl

/-- One level of `rowsRemoved`'s merge: against a well-formed removable
right side it succeeds, stays well-formed, subtracts the totals, and
removes exactly the right side's row identities. -/
theorem mergeRemoveLevel_struct :
    ∀ (cols : List String) (esL : List Entry) (tL : Int) (esR : List Entry) (tR : Int),
      StructLevel cols esL tL → StructLevel cols esR tR →
      RemovableLevel cols esL esR →
      ∃ out : List Entry × Int,
        mergeRemoveLevel cols.length (esL, tL) (esR, tR) = Except.ok out ∧
        StructLevel cols out.1 out.2 ∧ out.2 = tL - tR ∧
        ∃ removed,
          List.Perm (entriesLeafRows esL) (entriesLeafRows out.1 ++ removed) ∧
          List.Perm (removed.map Row.id) ((entriesLeafRows esR).map Row.id) := by
  intro cols
  induction cols with
  | nil => intro esL tL esR tR h; exact absurd h (by simp [StructLevel])
  | cons c rest ih =>
    intro esL tL esR tR hL hR hRem
    cases rest with
    | nil =>
      obtain ⟨hLs, hLt⟩ := hL
      obtain ⟨hRs, hRt⟩ := hR
      have hPsub : ∀ (e : Entry) (st' : Int), leafPred c e →
          leafPred c (e.withSubtotal st') := by
        intro e st' he
        cases e with
        | leaf v s st rs =>
          cases v with
          | num n => exact he
          | null => exact absurd he (by simp [leafPred])
          | undef => exact absurd he (by simp [leafPred])
        | node _ _ _ _ _ => exact absurd he (by simp [leafPred])
      have hmerge : ∀ l r, leafPred c l → leafPred c r → leafRemovable l r →
          (∃ a : Int, l.value = JSVal.num a ∧ r.value = JSVal.num a) →
          ∃ m, (fun a b => (Except.ok (pairRemoveLeaf a b) : Except String Entry)) l r =
            Except.ok m ∧
            m.value = l.value ∧ m.size = l.size - r.size ∧
            m.subtotal = l.subtotal - r.subtotal ∧
            r.size ≤ l.size ∧ (1 ≤ m.size → leafPred c m) ∧
            (m.size = 0 → m.leafRows = []) ∧
            ∃ removed, List.Perm l.leafRows (m.leafRows ++ removed) ∧
              List.Perm (removed.map Row.id) (r.leafRows.map Row.id) := by
        intro l r hl hr hQ hvals
        cases l with
        | node _ _ _ _ _ => exact absurd hl (by simp [leafPred])
        | leaf lv lsz lst lrs =>
          cases lv with
          | null => exact absurd hl (by simp [leafPred])
          | undef => exact absurd hl (by simp [leafPred])
          | num v =>
            cases r with
            | node _ _ _ _ _ => exact absurd hr (by simp [leafPred])
            | leaf rv rsz rst rrs =>
              cases rv with
              | null => exact absurd hr (by simp [leafPred])
              | undef => exact absurd hr (by simp [leafPred])
              | num b =>
                obtain ⟨hls, hlne, hlval⟩ := hl
                obtain ⟨hrs, hrne, hrval⟩ := hr
                obtain ⟨hsub, hndL, hndR⟩ := hQ
                obtain ⟨hsplit, hids, hlen⟩ := filter_remove_spec lrs rrs hsub hndL hndR
                refine ⟨Entry.leaf (JSVal.num v) (lsz - rsz) (lst - rst)
                  (lrs.filter (fun row => !((rrs.map Row.id).contains row.id))),
                  rfl, rfl, rfl, rfl, ?_, ?_, ?_,
                  lrs.filter (fun row => (rrs.map Row.id).contains row.id), ?_, ?_⟩
                · show rsz ≤ lsz
                  have hsb : (rrs.map Row.id).Subperm (lrs.map Row.id) :=
                    List.Nodup.subperm hndR (fun x hx => by
                      obtain ⟨rr, hrr, hrid⟩ := List.mem_map.mp hx
                      rw [← hrid]
                      exact hsub rr hrr)
                  have := hsb.length_le
                  simp only [List.length_map] at this
                  omega
                · intro hms
                  show leafPred c (Entry.leaf (JSVal.num v) (lsz - rsz) (lst - rst) _)
                  refine ⟨?_, ?_, ?_⟩
                  · rw [hls, hrs]
                    omega
                  · intro hnil
                    rw [hnil] at hlen
                    simp only [List.length_nil] at hlen
                    simp only [Entry.size] at hms
                    omega
                  · intro row hrow
                    exact hlval row (List.mem_of_mem_filter hrow)
                · intro hms
                  simp only [Entry.size] at hms
                  show (lrs.filter (fun row => !((rrs.map Row.id).contains row.id))) = []
                  refine List.length_eq_zero.mp ?_
                  omega
                · show List.Perm lrs _
                  exact hsplit
                · exact hids
      obtain ⟨out, hout, ihS, ihSum, removed, ihPerm, ihIds⟩ :=
        mergeWalkRemove_struct _ (leafPred c) (leafPred c) leafRemovable hPsub hmerge
          (esL.length + esR.length) esL esR none 0 0 (le_refl _) hLs hRs hRem
      have hlen : ((c : String) :: ([] : List String)).length = 1 := rfl
      rw [hlen, mergeRemoveLevel_one]
      refine ⟨(out, tL - tR), ?_, ?_, rfl, removed, ihPerm, ihIds⟩
      · rw [hout]
        rfl
      · refine ⟨?_, ?_⟩
        · simpa using ihS
        · show tL - tR = sumSizes out
          rw [ihSum, hLt, hRt]
    | cons c2 rest2 =>
      obtain ⟨hLs, hLt⟩ := hL
      obtain ⟨hRs, hRt⟩ := hR
      have hlen1 : ((c2 :: rest2 : List String)).length = rest2.length + 1 := rfl
      have hPsub : ∀ (e : Entry) (st' : Int),
          nodePred c (StructLevel (c2 :: rest2)) e →
          nodePred c (StructLevel (c2 :: rest2)) (e.withSubtotal st') := by
        intro e st' he
        cases e with
        | leaf _ _ _ _ => exact absurd he (by simp [nodePred])
        | node v s st ces ct =>
          cases v with
          | num n => exact he
          | null => exact absurd he (by simp [nodePred])
          | undef => exact absurd he (by simp [nodePred])
      have hmerge : ∀ l r, nodePred c (StructLevel (c2 :: rest2)) l →
          nodePred c (StructLevel (c2 :: rest2)) r →
          nodeRemovable (RemovableLevel (c2 :: rest2)) l r →
          (∃ a : Int, l.value = JSVal.num a ∧ r.value = JSVal.num a) →
          ∃ m, pairRemoveNode (mergeRemoveLevel (rest2.length + 1)) l r =
            Except.ok m ∧
            m.value = l.value ∧ m.size = l.size - r.size ∧
            m.subtotal = l.subtotal - r.subtotal ∧
            r.size ≤ l.size ∧
            (1 ≤ m.size → nodePred c (StructLevel (c2 :: rest2)) m) ∧
            (m.size = 0 → m.leafRows = []) ∧
            ∃ removed, List.Perm l.leafRows (m.leafRows ++ removed) ∧
              List.Perm (removed.map Row.id) (r.leafRows.map Row.id) := by
        intro l r hl hr hQ hvals
        cases l with
        | leaf _ _ _ _ => exact absurd hl (by simp [nodePred])
        | node lv lsz lst lces lct =>
          cases lv with
          | null => exact absurd hl (by simp [nodePred])
          | undef => exact absurd hl (by simp [nodePred])
          | num v =>
            cases r with
            | leaf _ _ _ _ => exact absurd hr (by simp [nodePred])
            | node rv rsz rst rces rct =>
              cases rv with
              | null => exact absurd hr (by simp [nodePred])
              | undef => exact absurd hr (by simp [nodePred])
              | num b =>
                obtain ⟨hlsub, hlsz, hlne, hlval⟩ := hl
                obtain ⟨hrsub, hrsz, hrne, hrval⟩ := hr
                have hQ' : RemovableLevel (c2 :: rest2) lces rces := hQ
                obtain ⟨sub, hsub, hsubS, hsubT, removed, hsubPerm, hsubIds⟩ :=
                  ih lces lct rces rct hlsub hrsub hQ'
                rw [hlen1] at hsub
                have hlenL := StructLevel_sumSizes_len _ _ _ hlsub
                have hlenR := StructLevel_sumSizes_len _ _ _ hrsub
                have htotL := StructLevel_total_eq _ _ _ hlsub
                have htotR := StructLevel_total_eq _ _ _ hrsub
                have hlenRem : removed.length = (entriesLeafRows rces).length := by
                  have := hsubIds.length_eq
                  simpa [List.length_map] using this
                have hlenSplit := hsubPerm.length_eq
                rw [List.length_append] at hlenSplit
                refine ⟨Entry.node (JSVal.num v) (lsz - rsz) (lst - rst) sub.1 sub.2,
                  ?_, rfl, rfl, rfl, ?_, ?_, ?_, removed, ?_, ?_⟩
                · show (mergeRemoveLevel (rest2.length + 1) (lces, lct) (rces, rct)
                    >>= fun s => Except.ok (Entry.node (JSVal.num v) (lsz - rsz)
                      (lst - rst) s.1 s.2)) = _
                  rw [hsub]
                  rfl
                · show rsz ≤ lsz
                  omega
                · intro hms
                  simp only [Entry.size] at hms
                  have hsubT2 := StructLevel_total_eq _ _ _ hsubS
                  have hsumlen := StructLevel_sumSizes_len _ _ _ hsubS
                  refine ⟨hsubS, ?_, ?_, ?_⟩
                  · show lsz - rsz = sub.2
                    omega
                  · intro hnil
                    rw [hnil, sumSizes_nil] at hsubT2
                    omega
                  · intro row hrow
                    refine hlval row ?_
                    exact hsubPerm.mem_iff.mpr (List.mem_append_left _ hrow)
                · intro hms
                  simp only [Entry.size] at hms
                  show entriesLeafRows sub.1 = []
                  have hsubT2 := StructLevel_total_eq _ _ _ hsubS
                  have hsumlen := StructLevel_sumSizes_len _ _ _ hsubS
                  have : (entriesLeafRows sub.1).length = 0 := by omega
                  exact List.length_eq_zero.mp this
                · show List.Perm (entriesLeafRows lces) (entriesLeafRows sub.1 ++ removed)
                  exact hsubPerm
                · show List.Perm (removed.map Row.id) ((entriesLeafRows rces).map Row.id)
                  exact hsubIds
      obtain ⟨out, hout, ihS, ihSum, removed, ihPerm, ihIds⟩ :=
        mergeWalkRemove_struct _ (nodePred c (StructLevel (c2 :: rest2)))
          (nodePred c (StructLevel (c2 :: rest2)))
          (nodeRemovable (RemovableLevel (c2 :: rest2))) hPsub hmerge
          (esL.length + esR.length) esL esR none 0 0 (le_refl _) hLs hRs hRem
      have hlen : ((c : String) :: c2 :: rest2).length = rest2.length + 2 := rfl
      rw [hlen, mergeRemoveLevel_two]
      refine ⟨(out, tL - tR), ?_, ?_, rfl, removed, ihPerm, ihIds⟩
      · rw [hout]
        rfl
      · refine ⟨?_, ?_⟩
        · simpa using ihS
        · show tL - tR = sumSizes out
          rw [ihSum, hLt, hRt]

/-! ## Aligning a freshly built removal index with the stored index -/

/-- Every entry after a bound has a key above the bound. -/
theorem EntriesStruct_lb (P : Entry → Prop) :
    ∀ (prev : Option Int) (acc : Int) (es : List Entry),
      EntriesStruct P prev acc es →
      ∀ pv, prev = some pv → ∀ e ∈ es, pv < numOf e.value := by
  intro prev acc es
  induction es generalizing prev acc with
  | nil => intro _ pv _ e he; simp at he
  | cons e0 es ih =>
    intro h pv hpv e he
    obtain ⟨hP, v, hv, hprev, hsub, hrest⟩ := h
    subst hpv
    rcases List.mem_cons.mp he with rfl | h'
    · rw [hv]
      simpa [numOf] using hprev pv rfl
    · have hin := ih _ _ hrest v rfl e h'
      have := hprev pv rfl
      omega

/-- Every stored row sits under an entry carrying its own projection as
value. -/
theorem row_to_entry (P : Entry → Prop) (c : String)
    (hproj : ∀ e, P e → ∃ a : Int, e.value = JSVal.num a ∧
      ∀ row ∈ e.leafRows, row.get c = JSVal.num a) :
    ∀ (prev : Option Int) (acc : Int) (es : List Entry),
      EntriesStruct P prev acc es →
      ∀ row ∈ entriesLeafRows es, ∃ e ∈ es, row ∈ e.leafRows ∧
        ∃ a : Int, e.value = JSVal.num a ∧ row.get c = JSVal.num a := by
  intro prev acc es
  induction es generalizing prev acc with
  | nil => intro _ row hrow; simp [entriesLeafRows_nil] at hrow
  | cons e0 es ih =>
    intro h row hrow
    obtain ⟨hP, v, hv, hprev, hsub, hrest⟩ := h
    rw [entriesLeafRows_cons] at hrow
    rcases List.mem_append.mp hrow with hcase | hcase
    · obtain ⟨a, hva, hrows⟩ := hproj e0 hP
      exact ⟨e0, List.mem_cons_self _ _, hcase, a, hva, hrows row hcase⟩
    · obtain ⟨e, he, hrowse, a, hva, hproj'⟩ := ih _ _ hrest row hcase
      exact ⟨e, List.mem_cons_of_mem _ he, hrowse, a, hva, hproj'⟩

/-- The generic spine alignment: a well-formed right spine whose rows all
have identity-and-agreement counterparts on the left is a value-ordered
subsequence of the left spine, with `Q` at each matched pair. -/
theorem SubEntries_align (P PR : Entry → Prop) (Q : Entry → Entry → Prop)
    (c : String) (Agree : Row → Row → Prop)
    (hprojL : ∀ e, P e → ∃ a : Int, e.value = JSVal.num a ∧
      ∀ row ∈ e.leafRows, row.get c = JSVal.num a)
    (hprojR : ∀ e, PR e → ∃ a : Int, e.value = JSVal.num a ∧
      ∀ row ∈ e.leafRows, row.get c = JSVal.num a)
    (hneR : ∀ e, PR e → e.leafRows ≠ [])
    (hAgreeProj : ∀ lr rr, Agree lr rr → lr.get c = rr.get c)
    (hQ : ∀ l r, P l → PR r →
      (∀ rr ∈ r.leafRows, ∃ lr ∈ l.leafRows, lr.id = rr.id ∧ Agree lr rr) →
      (l.leafRows.map Row.id).Nodup → (r.leafRows.map Row.id).Nodup → Q l r) :
    ∀ (esL esR : List Entry) (prevL : Option Int) (accL : Int)
      (prevR : Option Int) (accR : Int),
      EntriesStruct P prevL accL esL →
      EntriesStruct PR prevR accR esR →
      (∀ rr ∈ entriesLeafRows esR, ∃ lr ∈ entriesLeafRows esL,
        lr.id = rr.id ∧ Agree lr rr) →
      ((entriesLeafRows esL).map Row.id).Nodup →
      ((entriesLeafRows esR).map Row.id).Nodup →
      SubEntries Q esL esR := by
  intro esL
  induction esL with
  | nil =>
    intro esR prevL accL prevR accR hL hR hcp _ _
    cases esR with
    | nil => trivial
    | cons rE rsE =>
      obtain ⟨hPr, b, hvb, _, _, _⟩ := hR
      obtain ⟨rr0, hrr0⟩ := List.exists_mem_of_ne_nil _ (hneR rE hPr)
      obtain ⟨lr0, hlr0, _⟩ := hcp rr0
        (by rw [entriesLeafRows_cons]; exact List.mem_append_left _ hrr0)
      simp [entriesLeafRows_nil] at hlr0
  | cons lE lsE ih =>
    intro esR prevL accL prevR accR hL hR hcp hndL hndR
    cases esR with
    | nil =>
      show SubEntries Q (lE :: lsE) []
      trivial
    | cons rE rsE =>
      obtain ⟨hPl, a, hva, hprevL2, hsubL2, hrestL2⟩ := hL
      obtain ⟨hPr, b, hvb, hprevR2, hsubR2, hrestR2⟩ := hR
      obtain ⟨aP, hvaP, hrowsLproj⟩ := hprojL lE hPl
      have haP : aP = a := by
        rw [hva] at hvaP
        exact (JSVal.num.inj hvaP).symm
      rw [haP] at hrowsLproj
      obtain ⟨bP, hvbP, hrowsRproj⟩ := hprojR rE hPr
      have hbP : bP = b := by
        rw [hvb] at hvbP
        exact (JSVal.num.inj hvbP).symm
      rw [hbP] at hrowsRproj
      have hLfull : EntriesStruct P prevL accL (lE :: lsE) :=
        ⟨hPl, a, hva, hprevL2, hsubL2, hrestL2⟩
      obtain ⟨rr0, hrr0⟩ := List.exists_mem_of_ne_nil _ (hneR rE hPr)
      obtain ⟨lr0, hlr0, hid0, hag0⟩ := hcp rr0
        (by rw [entriesLeafRows_cons]; exact List.mem_append_left _ hrr0)
      have hlr0proj : lr0.get c = JSVal.num b := by
        rw [hAgreeProj lr0 rr0 hag0]
        exact hrowsRproj rr0 hrr0
      obtain ⟨e0, he0, he0rows, a0, he0val, hprj⟩ :=
        row_to_entry P c hprojL _ _ _ hLfull lr0 hlr0
      have ha0 : a0 = b := by
        rw [hprj] at hlr0proj
        exact JSVal.num.inj hlr0proj
      have hab : a = b ∨ a < b := by
        rcases List.mem_cons.mp he0 with rfl | h2
        · left
          rw [hva] at he0val
          have := JSVal.num.inj he0val
          omega
        · right
          have := EntriesStruct_lb P _ _ _ hrestL2 a rfl e0 h2
          rw [he0val] at this
          simp only [numOf] at this
          omega
      have hndL1 : (lE.leafRows.map Row.id).Nodup := by
        rw [entriesLeafRows_cons, List.map_append] at hndL
        exact hndL.of_append_left
      have hndL2 : ((entriesLeafRows lsE).map Row.id).Nodup := by
        rw [entriesLeafRows_cons, List.map_append] at hndL
        exact hndL.of_append_right
      have hndR1 : (rE.leafRows.map Row.id).Nodup := by
        rw [entriesLeafRows_cons, List.map_append] at hndR
        exact hndR.of_append_left
      have hndR2 : ((entriesLeafRows rsE).map Row.id).Nodup := by
        rw [entriesLeafRows_cons, List.map_append] at hndR
        exact hndR.of_append_right
      -- a localization tool: a left row whose projection exceeds `a`
      -- lies in the tail
      have hlocal : ∀ lr ∈ entriesLeafRows (lE :: lsE), ∀ b' : Int, a < b' →
          lr.get c = JSVal.num b' → lr ∈ entriesLeafRows lsE := by
        intro lr hlr b' hb' hproj'
        obtain ⟨e', he', he'rows, a', he'val, hprj'⟩ :=
          row_to_entry P c hprojL _ _ _ hLfull lr hlr
        have ha' : a' = b' := by
          rw [hprj'] at hproj'
          exact JSVal.num.inj hproj'
        subst ha'
        rcases List.mem_cons.mp he' with rfl | h2
        · rw [hva] at he'val
          have := JSVal.num.inj he'val
          omega
        · exact mem_entriesLeafRows_of_mem _ e' h2 he'rows
      rcases hab with hab | hab
      · -- matched heads
        refine Or.inl ⟨⟨a, hva, by rw [hvb, hab]⟩, ?_, ?_⟩
        · refine hQ lE rE hPl hPr ?_ hndL1 hndR1
          intro rr' hrr'
          obtain ⟨lr', hlr', hid', hag'⟩ := hcp rr'
            (by rw [entriesLeafRows_cons]; exact List.mem_append_left _ hrr')
          have hproj' : lr'.get c = JSVal.num a := by
            rw [hAgreeProj lr' rr' hag', hrowsRproj rr' hrr', hab]
          obtain ⟨e', he', he'rows, a', he'val, hprj'⟩ :=
            row_to_entry P c hprojL _ _ _ hLfull lr' hlr'
          have ha' : a' = a := by
            rw [hprj'] at hproj'
            exact JSVal.num.inj hproj'
          rcases List.mem_cons.mp he' with rfl | h2
          · exact ⟨lr', he'rows, hid', hag'⟩
          · have := EntriesStruct_lb P _ _ _ hrestL2 a rfl e' h2
            rw [he'val] at this
            simp only [numOf] at this
            exact absurd this (by omega)
        · refine ih rsE (some a) (accL + lE.size) (some b) (accR + rE.size)
            hrestL2 hrestR2 ?_ hndL2 hndR2
          intro rr' hrr'
          obtain ⟨e'', he'', he''rows, b'', he''val, hprj''⟩ :=
            row_to_entry PR c hprojR _ _ _ hrestR2 rr' hrr'
          have hb'' : a < b'' := by
            have := EntriesStruct_lb PR _ _ _ hrestR2 b rfl e'' he''
            rw [he''val] at this
            simp only [numOf] at this
            omega
          obtain ⟨lr', hlr', hid', hag'⟩ := hcp rr'
            (by rw [entriesLeafRows_cons]; exact List.mem_append_right _ hrr')
          have hproj' : lr'.get c = JSVal.num b'' := by
            rw [hAgreeProj lr' rr' hag']
            exact hprj''
          exact ⟨lr', hlocal lr' hlr' b'' hb'' hproj', hid', hag'⟩
      · -- left head strictly below: skip it
        refine Or.inr ⟨⟨a, b, hva, hvb, hab⟩, ?_⟩
        refine ih (rE :: rsE) (some a) (accL + lE.size) prevR accR hrestL2
          ⟨hPr, b, hvb, hprevR2, hsubR2, hrestR2⟩ ?_ hndL2 hndR
        intro rr' hrr'
        have hbound : ∃ b'' : Int, b ≤ b'' ∧ rr'.get c = JSVal.num b'' := by
          rw [entriesLeafRows_cons] at hrr'
          rcases List.mem_append.mp hrr' with hcase | hcase
          · exact ⟨b, le_refl b, hrowsRproj rr' hcase⟩
          · obtain ⟨e'', he'', he''rows, b'', he''val, hprj''⟩ :=
              row_to_entry PR c hprojR _ _ _ hrestR2 rr' hcase
            have := EntriesStruct_lb PR _ _ _ hrestR2 b rfl e'' he''
            rw [he''val] at this
            simp only [numOf] at this
            exact ⟨b'', le_of_lt this, hprj''⟩
        obtain ⟨b'', hb''le, hb''proj⟩ := hbound
        obtain ⟨lr', hlr', hid', hag'⟩ := hcp rr' hrr'
        have hproj' : lr'.get c = JSVal.num b'' := by
          rw [hAgreeProj lr' rr' hag']
          exact hb''proj
        exact ⟨lr', hlocal lr' hlr' b'' (by omega) hproj', hid', hag'⟩

/-- A freshly built removal index whose rows all have identity-and-
projection counterparts in the stored index is removable from it. -/
theorem align_levels :
    ∀ (cols : List String) (esL : List Entry) (tL : Int) (esR : List Entry) (tR : Int),
      StructLevel cols esL tL → StructLevel cols esR tR →
      (∀ rr ∈ entriesLeafRows esR, ∃ lr ∈ entriesLeafRows esL,
        lr.id = rr.id ∧ ∀ c' ∈ cols, lr.get c' = rr.get c') →
      ((entriesLeafRows esL).map Row.id).Nodup →
      ((entriesLeafRows esR).map Row.id).Nodup →
      RemovableLevel cols esL esR := by
  intro cols
  induction cols with
  | nil => intro esL tL esR tR h; exact absurd h (by simp [StructLevel])
  | cons c rest ih =>
    intro esL tL esR tR hL hR hcp hndL hndR
    cases rest with
    | nil =>
      obtain ⟨hLs, _⟩ := hL
      obtain ⟨hRs, _⟩ := hR
      show SubEntries leafRemovable esL esR
      refine SubEntries_align (leafPred c) (leafPred c) leafRemovable c
        (fun lr rr => ∀ c' ∈ [c], lr.get c' = rr.get c') ?_ ?_ ?_ ?_ ?_
        esL esR none 0 none 0 hLs hRs hcp hndL hndR
      · intro e he
        cases e with
        | leaf v s st rs =>
          cases v with
          | num n =>
            obtain ⟨_, _, hval⟩ := he
            exact ⟨n, rfl, hval⟩
          | null => exact absurd he (by simp [leafPred])
          | undef => exact absurd he (by simp [leafPred])
        | node _ _ _ _ _ => exact absurd he (by simp [leafPred])
      · intro e he
        cases e with
        | leaf v s st rs =>
          cases v with
          | num n =>
            obtain ⟨_, _, hval⟩ := he
            exact ⟨n, rfl, hval⟩
          | null => exact absurd he (by simp [leafPred])
          | undef => exact absurd he (by simp [leafPred])
        | node _ _ _ _ _ => exact absurd he (by simp [leafPred])
      · intro e he
        cases e with
        | leaf v s st rs =>
          cases v with
          | num n =>
            obtain ⟨_, hne, _⟩ := he
            exact hne
          | null => exact absurd he (by simp [leafPred])
          | undef => exact absurd he (by simp [leafPred])
        | node _ _ _ _ _ => exact absurd he (by simp [leafPred])
      · intro lr rr hag
        exact hag c (List.mem_cons_self _ _)
      · intro l r hl hr hcps hnd1 hnd2
        cases l with
        | node _ _ _ _ _ => exact absurd hl (by simp [leafPred])
        | leaf lv lsz lst lrs =>
          cases lv with
          | null => exact absurd hl (by simp [leafPred])
          | undef => exact absurd hl (by simp [leafPred])
          | num v =>
            cases r with
            | node _ _ _ _ _ => exact absurd hr (by simp [leafPred])
            | leaf rv rsz rst rrs =>
              cases rv with
              | null => exact absurd hr (by simp [leafPred])
              | undef => exact absurd hr (by simp [leafPred])
              | num b =>
                refine ⟨?_, hnd1, hnd2⟩
                intro row hrow
                obtain ⟨lr', hlr', hid', _⟩ := hcps row hrow
                exact List.mem_map.mpr ⟨lr', hlr', hid'⟩
    | cons c2 rest2 =>
      obtain ⟨hLs, _⟩ := hL
      obtain ⟨hRs, _⟩ := hR
      show SubEntries (nodeRemovable (RemovableLevel (c2 :: rest2))) esL esR
      refine SubEntries_align (nodePred c (StructLevel (c2 :: rest2)))
        (nodePred c (StructLevel (c2 :: rest2)))
        (nodeRemovable (RemovableLevel (c2 :: rest2))) c
        (fun lr rr => ∀ c' ∈ c :: c2 :: rest2, lr.get c' = rr.get c') ?_ ?_ ?_ ?_ ?_
        esL esR none 0 none 0 hLs hRs hcp hndL hndR
      · intro e he
        cases e with
        | leaf _ _ _ _ => exact absurd he (by simp [nodePred])
        | node v s st ces ct =>
          cases v with
          | num n =>
            obtain ⟨_, _, _, hval⟩ := he
            exact ⟨n, rfl, hval⟩
          | null => exact absurd he (by simp [nodePred])
          | undef => exact absurd he (by simp [nodePred])
      · intro e he
        cases e with
        | leaf _ _ _ _ => exact absurd he (by simp [nodePred])
        | node v s st ces ct =>
          cases v with
          | num n =>
            obtain ⟨_, _, _, hval⟩ := he
            exact ⟨n, rfl, hval⟩
          | null => exact absurd he (by simp [nodePred])
          | undef => exact absurd he (by simp [nodePred])
      · intro e he
        cases e with
        | leaf _ _ _ _ => exact absurd he (by simp [nodePred])
        | node v s st ces ct =>
          cases v with
          | num n =>
            obtain ⟨hsub, _, hne, _⟩ := he
            have hlen := StructLevel_sumSizes_len _ _ _ hsub
            have hpos := sumSizes_pos ces hne (StructLevel_size_pos _ _ _ hsub)
            show entriesLeafRows ces ≠ []
            intro hnil
            rw [hnil] at hlen
            simp only [List.length_nil] at hlen
            omega
          | null => exact absurd he (by simp [nodePred])
          | undef => exact absurd he (by simp [nodePred])
      · intro lr rr hag
        exact hag c (List.mem_cons_self _ _)
      · intro l r hl hr hcps hnd1 hnd2
        cases l with
        | leaf _ _ _ _ => exact absurd hl (by simp [nodePred])
        | node lv lsz lst lces lct =>
          cases lv with
          | null => exact absurd hl (by simp [nodePred])
          | undef => exact absurd hl (by simp [nodePred])
          | num v =>
            cases r with
            | leaf _ _ _ _ => exact absurd hr (by simp [nodePred])
            | node rv rsz rst rces rct =>
              cases rv with
              | null => exact absurd hr (by simp [nodePred])
              | undef => exact absurd hr (by simp [nodePred])
              | num b =>
                obtain ⟨hlsub, _, _, _⟩ := hl
                obtain ⟨hrsub, _, _, _⟩ := hr
                show RemovableLevel (c2 :: rest2) lces rces
                refine ih lces lct rces rct hlsub hrsub ?_ hnd1 hnd2
                intro rr' hrr'
                obtain ⟨lr', hlr', hid', hag'⟩ := hcps rr' hrr'
                exact ⟨lr', hlr', hid',
                  fun c' hc' => hag' c' (List.mem_cons_of_mem _ hc')⟩

/-- `rowsRemoved` on numeric victims with stored counterparts: the run
succeeds, keeps the columns, stays well-formed, and removes exactly the
victims' identities from the stored rows. -/
theorem rowsRemoved_struct (ix : IndexState) (victims : List Row)
    (hcols : ix.columns ≠ [])
    (hst : StructLevel ix.columns ix.entries ix.total)
    (hnum : ∀ c ∈ ix.columns, ∀ r ∈ victims, r.get c = JSVal.num (numOf (r.get c)))
    (hcp : ∀ rr ∈ victims, ∃ lr ∈ entriesLeafRows ix.entries,
      lr.id = rr.id ∧ ∀ c ∈ ix.columns, lr.get c = rr.get c)
    (hndL : ((entriesLeafRows ix.entries).map Row.id).Nodup)
    (hndV : (victims.map Row.id).Nodup) :
    ∃ ix', ix.rowsRemoved victims = Except.ok ix' ∧
      ix'.columns = ix.columns ∧
      StructLevel ix'.columns ix'.entries ix'.total ∧
      ∃ removed, List.Perm (entriesLeafRows ix.entries)
          (entriesLeafRows ix'.entries ++ removed) ∧
        List.Perm (removed.map Row.id) (victims.map Row.id) := by
  obtain ⟨hbs, hbperm⟩ := buildIndexRows_struct ix.columns victims hcols hnum
  have hndR : ((entriesLeafRows (buildIndexRows ix.columns victims).1).map
      Row.id).Nodup :=
    (List.Perm.nodup_iff (hbperm.map Row.id)).mpr hndV
  have hcpR : ∀ rr ∈ entriesLeafRows (buildIndexRows ix.columns victims).1,
      ∃ lr ∈ entriesLeafRows ix.entries, lr.id = rr.id ∧
        ∀ c ∈ ix.columns, lr.get c = rr.get c := by
    intro rr hrr
    exact hcp rr (hbperm.mem_iff.mp hrr)
  have hrem := align_levels ix.columns ix.entries ix.total
    (buildIndexRows ix.columns victims).1 (buildIndexRows ix.columns victims).2
    hst hbs hcpR hndL hndR
  obtain ⟨out, hout, houtS, houtT, removed, hperm, hids⟩ :=
    mergeRemoveLevel_struct ix.columns ix.entries ix.total
      (buildIndexRows ix.columns victims).1 (buildIndexRows ix.columns victims).2
      hst hbs hrem
  refine ⟨{ columns := ix.columns, entries := out.1, total := out.2 }, ?_, rfl, houtS,
    removed, hperm, ?_⟩
  · rw [IndexState.rowsRemoved]
    have hout2 : mergeRemoveLevel ix.columns.length (ix.entries, ix.total)
        (buildIndexRows ix.columns victims) = Except.ok out := hout
    rw [hout2]
    rfl
  · exact hids.trans (hbperm.map Row.id)

/-! ## The table-level invariant machinery -/

/-- The observation an index makes of a row: its identity and its
projections on the index's columns. -/
def rowKey (cols : List String) (r : Row) : Nat × List JSVal :=
  (r.id, cols.map (fun c => r.get c))

/-- Transport a permutation of identities along an identity-respecting
function. -/
theorem perm_map_of_id_perm {κ : Type} (f : Row → κ) :
    ∀ (D V : List Row),
      List.Perm (D.map Row.id) (V.map Row.id) →
      (D.map Row.id).Nodup →
      (∀ d ∈ D, ∀ v ∈ V, d.id = v.id → f d = f v) →
      List.Perm (D.map f) (V.map f) := by
  intro D
  induction D with
  | nil =>
    intro V hids _ _
    have : V.map Row.id = [] := hids.symm.eq_nil
    have hV : V = [] := by
      cases V with
      | nil => rfl
      | cons v vs => simp at this
    rw [hV]
  | cons d D' ih =>
    intro V hids hnd hfun
    have hdin : d.id ∈ V.map Row.id := hids.mem_iff.mp (by simp)
    obtain ⟨v, hv, hvid⟩ := List.mem_map.mp hdin
    have hVsplit : List.Perm V (v :: V.erase v) := List.perm_cons_erase hv
    have hids2 : List.Perm (D'.map Row.id) ((V.erase v).map Row.id) := by
      have h1 : List.Perm (d.id :: D'.map Row.id) (V.map Row.id) := by
        simpa using hids
      have h2 : List.Perm (V.map Row.id) (v.id :: (V.erase v).map Row.id) := by
        simpa using hVsplit.map Row.id
      have h3 := h1.trans h2
      rw [← hvid] at h3
      exact h3.cons_inv
    have hfd : f d = f v := hfun d (by simp) v hv hvid.symm
    have hrec := ih (V.erase v) hids2 (by simpa using hnd.of_cons)
      (fun d' hd' v' hv' hid' =>
        hfun d' (List.mem_cons_of_mem _ hd') v' (List.mem_of_mem_erase hv') hid')
    have hlast : List.Perm (f v :: (V.erase v).map f) (V.map f) := by
      have h4 := hVsplit.map f
      simp only [List.map_cons] at h4
      exact h4.symm
    show List.Perm (f d :: D'.map f) (V.map f)
    rw [hfd]
    exact (hrec.cons _).trans hlast

theorem findIdx?_cons_eq (p : Row → Bool) (a : Row) (l : List Row) :
    List.findIdx? p (a :: l) =
      if p a = true then some 0 else (List.findIdx? p l).map (· + 1) := by
  rw [List.findIdx?_cons]
  by_cases h : p a
  · simp [h]
  · simp [h, List.findIdx?_succ]

theorem findIdx?_isSome_of_mem (p : Row → Bool) :
    ∀ l : List Row, (∃ x ∈ l, p x = true) → ∃ i, List.findIdx? p l = some i := by
  intro l
  induction l with
  | nil =>
    intro h
    obtain ⟨x, hx, _⟩ := h
    simp at hx
  | cons a l ih =>
    intro h
    obtain ⟨x, hx, hpx⟩ := h
    rw [findIdx?_cons_eq]
    by_cases ha : p a
    · exact ⟨0, by rw [if_pos ha]⟩
    · rcases List.mem_cons.mp hx with rfl | hx2
      · exact absurd hpx ha
      · obtain ⟨i, hi⟩ := ih ⟨x, hx2, hpx⟩
        exact ⟨i + 1, by rw [if_neg ha, hi]; rfl⟩

/-- One round of the swap-remove loop deletes exactly one matching row,
up to permutation. -/
theorem removeVictims_step :
    ∀ (l : List Row) (pred : Row → Bool) (p : Nat) (hne : l ≠ []),
      List.findIdx? pred l = some p →
      ∃ rr, pred rr = true ∧
        List.Perm l (rr :: (l.set p (l.getLast hne)).dropLast) := by
  intro l
  induction l with
  | nil => intro pred p hne; exact absurd rfl hne
  | cons r0 l2 ih =>
    intro pred p hne hfind
    rw [findIdx?_cons_eq] at hfind
    by_cases h0 : pred r0
    · rw [if_pos h0] at hfind
      cases hfind
      cases l2 with
      | nil =>
        refine ⟨r0, h0, ?_⟩
        simp
      | cons r1 rest =>
        refine ⟨r0, h0, ?_⟩
        have hlne : (r1 :: rest) ≠ ([] : List Row) := by simp
        have heq1 : (((r0 :: r1 :: rest)).set 0 ((r0 :: r1 :: rest).getLast hne)).dropLast
            = (r0 :: r1 :: rest).getLast hne :: (r1 :: rest).dropLast := by
          show ((r0 :: r1 :: rest).getLast hne :: r1 :: rest).dropLast = _
          exact List.dropLast_cons_of_ne_nil hlne
        rw [heq1, List.getLast_cons hlne]
        refine List.Perm.cons r0 ?_
        have hsplit : (r1 :: rest).dropLast ++ [(r1 :: rest).getLast hlne] =
            r1 :: rest := List.dropLast_append_getLast hlne
        conv_lhs => rw [← hsplit]
        exact List.perm_append_comm
    · rw [if_neg h0] at hfind
      cases hq : List.findIdx? pred l2 with
      | none =>
        rw [hq] at hfind
        simp at hfind
      | some q =>
        rw [hq] at hfind
        simp only [Option.map_some'] at hfind
        cases hfind
        have hl2ne : l2 ≠ [] := by
          intro h
          rw [h] at hq
          simp [List.findIdx?] at hq
        obtain ⟨rr, hpr, hperm⟩ := ih pred q hl2ne hq
        refine ⟨rr, hpr, ?_⟩
        have hsetne : l2.set q ((r0 :: l2).getLast hne) ≠ [] := by
          intro h
          have hlen := congrArg List.length h
          simp only [List.length_set, List.length_nil] at hlen
          exact hl2ne (List.length_eq_zero.mp hlen)
        have heq1 : (((r0 :: l2)).set (q + 1) ((r0 :: l2).getLast hne)).dropLast
            = r0 :: (l2.set q ((r0 :: l2).getLast hne)).dropLast := by
          show (r0 :: l2.set q ((r0 :: l2).getLast hne)).dropLast = _
          exact List.dropLast_cons_of_ne_nil hsetne
        rw [heq1, List.getLast_cons hl2ne]
        refine (hperm.cons r0).trans ?_
        exact List.Perm.swap rr r0 _

theorem removeVictims_nil (rows : List Row) :
    removeVictims rows [] = Except.ok rows := by
  rcases rows with _ | ⟨r0, _ | ⟨r1, rest⟩⟩ <;> rfl

theorem removeVictims_cons₂ (r0 r1 : Row) (rrest : List Row) (v : Row)
    (vs : List Row) :
    removeVictims (r0 :: r1 :: rrest) (v :: vs) =
    (match (r0 :: r1 :: rrest).getLast? with
     | none => Except.error "unreachable: nonempty by the pattern"
     | some last =>
       match (r0 :: r1 :: rrest).findIdx? (fun row => row.id == v.id) with
       | none => Except.error "stale back-reference: victim not in the row vector"
       | some p => removeVictims (((r0 :: r1 :: rrest).set p last).dropLast) vs) := rfl

/-- The swap-remove loop succeeds on duplicate-free victims that are all
present, and removes exactly the victims' identities. -/
theorem removeVictims_ok :
    ∀ (victims rows : List Row),
      (rows.map Row.id).Nodup →
      (victims.map Row.id).Nodup →
      (∀ v ∈ victims, v.id ∈ rows.map Row.id) →
      ∃ newRows, removeVictims rows victims = Except.ok newRows ∧
        List.Perm newRows (rows.filter
          (fun row => !((victims.map Row.id).contains row.id))) := by
  intro victims
  induction victims with
  | nil =>
    intro rows _ _ _
    refine ⟨rows, removeVictims_nil rows, ?_⟩
    have hf : rows.filter
        (fun row => !((([] : List Row).map Row.id).contains row.id)) = rows := by
      simp
    rw [hf]
  | cons v vs ih =>
    intro rows hndR hndV hsub
    have hvid : v.id ∈ rows.map Row.id := hsub v (List.mem_cons_self _ _)
    cases rows with
    | nil => simp at hvid
    | cons r0 rows1 =>
      cases rows1 with
      | nil =>
        have hvr : v.id = r0.id := by simpa using hvid
        have hvs : vs = [] := by
          by_contra hvne
          obtain ⟨v2, hv2⟩ := List.exists_mem_of_ne_nil vs hvne
          have h2 := hsub v2 (List.mem_cons_of_mem _ hv2)
          have h3 : v2.id = r0.id := by simpa using h2
          rw [List.map_cons, List.nodup_cons] at hndV
          exact hndV.1 (List.mem_map.mpr ⟨v2, hv2, by omega⟩)
        subst hvs
        refine ⟨[], rfl, ?_⟩
        have hcont : (((v :: ([] : List Row)).map Row.id).contains r0.id) = true := by
          simp [hvr.symm]
        simp [List.filter_cons, hcont]
        exact hvr.symm
      | cons r1 rrest =>
        have hne : (r0 :: r1 :: rrest) ≠ ([] : List Row) := by simp
        obtain ⟨p, hp⟩ := findIdx?_isSome_of_mem (fun row => row.id == v.id)
          (r0 :: r1 :: rrest) (by
            obtain ⟨rr, hrr, hid⟩ := List.mem_map.mp hvid
            exact ⟨rr, hrr, by simp [hid]⟩)
        obtain ⟨rr, hprr, hperm⟩ := removeVictims_step _ _ p hne hp
        have hrrid : rr.id = v.id := by simpa using hprr
        have hrun : removeVictims (r0 :: r1 :: rrest) (v :: vs) =
            removeVictims (((r0 :: r1 :: rrest).set p
              ((r0 :: r1 :: rrest).getLast hne)).dropLast) vs := by
          rw [removeVictims_cons₂, List.getLast?_eq_getLast _ hne, hp]
        have hpermIds : List.Perm ((r0 :: r1 :: rrest).map Row.id)
            (rr.id :: ((((r0 :: r1 :: rrest)).set p
              ((r0 :: r1 :: rrest).getLast hne)).dropLast).map Row.id) := by
          simpa using hperm.map Row.id
        have hndall := (List.Perm.nodup_iff hpermIds).mp hndR
        have hndR2 := (List.nodup_cons.mp hndall).2
        have hrrnotin := (List.nodup_cons.mp hndall).1
        rw [List.map_cons, List.nodup_cons] at hndV
        have hsub2 : ∀ v' ∈ vs, v'.id ∈
            ((((r0 :: r1 :: rrest)).set p
              ((r0 :: r1 :: rrest).getLast hne)).dropLast).map Row.id := by
          intro v' hv'
          have h1 := hsub v' (List.mem_cons_of_mem _ hv')
          have h2 := hpermIds.mem_iff.mp h1
          rcases List.mem_cons.mp h2 with heq | hmem
          · exact absurd (List.mem_map.mpr ⟨v', hv', by omega⟩) hndV.1
          · exact hmem
        obtain ⟨newRows, hrunV, hpermV⟩ := ih _ hndR2 hndV.2 hsub2
        refine ⟨newRows, by rw [hrun]; exact hrunV, ?_⟩
        refine hpermV.trans ?_
        have hfR := hperm.filter
          (fun row => !(((v :: vs).map Row.id).contains row.id))
        have hrrcont : (((v :: vs).map Row.id).contains rr.id) = true := by
          simp [hrrid]
        have hrhs : List.filter
            (fun row => !(((v :: vs).map Row.id).contains row.id))
            (rr :: (((r0 :: r1 :: rrest)).set p
              ((r0 :: r1 :: rrest).getLast hne)).dropLast) =
            List.filter (fun row => !(((v :: vs).map Row.id).contains row.id))
            ((((r0 :: r1 :: rrest)).set p
              ((r0 :: r1 :: rrest).getLast hne)).dropLast) := by
          rw [List.filter_cons, if_neg (by simp [hrrid])]
        rw [hrhs] at hfR
        have hcongr : (List.filter
            (fun row => !(((v :: vs).map Row.id).contains row.id))
            ((((r0 :: r1 :: rrest)).set p
              ((r0 :: r1 :: rrest).getLast hne)).dropLast)) =
            (List.filter (fun row => !((vs.map Row.id).contains row.id))
            ((((r0 :: r1 :: rrest)).set p
              ((r0 :: r1 :: rrest).getLast hne)).dropLast)) := by
          refine List.filter_congr ?_
          intro row hrow
          have hrowid : row.id ≠ v.id := by
            intro h
            apply hrrnotin
            rw [hrrid, ← h]
            exact List.mem_map.mpr ⟨row, hrow, rfl⟩
          simp [hrowid]
        rw [hcongr] at hfR
        exact hfR.symm

/-! ## The table-level invariant

Each index observes of a row exactly its identity and its projections on
the index's columns; the invariant ties the multiset of these
observations over an index's stored rows to the table's row vector,
alongside the structural well-formedness of the entry tree. -/

theorem rowGet_cons (k : String) (v : JSVal) (l : List (String × JSVal)) (c : String) :
    rowGet ((k, v) :: l) c = if (k == c) = true then v else rowGet l c := by
  by_cases h : (k == c) = true
  · have hf : List.find? (fun p => p.1 == c) ((k, v) :: l) = some (k, v) :=
      List.find?_cons_of_pos _ h
    rw [rowGet, hf, if_pos h]
  · have hf : List.find? (fun p => p.1 == c) ((k, v) :: l) =
        List.find? (fun p => p.1 == c) l :=
      List.find?_cons_of_neg _ (by simpa using h)
    rw [rowGet, hf, if_neg h]
    rfl

theorem rowGet_clone (cols : List String) (data : List (String × JSVal)) :
    ∀ c ∈ cols, rowGet (cloneRowData cols data) c = rowGet data c := by
  induction cols with
  | nil => intro c hc; simp at hc
  | cons c0 rest ih =>
    intro c hc
    have hclone : cloneRowData (c0 :: rest) data =
        (c0, rowGet data c0) :: cloneRowData rest data := rfl
    rw [hclone, rowGet_cons]
    by_cases h : (c0 == c) = true
    · rw [if_pos h]
      have he : c0 = c := by simpa using h
      rw [he]
    · rw [if_neg h]
      rcases List.mem_cons.mp hc with rfl | hc2
      · exact absurd (by simp) h
      · exact ih c hc2

theorem row_eq_of_id_nodup (rows : List Row) (hnd : (rows.map Row.id).Nodup) :
    ∀ a ∈ rows, ∀ b ∈ rows, a.id = b.id → a = b := by
  induction rows with
  | nil => intro a ha; simp at ha
  | cons r rest ih =>
    rw [List.map_cons, List.nodup_cons] at hnd
    intro a ha b hb hab
    rcases List.mem_cons.mp ha with rfl | ha2 <;>
      rcases List.mem_cons.mp hb with rfl | hb2
    · rfl
    · exact absurd (List.mem_map.mpr ⟨b, hb2, hab.symm⟩) hnd.1
    · exact absurd (List.mem_map.mpr ⟨a, ha2, hab⟩) hnd.1
    · exact ih hnd.2 a ha2 b hb2 hab

theorem keys_perm_ids (cols : List String) (A B : List Row)
    (h : List.Perm (A.map (rowKey cols)) (B.map (rowKey cols))) :
    List.Perm (A.map Row.id) (B.map Row.id) := by
  have h2 := h.map Prod.fst
  rw [List.map_map, List.map_map] at h2
  have he : (Prod.fst ∘ rowKey cols) = Row.id := rfl
  rw [he] at h2
  exact h2

theorem perm_keys_transport (cols : List String) (A rows D V : List Row)
    (hkeys : List.Perm (A.map (rowKey cols)) (rows.map (rowKey cols)))
    (hnd : (rows.map Row.id).Nodup)
    (hD : ∀ d ∈ D, d ∈ A) (hV : ∀ v ∈ V, v ∈ rows)
    (hids : List.Perm (D.map Row.id) (V.map Row.id))
    (hDnd : (D.map Row.id).Nodup) :
    List.Perm (D.map (rowKey cols)) (V.map (rowKey cols)) := by
  refine perm_map_of_id_perm (rowKey cols) D V hids hDnd ?_
  intro d hd v hv hid
  have h1 : rowKey cols d ∈ rows.map (rowKey cols) :=
    hkeys.mem_iff.mp (List.mem_map.mpr ⟨d, hD d hd, rfl⟩)
  obtain ⟨w, hw, hwk⟩ := List.mem_map.mp h1
  have hwid : w.id = d.id := congrArg Prod.fst hwk
  have hwv : w = v := row_eq_of_id_nodup rows hnd w hw v (hV v hv)
    (by rw [hwid, hid])
  rw [← hwv]
  exact hwk.symm

theorem filter_contains_ids_perm (rows victims : List Row)
    (hndR : (rows.map Row.id).Nodup) (hndV : (victims.map Row.id).Nodup)
    (hsub : ∀ v ∈ victims, v.id ∈ rows.map Row.id) :
    List.Perm
      ((rows.filter (fun row => (victims.map Row.id).contains row.id)).map Row.id)
      (victims.map Row.id) := by
  have hmf : (rows.filter
        (fun row => (victims.map Row.id).contains row.id)).map Row.id
      = (rows.map Row.id).filter (fun n => (victims.map Row.id).contains n) := by
    rw [List.filter_map]
    rfl
  rw [hmf]
  refine (List.perm_ext_iff_of_nodup (hndR.filter _) hndV).mpr ?_
  intro n
  simp only [List.mem_filter]
  constructor
  · intro hn
    simpa using hn.2
  · intro h
    refine ⟨?_, by simpa using h⟩
    obtain ⟨v, hv, hvn⟩ := List.mem_map.mp h
    rw [← hvn]
    exact hsub v hv

/-- Extract the payload of a known-successful computation. -/
def exceptGet (d : α) : Except ε α → α
  | Except.ok a => a
  | Except.error _ => d

theorem exceptGet_ok (d : α) (x : Except ε α) (a : α) (h : x = Except.ok a) :
    exceptGet d x = a := by rw [h]; rfl

theorem exceptMapM_mem_ok (f : α → Except ε β) :
    ∀ (l : List α) (bs : List β), l.mapM f = Except.ok bs →
      ∀ b ∈ bs, ∃ a ∈ l, f a = Except.ok b := by
  intro l
  induction l with
  | nil =>
    intro bs h b hb
    simp only [List.mapM_nil] at h
    cases h
    simp at hb
  | cons a l ih =>
    intro bs h b hb
    rw [List.mapM_cons] at h
    cases hfa : f a with
    | error e => rw [hfa] at h; simp [exceptBind_error] at h
    | ok b0 =>
      rw [hfa, exceptBind_ok] at h
      cases hml : l.mapM f with
      | error e => rw [hml] at h; simp [exceptBind_error] at h
      | ok bs0 =>
        rw [hml, exceptBind_ok] at h
        cases h
        rcases List.mem_cons.mp hb with rfl | hb2
        · exact ⟨a, List.mem_cons_self a l, hfa⟩
        · obtain ⟨a2, ha2, hfa2⟩ := ih bs0 hml b hb2
          exact ⟨a2, List.mem_cons_of_mem a ha2, hfa2⟩

theorem exceptForM_ok (f : IndexState → Except String Unit) :
    ∀ l : List IndexState, (∀ ix ∈ l, f ix = Except.ok ()) →
      l.forM f = Except.ok () := by
  intro l
  induction l with
  | nil => intro _; rfl
  | cons ix l ih =>
    intro h
    have hstep : (ix :: l).forM f = (f ix >>= fun _ => l.forM f) := rfl
    rw [hstep, h ix (List.mem_cons_self ix l), exceptBind_ok]
    exact ih (fun j hj => h j (List.mem_cons_of_mem ix hj))

theorem StructLevel_empty (cols : List String) (h : cols ≠ []) :
    StructLevel cols [] 0 := by
  match cols with
  | [] => exact absurd rfl h
  | [c] => exact ⟨trivial, rfl⟩
  | c :: c2 :: rest => exact ⟨trivial, rfl⟩

/-- Well-formedness of one index against the table it belongs to:
nonempty known columns, a structurally valid entry tree, and agreement
between the stored rows and the table's row vector up to permutation of
the index's observations. -/
def IndexINV (st : TableState) (ix : IndexState) : Prop :=
  ix.columns ≠ [] ∧
  (∀ c ∈ ix.columns, c ∈ st.columnNames) ∧
  StructLevel ix.columns ix.entries ix.total ∧
  List.Perm ((entriesLeafRows ix.entries).map (rowKey ix.columns))
    (st.rows.map (rowKey ix.columns))

/-- The table invariant maintained by every successful operation on a
live table holding numeric cell values. -/
def INV (st : TableState) : Prop :=
  st.active = true ∧
  (st.rows.map Row.id).Nodup ∧
  (∀ r ∈ st.rows, r.id < st.nextId) ∧
  (∀ c ∈ st.columnNames, ∀ r ∈ st.rows, r.get c = JSVal.num (numOf (r.get c))) ∧
  ∀ ix ∈ st.indicies, IndexINV st ix

theorem INV_validate (st : TableState) (h : INV st) :
    st.tableValidateIndex = Except.ok () := by
  obtain ⟨hact, _, _, _, hix⟩ := h
  have hunf : st.tableValidateIndex =
      (st.checkActive >>= fun _ =>
        st.indicies.forM (fun ix => ix.validateIndex)) := rfl
  rw [hunf, checkActive_of_live st hact, exceptBind_ok]
  refine exceptForM_ok _ st.indicies (fun ix hin => ?_)
  have hS := (hix ix hin).2.2.1
  have hv : ix.validateIndex = validateLevel ix.columns ix.entries ix.total := rfl
  rw [hv]
  exact StructLevel_validate ix.columns ix.entries ix.total hS

/-! ## Preservation by `insert` -/

theorem processInsertRows_cons_none (cols : List String) (ir : InputRow)
    (irs : List InputRow) (n : Nat) (h : ir.backref = none) :
    processInsertRows cols (ir :: irs) n =
      (some ⟨n, cloneRowData cols ir.data⟩ ::
        (processInsertRows cols irs (n + 1)).1,
       (processInsertRows cols irs (n + 1)).2) := by
  simp only [processInsertRows, h]

/-- The processed batch of `insert` on fresh rows: one canonical row per
input, consecutive fresh identities, cloned data. -/
theorem processInsertRows_spec (cols : List String) :
    ∀ (batch : List InputRow) (n : Nat),
      (∀ ir ∈ batch, ir.backref = none) →
      ∃ fresh : List Row,
        processInsertRows cols batch n = (fresh.map some, n + batch.length) ∧
        fresh.map Row.id = List.range' n batch.length ∧
        (∀ r ∈ fresh, ∃ ir ∈ batch, r.data = cloneRowData cols ir.data) := by
  intro batch
  induction batch with
  | nil =>
    intro n _
    exact ⟨[], rfl, rfl, by simp⟩
  | cons ir irs ih =>
    intro n h
    obtain ⟨fresh, h1, h2, h3⟩ :=
      ih (n + 1) (fun x hx => h x (List.mem_cons_of_mem ir hx))
    refine ⟨⟨n, cloneRowData cols ir.data⟩ :: fresh, ?_, ?_, ?_⟩
    · rw [processInsertRows_cons_none cols ir irs n
        (h ir (List.mem_cons_self ir irs)), h1]
      have hlen : (n + 1) + irs.length = n + (irs.length + 1) := by omega
      rw [hlen]
      rfl
    · have hr : List.range' n (irs.length + 1) =
          n :: List.range' (n + 1) irs.length := List.range'_succ n irs.length 1
      rw [List.map_cons, h2, List.length_cons, hr]
    · intro r hr
      rcases List.mem_cons.mp hr with rfl | hr2
      · exact ⟨ir, List.mem_cons_self ir irs, rfl⟩
      · obtain ⟨ir2, hir2, hd⟩ := h3 r hr2
        exact ⟨ir2, List.mem_cons_of_mem ir hir2, hd⟩

/-- The index produced by a successful hole-free `rowsAdded`. -/
def addedIndex (ix : IndexState) (rows : List Row) : IndexState :=
  { columns := ix.columns,
    entries := (mergeAddLevel ix.columns.length (ix.entries, ix.total)
      ((buildIndexRows ix.columns rows).1, (buildIndexRows ix.columns rows).2)).1,
    total := (mergeAddLevel ix.columns.length (ix.entries, ix.total)
      ((buildIndexRows ix.columns rows).1, (buildIndexRows ix.columns rows).2)).2 }

theorem rowsAdded_addedIndex (ix : IndexState) (rows : List Row)
    (hcols : ix.columns ≠ [])
    (hst : StructLevel ix.columns ix.entries ix.total)
    (hnum : ∀ c ∈ ix.columns, ∀ r ∈ rows, r.get c = JSVal.num (numOf (r.get c))) :
    ix.rowsAdded (rows.map some) = Except.ok (addedIndex ix rows) ∧
    StructLevel ix.columns (addedIndex ix rows).entries (addedIndex ix rows).total ∧
    List.Perm (entriesLeafRows (addedIndex ix rows).entries)
      (entriesLeafRows ix.entries ++ rows) := by
  obtain ⟨h1, h2, h3⟩ := rowsAdded_struct ix rows hcols hst hnum
  exact ⟨h1, h2, h3⟩

theorem insert_arr_INV (st : TableState) (batch : List InputRow)
    (out : List InputRow) (st' : TableState)
    (hinv : INV st)
    (hbr : ∀ ir ∈ batch, ir.backref = none)
    (hnum : ∀ ir ∈ batch, ∀ c ∈ st.columnNames,
      rowGet ir.data c = JSVal.num (numOf (rowGet ir.data c)))
    (hok : st.insert (BatchArg.arr batch) = Except.ok (out, st')) :
    INV st' := by
  obtain ⟨hact, hnd, hlt, hnumR, hix⟩ := hinv
  obtain ⟨fresh, hp, hpIds, hpData⟩ :=
    processInsertRows_spec st.columnNames batch st.nextId hbr
  have hfreshNum : ∀ c ∈ st.columnNames, ∀ r ∈ fresh,
      r.get c = JSVal.num (numOf (r.get c)) := by
    intro c hc r hr
    obtain ⟨ir, hir, hd⟩ := hpData r hr
    have hrg : r.get c = rowGet ir.data c := by
      rw [Row.get, hd]
      exact rowGet_clone st.columnNames ir.data c hc
    rw [hrg]
    exact hnum ir hir c hc
  have hidxmap : st.indicies.mapM (fun ix => ix.rowsAdded (fresh.map some)) =
      Except.ok (st.indicies.map (fun ix => addedIndex ix fresh)) := by
    refine exceptMapM_ok_of_forall _ _ st.indicies (fun ix hin => ?_)
    obtain ⟨hc, hsubC, hS, hK⟩ := hix ix hin
    exact (rowsAdded_addedIndex ix fresh hc hS
      (fun c hcc r hr => hfreshNum c (hsubC c hcc) r hr)).1
  have hINV2 : INV
      { st with
        rows := st.rows ++ fresh,
        nextId := st.nextId + batch.length,
        indicies := st.indicies.map (fun ix => addedIndex ix fresh) } := by
    refine ⟨hact, ?_, ?_, ?_, ?_⟩
    · show ((st.rows ++ fresh).map Row.id).Nodup
      rw [List.map_append, hpIds]
      refine List.Nodup.append hnd (List.nodup_range' st.nextId batch.length 1) ?_
      intro a ha hb
      have h1 : a < st.nextId := by
        obtain ⟨r, hr, hrid⟩ := List.mem_map.mp ha
        rw [← hrid]
        exact hlt r hr
      have h2 : st.nextId ≤ a := (List.mem_range'_1.mp hb).1
      omega
    · show ∀ r ∈ st.rows ++ fresh, r.id < st.nextId + batch.length
      intro r hr
      rcases List.mem_append.mp hr with h | h
      · have := hlt r h
        omega
      · have hmem : r.id ∈ List.range' st.nextId batch.length := by
          rw [← hpIds]
          exact List.mem_map.mpr ⟨r, h, rfl⟩
        have := (List.mem_range'_1.mp hmem).2
        omega
    · show ∀ c ∈ st.columnNames, ∀ r ∈ st.rows ++ fresh,
        r.get c = JSVal.num (numOf (r.get c))
      intro c hc r hr
      rcases List.mem_append.mp hr with h | h
      · exact hnumR c hc r h
      · exact hfreshNum c hc r h
    · show ∀ ix' ∈ st.indicies.map (fun ix => addedIndex ix fresh), _
      intro ix' hmem
      obtain ⟨ix, hin, rfl⟩ := List.mem_map.mp hmem
      obtain ⟨hc, hsubC, hS, hK⟩ := hix ix hin
      obtain ⟨-, hS2, hRows⟩ := rowsAdded_addedIndex ix fresh hc hS
        (fun c hcc r hr => hfreshNum c (hsubC c hcc) r hr)
      refine ⟨hc, hsubC, hS2, ?_⟩
      show List.Perm
        ((entriesLeafRows (addedIndex ix fresh).entries).map (rowKey ix.columns))
        ((st.rows ++ fresh).map (rowKey ix.columns))
      have h1 := hRows.map (rowKey ix.columns)
      rw [List.map_append] at h1
      have h2 := hK.append_right (fresh.map (rowKey ix.columns))
      have h3 := h1.trans h2
      rw [← List.map_append] at h3
      exact h3
  have hfm : (fresh.map some).filterMap id = fresh := by
    simp [List.filterMap_map]
  have hclones : (fresh.map some).mapM (fun o =>
      match o with
      | some r =>
        Except.ok ({ backref := some ⟨st.tableTag, r.id⟩, data := r.data } : InputRow)
      | none => Except.error "TypeError: cannot read properties of undefined") =
      Except.ok (fresh.map (fun r =>
        ({ backref := some ⟨st.tableTag, r.id⟩, data := r.data } : InputRow))) := by
    have hfor := exceptMapM_ok_of_forall
      (fun o : Option Row =>
        match o with
        | some r =>
          Except.ok ({ backref := some ⟨st.tableTag, r.id⟩, data := r.data } : InputRow)
        | none =>
          (Except.error "TypeError: cannot read properties of undefined" :
            Except String InputRow))
      (fun o =>
        match o with
        | some r => ({ backref := some ⟨st.tableTag, r.id⟩, data := r.data } : InputRow)
        | none => ⟨none, []⟩)
      (fresh.map some)
      (fun o ho => by
        obtain ⟨r, _, rfl⟩ := List.mem_map.mp ho
        rfl)
    rw [hfor]
    rw [List.map_map]
    rfl
  have hval : TableState.tableValidateIndex
      { st with
        rows := st.rows ++ fresh,
        nextId := st.nextId + batch.length,
        indicies := st.indicies.map (fun ix => addedIndex ix fresh) } =
      Except.ok () :=
    INV_validate _ hINV2
  have hrun : st.insert (BatchArg.arr batch) = Except.ok
      (fresh.map (fun r =>
        ({ backref := some ⟨st.tableTag, r.id⟩, data := r.data } : InputRow)),
       { st with
         rows := st.rows ++ fresh,
         nextId := st.nextId + batch.length,
         indicies := st.indicies.map (fun ix => addedIndex ix fresh) }) := by
    cases hpar : st.paranoia with
    | false =>
      simp only [hact, hpar] at hval
      simp only [TableState.insert, TableState.checkActive, hact, if_true,
        exceptBind_ok, hp, hfm, hidxmap, hpar, Bool.false_eq_true, if_false,
        pure_bind, hclones]
    | true =>
      simp only [hact, hpar] at hval
      simp only [TableState.insert, TableState.checkActive, hact, if_true,
        exceptBind_ok, hp, hfm, hidxmap, hpar, hval, pure_bind, hclones]
  rw [hrun] at hok
  injection hok with hpair
  injection hpair with h1 h2
  subst h2
  exact hINV2

/-! ## Preservation by `remove` -/

theorem resolveOrigRow_ok_facts (st : TableState) (o : Option InputRow) (orig : Row)
    (h : resolveOrigRow st o = Except.ok orig) :
    orig ∈ st.rows ∧
      ∃ ir br, o = some ir ∧ ir.backref = some br ∧ br.rowId = orig.id := by
  cases o with
  | none => simp [resolveOrigRow] at h
  | some ir =>
    cases hbr : ir.backref with
    | none => simp [resolveOrigRow, hbr] at h
    | some br =>
      by_cases htag : br.tableTag ≠ st.tableTag
      · simp [resolveOrigRow, hbr, if_pos htag] at h
      · cases hfind : st.rows.find? (fun row => row.id == br.rowId) with
        | none => simp [resolveOrigRow, hbr, if_neg htag, hfind] at h
        | some row =>
          have h2 : (Except.ok row : Except String Row) = Except.ok orig := by
            rw [← h]
            simp [resolveOrigRow, hbr, if_neg htag, hfind]
          injection h2 with h3
          subst h3
          refine ⟨List.mem_of_find?_eq_some hfind, ir, br, rfl, hbr, ?_⟩
          have hpred := List.find?_some hfind
          have : row.id = br.rowId := by simpa using hpred
          omega

theorem remove_arr_INV (st : TableState) (batch : List InputRow)
    (origRows : List Row) (st' : TableState)
    (hinv : INV st)
    (hres : (batch.map some).mapM (resolveOrigRow st) = Except.ok origRows)
    (hndV : (origRows.map Row.id).Nodup)
    (hok : st.remove (BatchArg.arr batch) = Except.ok st') :
    INV st' := by
  obtain ⟨hact, hnd, hlt, hnumR, hix⟩ := hinv
  have hmemV : ∀ v ∈ origRows, v ∈ st.rows := by
    intro v hv
    obtain ⟨a, _, hfa⟩ := exceptMapM_mem_ok _ (batch.map some) origRows hres v hv
    exact (resolveOrigRow_ok_facts st a v hfa).1
  have hsubIds : ∀ v ∈ origRows, v.id ∈ st.rows.map Row.id :=
    fun v hv => List.mem_map.mpr ⟨v, hmemV v hv, rfl⟩
  have hpoint : ∀ ix ∈ st.indicies,
      ix.rowsRemoved origRows =
        Except.ok (exceptGet ix (ix.rowsRemoved origRows)) ∧
      (exceptGet ix (ix.rowsRemoved origRows)).columns = ix.columns ∧
      StructLevel (exceptGet ix (ix.rowsRemoved origRows)).columns
        (exceptGet ix (ix.rowsRemoved origRows)).entries
        (exceptGet ix (ix.rowsRemoved origRows)).total ∧
      ∃ removed,
        List.Perm (entriesLeafRows ix.entries)
          (entriesLeafRows (exceptGet ix (ix.rowsRemoved origRows)).entries ++
            removed) ∧
        List.Perm (removed.map Row.id) (origRows.map Row.id) := by
    intro ix hin
    obtain ⟨hc, hsubC, hS, hK⟩ := hix ix hin
    have hnumV : ∀ c ∈ ix.columns, ∀ r ∈ origRows,
        r.get c = JSVal.num (numOf (r.get c)) :=
      fun c hc2 r hr => hnumR c (hsubC c hc2) r (hmemV r hr)
    have hidsL : List.Perm ((entriesLeafRows ix.entries).map Row.id)
        (st.rows.map Row.id) := keys_perm_ids ix.columns _ _ hK
    have hndL : ((entriesLeafRows ix.entries).map Row.id).Nodup :=
      (List.Perm.nodup_iff hidsL).mpr hnd
    have hcp : ∀ rr ∈ origRows, ∃ lr ∈ entriesLeafRows ix.entries,
        lr.id = rr.id ∧ ∀ c ∈ ix.columns, lr.get c = rr.get c := by
      intro rr hrr
      have h1 : rowKey ix.columns rr ∈
          (entriesLeafRows ix.entries).map (rowKey ix.columns) :=
        hK.symm.mem_iff.mp (List.mem_map.mpr ⟨rr, hmemV rr hrr, rfl⟩)
      obtain ⟨lr, hlr, hlrk⟩ := List.mem_map.mp h1
      refine ⟨lr, hlr, congrArg Prod.fst hlrk, ?_⟩
      have h2 : ix.columns.map (fun c => lr.get c) =
          ix.columns.map (fun c => rr.get c) := congrArg Prod.snd hlrk
      exact fun c hcc => List.map_inj_left.mp h2 c hcc
    obtain ⟨ix2, heq, hcols2, hS2, removed, hperm, hids⟩ :=
      rowsRemoved_struct ix origRows hc hS hnumV hcp hndL hndV
    have hixg : exceptGet ix (ix.rowsRemoved origRows) = ix2 :=
      exceptGet_ok ix _ ix2 heq
    rw [hixg]
    exact ⟨heq, hcols2, hS2, removed, hperm, hids⟩
  have hidxmap : st.indicies.mapM (fun ix => ix.rowsRemoved origRows) =
      Except.ok (st.indicies.map
        (fun ix => exceptGet ix (ix.rowsRemoved origRows))) :=
    exceptMapM_ok_of_forall _ _ st.indicies (fun ix hin => (hpoint ix hin).1)
  obtain ⟨newRows, hrv, hkept⟩ :=
    removeVictims_ok origRows st.rows hnd hndV hsubIds
  have hkeptNd : ((st.rows.filter
      (fun row => !((origRows.map Row.id).contains row.id))).map Row.id).Nodup :=
    List.Nodup.sublist ((List.filter_sublist st.rows).map Row.id) hnd
  have hINV2 : INV
      { st with
        rows := newRows,
        indicies := st.indicies.map
          (fun ix => exceptGet ix (ix.rowsRemoved origRows)) } := by
    refine ⟨hact, ?_, ?_, ?_, ?_⟩
    · show (newRows.map Row.id).Nodup
      exact ((hkept.map Row.id).nodup_iff).mpr hkeptNd
    · show ∀ r ∈ newRows, r.id < st.nextId
      intro r hr
      exact hlt r (List.mem_of_mem_filter (hkept.mem_iff.mp hr))
    · show ∀ c ∈ st.columnNames, ∀ r ∈ newRows, r.get c = JSVal.num (numOf (r.get c))
      intro c hc r hr
      exact hnumR c hc r (List.mem_of_mem_filter (hkept.mem_iff.mp hr))
    · show ∀ ix' ∈ st.indicies.map
        (fun ix => exceptGet ix (ix.rowsRemoved origRows)), _
      intro ix' hmem
      obtain ⟨ix, hin, rfl⟩ := List.mem_map.mp hmem
      obtain ⟨-, hcols2, hS2, removed, hperm, hids⟩ := hpoint ix hin
      obtain ⟨hc, hsubC, hS, hK⟩ := hix ix hin
      refine ⟨?_, ?_, hS2, ?_⟩
      · rw [hcols2]
        exact hc
      · rw [hcols2]
        exact hsubC
      · rw [hcols2]
        show List.Perm
          ((entriesLeafRows (exceptGet ix (ix.rowsRemoved origRows)).entries).map
            (rowKey ix.columns))
          (newRows.map (rowKey ix.columns))
        have h1 : List.Perm
            ((entriesLeafRows
              (exceptGet ix (ix.rowsRemoved origRows)).entries).map
                (rowKey ix.columns) ++ removed.map (rowKey ix.columns))
            ((entriesLeafRows ix.entries).map (rowKey ix.columns)) := by
          have h0 := hperm.map (rowKey ix.columns)
          rw [List.map_append] at h0
          exact h0.symm
        have hdropIds : List.Perm
            ((st.rows.filter
              (fun row => (origRows.map Row.id).contains row.id)).map Row.id)
            (origRows.map Row.id) :=
          filter_contains_ids_perm st.rows origRows hnd hndV hsubIds
        have hremNd : (removed.map Row.id).Nodup := (hids.nodup_iff).mpr hndV
        have hremK : List.Perm (removed.map (rowKey ix.columns))
            ((st.rows.filter
              (fun row => (origRows.map Row.id).contains row.id)).map
                (rowKey ix.columns)) := by
          refine perm_keys_transport ix.columns (entriesLeafRows ix.entries)
            st.rows removed _ hK hnd ?_ ?_ (hids.trans hdropIds.symm) hremNd
          · intro d hd
            exact hperm.symm.mem_iff.mp (List.mem_append_right _ hd)
          · intro v hv
            exact List.mem_of_mem_filter hv
        have hsplit : List.Perm (st.rows.map (rowKey ix.columns))
            ((st.rows.filter
                (fun row => (origRows.map Row.id).contains row.id)).map
              (rowKey ix.columns) ++
             (st.rows.filter
                (fun row => !((origRows.map Row.id).contains row.id))).map
              (rowKey ix.columns)) := by
          have h0 := (List.filter_append_perm
            (fun row => (origRows.map Row.id).contains row.id) st.rows).symm.map
            (rowKey ix.columns)
          rw [List.map_append] at h0
          exact h0
        have hchain : List.Perm
            ((entriesLeafRows
              (exceptGet ix (ix.rowsRemoved origRows)).entries).map
                (rowKey ix.columns) ++ removed.map (rowKey ix.columns))
            ((st.rows.filter
                (fun row => !((origRows.map Row.id).contains row.id))).map
              (rowKey ix.columns) ++ removed.map (rowKey ix.columns)) := by
          refine ((h1.trans (hK.trans hsplit)).trans ?_)
          refine List.Perm.trans ?_ (List.perm_append_comm)
          exact hremK.symm.append_right _
        have hcanc := (List.perm_append_right_iff _).mp hchain
        exact hcanc.trans (hkept.map (rowKey ix.columns)).symm
  have hval := INV_validate _ hINV2
  have hrun : st.remove (BatchArg.arr batch) = Except.ok
      { st with
        rows := newRows,
        indicies := st.indicies.map
          (fun ix => exceptGet ix (ix.rowsRemoved origRows)) } := by
    cases hpar : st.paranoia with
    | false =>
      simp only [hact, hpar] at hval
      simp only [TableState.remove, TableState.checkActive, hact, if_true,
        exceptBind_ok, hres, hidxmap, hrv, hpar, Bool.false_eq_true, if_false,
        pure_bind]
    | true =>
      simp only [hact, hpar] at hval
      simp only [TableState.remove, TableState.checkActive, hact, if_true,
        exceptBind_ok, hres, hidxmap, hrv, hpar, hval, pure_bind]
  rw [hrun] at hok
  injection hok with h2
  subst h2
  exact hINV2

theorem remove_single_INV (st : TableState) (r : InputRow) (st' : TableState)
    (hinv : INV st) (hok : st.remove (BatchArg.single r) = Except.ok st') :
    INV st' := by
  have hact : st.active = true := hinv.1
  cases hn : toLengthNat (rowGet r.data "length") with
  | zero =>
    have hidxmap : st.indicies.mapM (fun ix => ix.rowsRemoved []) =
        Except.ok (st.indicies.map (fun ix => ix)) :=
      exceptMapM_ok_of_forall _ _ st.indicies (fun ix _ => rowsRemoved_nil ix)
    have hval : TableState.tableValidateIndex
        { st with rows := st.rows, indicies := st.indicies.map (fun ix => ix) } =
        Except.ok () := by
      have hmapid : st.indicies.map (fun ix => ix) = st.indicies :=
        List.map_id' st.indicies
      rw [hmapid]
      exact INV_validate st hinv
    have hrun : st.remove (BatchArg.single r) = Except.ok
        { st with rows := st.rows, indicies := st.indicies.map (fun ix => ix) } := by
      cases hpar : st.paranoia with
      | false =>
        simp only [hact, hpar] at hval
        simp only [TableState.remove, TableState.checkActive, hact, if_true,
          exceptBind_ok, hn, List.replicate, List.mapM_nil, pure_bind,
          hidxmap, removeVictims_nil, hpar, Bool.false_eq_true, if_false]
      | true =>
        simp only [hact, hpar] at hval
        simp only [TableState.remove, TableState.checkActive, hact, if_true,
          exceptBind_ok, hn, List.replicate, List.mapM_nil, pure_bind,
          hidxmap, removeVictims_nil, hpar, hval]
    rw [hrun] at hok
    injection hok with h2
    subst h2
    refine ⟨hact, hinv.2.1, hinv.2.2.1, hinv.2.2.2.1, ?_⟩
    intro ix' hmem
    obtain ⟨ix, hin, rfl⟩ := List.mem_map.mp hmem
    exact hinv.2.2.2.2 ix hin
  | succ m =>
    have herr : (List.replicate (m + 1) (none : Option InputRow)).mapM
        (resolveOrigRow st) =
        Except.error "TypeError: cannot read properties of undefined" := by
      rw [List.replicate_succ, List.mapM_cons]
      rfl
    simp only [TableState.remove, TableState.checkActive, hact, if_true,
      exceptBind_ok, hn, herr, exceptBind_error] at hok
    exact Except.noConfusion hok

/-! ## Preservation by `update` -/

theorem eq_of_key_nodup {β : Type} (f : β → Nat) :
    ∀ l : List β, (l.map f).Nodup →
      ∀ a ∈ l, ∀ b ∈ l, f a = f b → a = b := by
  intro l
  induction l with
  | nil => intro _ a ha; simp at ha
  | cons x rest ih =>
    intro hnd a ha b hb hab
    rw [List.map_cons, List.nodup_cons] at hnd
    rcases List.mem_cons.mp ha with rfl | ha2 <;>
      rcases List.mem_cons.mp hb with rfl | hb2
    · rfl
    · exact absurd (List.mem_map.mpr ⟨b, hb2, hab.symm⟩) hnd.1
    · exact absurd (List.mem_map.mpr ⟨a, ha2, hab⟩) hnd.1
    · exact ih hnd.2 a ha2 b hb2 hab

/-- The cumulative effect on one canonical row of `update`'s final
overwrite loop, for a batch of canonical rows with distinct identities. -/
def applyUpd (cols : List String) (ts : List (InputRow × Row × List String))
    (row : Row) : Row :=
  match ts.find? (fun t => row.id == t.2.1.id) with
  | some t => ⟨row.id, cloneRowData cols t.1.data⟩
  | none => row

theorem applyUpd_id (cols : List String) (ts : List (InputRow × Row × List String))
    (row : Row) : (applyUpd cols ts row).id = row.id := by
  cases h : ts.find? (fun t => row.id == t.2.1.id) with
  | none => simp [applyUpd, h]
  | some t => simp [applyUpd, h]

theorem applyUpd_nil (cols : List String) (row : Row) :
    applyUpd cols [] row = row := rfl

/-- The overwrite loop of `update` equals a single pointwise map when the
overwritten canonical rows are distinct. -/
theorem updateFold_eq_map (cols : List String) :
    ∀ (ts : List (InputRow × Row × List String)) (rows : List Row),
      (ts.map (fun t => t.2.1.id)).Nodup →
      ts.foldl (fun rows t => rows.map (fun row =>
        if row.id = t.2.1.id then ⟨row.id, cloneRowData cols t.1.data⟩ else row))
        rows = rows.map (applyUpd cols ts) := by
  intro ts
  induction ts with
  | nil =>
    intro rows _
    rw [List.foldl_nil]
    have h1 : rows.map (applyUpd cols []) = rows.map (fun r => r) :=
      List.map_congr_left (fun r _ => applyUpd_nil cols r)
    rw [h1, List.map_id']
  | cons t ts ih =>
    intro rows hnd
    rw [List.map_cons, List.nodup_cons] at hnd
    rw [List.foldl_cons, ih _ hnd.2, List.map_map]
    refine List.map_congr_left (fun row _ => ?_)
    show applyUpd cols ts
        (if row.id = t.2.1.id then ⟨row.id, cloneRowData cols t.1.data⟩ else row) =
      applyUpd cols (t :: ts) row
    by_cases h : row.id = t.2.1.id
    · rw [if_pos h]
      have hfindL : ts.find? (fun t' =>
          (⟨row.id, cloneRowData cols t.1.data⟩ : Row).id == t'.2.1.id) = none := by
        rw [List.find?_eq_none]
        intro x hx
        simp only [beq_iff_eq]
        intro he
        exact hnd.1 (List.mem_map.mpr ⟨x, hx, by omega⟩)
      have hfindR : (t :: ts).find? (fun t' => row.id == t'.2.1.id) = some t :=
        List.find?_cons_of_pos _ (by simpa using h)
      simp only [applyUpd, hfindL, hfindR]
    · rw [if_neg h]
      have hstep : (t :: ts).find? (fun t' => row.id == t'.2.1.id) =
          ts.find? (fun t' => row.id == t'.2.1.id) :=
        List.find?_cons_of_neg _ (by simpa using h)
      simp only [applyUpd, hstep]

theorem updateResolve_mem (st : TableState) (batch : List InputRow)
    (resolved : List (InputRow × Row × List String))
    (h : updateResolve st batch = Except.ok resolved) :
    ∀ t ∈ resolved, t.1 ∈ batch ∧
      resolveOrigRow st (some t.1) = Except.ok t.2.1 ∧
      t.2.2 = markChangedColumns st.columnNames t.1 t.2.1 := by
  have h2 : batch.mapM (fun ir =>
      resolveOrigRow st (some ir) >>= fun orig =>
        Except.ok (ir, orig, markChangedColumns st.columnNames ir orig)) =
      Except.ok resolved := h
  intro t ht
  obtain ⟨ir, hir, hfa⟩ := exceptMapM_mem_ok _ batch resolved h2 t ht
  cases hres : resolveOrigRow st (some ir) with
  | error e =>
    rw [hres, exceptBind_error] at hfa
    exact Except.noConfusion hfa
  | ok orig =>
    rw [hres, exceptBind_ok] at hfa
    injection hfa with hfa2
    rw [← hfa2]
    exact ⟨hir, hres, rfl⟩

theorem mem_foldl_append (start : List String) :
    ∀ (l : List (InputRow × Row × List String)) (y : String),
      (y ∈ l.foldl (fun acc t => acc ++ t.2.2) start ↔
        y ∈ start ∨ ∃ t ∈ l, y ∈ t.2.2) := by
  intro l
  induction l generalizing start with
  | nil =>
    intro y
    simp
  | cons t l ih =>
    intro y
    rw [List.foldl_cons, ih]
    constructor
    · rintro (h | h)
      · rcases List.mem_append.mp h with h2 | h2
        · exact Or.inl h2
        · exact Or.inr ⟨t, List.mem_cons_self t l, h2⟩
      · obtain ⟨u, hu, hy⟩ := h
        exact Or.inr ⟨u, List.mem_cons_of_mem t hu, hy⟩
    · rintro (h | ⟨u, hu, hy⟩)
      · exact Or.inl (List.mem_append.mpr (Or.inl h))
      · rcases List.mem_cons.mp hu with rfl | hu2
        · exact Or.inl (List.mem_append.mpr (Or.inr hy))
        · exact Or.inr ⟨u, hu2, hy⟩

theorem mem_updateChangedColumns (resolved : List (InputRow × Row × List String))
    (t : InputRow × Row × List String) (ht : t ∈ resolved) :
    ∀ x ∈ t.2.2, x ∈ updateChangedColumns resolved := by
  intro x hx
  exact (mem_foldl_append [] resolved x).mpr (Or.inr ⟨t, ht, hx⟩)

theorem unchanged_of_not_marked (cols : List String) (ir : InputRow) (orig : Row)
    (c : String) (hc : c ∈ cols) (hnm : c ∉ markChangedColumns cols ir orig) :
    rowGet ir.data c = orig.get c := by
  by_cases hs : jsStrictEq (rowGet ir.data c) (orig.get c) = true
  · exact (jsStrictEq_iff_eq _ _).mp hs
  · have hf : jsStrictEq (rowGet ir.data c) (orig.get c) = false := by
      cases h2 : jsStrictEq (rowGet ir.data c) (orig.get c)
      · rfl
      · exact absurd h2 hs
    exact absurd (List.mem_filter.mpr ⟨hc, by simp [hf]⟩) hnm

/-- What `update` does to a touched index: the run succeeds and the
stored rows trade the old canonical rows for the caller's rows, up to
permutation. -/
theorem updateTouchIndex_ok (paranoia : Bool) (ix : IndexState)
    (oldRows : List Row) (added : List Row)
    (hc : ix.columns ≠ [])
    (hS : StructLevel ix.columns ix.entries ix.total)
    (hnumOld : ∀ c ∈ ix.columns, ∀ r ∈ oldRows,
      r.get c = JSVal.num (numOf (r.get c)))
    (hnumAdd : ∀ c ∈ ix.columns, ∀ r ∈ added,
      r.get c = JSVal.num (numOf (r.get c)))
    (hcp : ∀ rr ∈ oldRows, ∃ lr ∈ entriesLeafRows ix.entries,
      lr.id = rr.id ∧ ∀ c ∈ ix.columns, lr.get c = rr.get c)
    (hndL : ((entriesLeafRows ix.entries).map Row.id).Nodup)
    (hndOld : (oldRows.map Row.id).Nodup) :
    ∃ ix2, updateTouchIndex paranoia oldRows (added.map some) ix = Except.ok ix2 ∧
      ix2.columns = ix.columns ∧
      StructLevel ix2.columns ix2.entries ix2.total ∧
      ∃ removed,
        (∀ d ∈ removed, d ∈ entriesLeafRows ix.entries) ∧
        List.Perm (entriesLeafRows ix.entries ++ added)
          (entriesLeafRows ix2.entries ++ removed) ∧
        List.Perm (removed.map Row.id) (oldRows.map Row.id) := by
  obtain ⟨ix1, heq1, hcols1, hS1, removed, hperm1, hids1⟩ :=
    rowsRemoved_struct ix oldRows hc hS hnumOld hcp hndL hndOld
  have hval1 : ix1.validateIndex = Except.ok () := by
    have hu : ix1.validateIndex = validateLevel ix1.columns ix1.entries ix1.total := rfl
    rw [hu]
    exact StructLevel_validate _ _ _ hS1
  have hc1 : ix1.columns ≠ [] := by rw [hcols1]; exact hc
  have hnumAdd1 : ∀ c ∈ ix1.columns, ∀ r ∈ added,
      r.get c = JSVal.num (numOf (r.get c)) := by
    rw [hcols1]; exact hnumAdd
  obtain ⟨heq2, hS2, hperm2⟩ := rowsAdded_addedIndex ix1 added hc1 hS1 hnumAdd1
  have hval2 : (addedIndex ix1 added).validateIndex = Except.ok () := by
    have hu : (addedIndex ix1 added).validateIndex =
        validateLevel ix1.columns (addedIndex ix1 added).entries
          (addedIndex ix1 added).total := rfl
    rw [hu]
    exact StructLevel_validate _ _ _ hS2
  refine ⟨addedIndex ix1 added, ?_, ?_, ?_, removed, ?_, ?_, hids1⟩
  · cases paranoia with
    | false =>
      simp only [updateTouchIndex, heq1, exceptBind_ok, Bool.false_eq_true,
        if_false, pure_bind, heq2]
    | true =>
      simp only [updateTouchIndex, heq1, exceptBind_ok, if_true, hval1,
        pure_bind, heq2, hval2]
  · show ix1.columns = ix.columns
    exact hcols1
  · exact hS2
  · intro d hd
    exact hperm1.symm.mem_iff.mp (List.mem_append_right _ hd)
  · have h1 : List.Perm (entriesLeafRows (addedIndex ix1 added).entries ++ removed)
        ((entriesLeafRows ix1.entries ++ added) ++ removed) :=
      hperm2.append_right removed
    have h2 : List.Perm ((entriesLeafRows ix1.entries ++ added) ++ removed)
        (entriesLeafRows ix1.entries ++ (removed ++ added)) := by
      rw [List.append_assoc]
      exact List.Perm.append_left _ List.perm_append_comm
    have h3 : List.Perm (entriesLeafRows ix1.entries ++ (removed ++ added))
        ((entriesLeafRows ix1.entries ++ removed) ++ added) := by
      rw [List.append_assoc]
    have h4 : List.Perm ((entriesLeafRows ix1.entries ++ removed) ++ added)
        (entriesLeafRows ix.entries ++ added) := hperm1.symm.append_right added
    exact (h1.trans (h2.trans (h3.trans h4))).symm

theorem update_arr_INV (st : TableState) (batch : List InputRow)
    (resolved : List (InputRow × Row × List String)) (st' : TableState)
    (hinv : INV st)
    (hres : updateResolve st batch = Except.ok resolved)
    (hndC : ((updateChangedRows resolved).map (fun t => t.2.1.id)).Nodup)
    (hnum : ∀ ir ∈ batch, ∀ c ∈ st.columnNames,
      rowGet ir.data c = JSVal.num (numOf (rowGet ir.data c)))
    (hok : st.update (BatchArg.arr batch) = Except.ok st') :
    INV st' := by
  obtain ⟨hact, hnd, hlt, hnumR, hix⟩ := hinv
  have hrfacts := updateResolve_mem st batch resolved hres
  have hchsub : ∀ t ∈ updateChangedRows resolved, t ∈ resolved :=
    fun t ht => List.mem_of_mem_filter ht
  have hchmem : ∀ t ∈ updateChangedRows resolved, t.2.1 ∈ st.rows :=
    fun t ht => (resolveOrigRow_ok_facts st _ _ (hrfacts t (hchsub t ht)).2.1).1
  have hchid : ∀ t ∈ updateChangedRows resolved,
      (t.1.backref.map BackRef.rowId).getD 0 = t.2.1.id := by
    intro t ht
    obtain ⟨-, ir, br, heq, hbr, hid⟩ :=
      resolveOrigRow_ok_facts st _ _ (hrfacts t (hchsub t ht)).2.1
    injection heq with heq2
    rw [← heq2] at hbr
    rw [hbr]
    simpa using hid
  have haddedEq : updateAddedRows resolved =
      ((updateChangedRows resolved).map
            (fun t => (⟨t.2.1.id, t.1.data⟩ : Row))).map some := by
    rw [updateAddedRows, List.map_map]
    refine List.map_congr_left (fun t ht => ?_)
    show some (⟨(t.1.backref.map BackRef.rowId).getD 0, t.1.data⟩ : Row) =
      some (⟨t.2.1.id, t.1.data⟩ : Row)
    rw [hchid t ht]
  have hchNum : ∀ t ∈ updateChangedRows resolved, ∀ c ∈ st.columnNames,
      rowGet t.1.data c = JSVal.num (numOf (rowGet t.1.data c)) :=
    fun t ht c hc => hnum t.1 (hrfacts t (hchsub t ht)).1 c hc
  have holdIds : (updateOldRows resolved).map Row.id =
      (updateChangedRows resolved).map (fun t => t.2.1.id) := by
    rw [updateOldRows, List.map_map]
    rfl
  have hndOld : ((updateOldRows resolved).map Row.id).Nodup := by
    rw [holdIds]
    exact hndC
  have holdmem : ∀ v ∈ updateOldRows resolved, v ∈ st.rows := by
    intro v hv
    have hv2 : v ∈ (updateChangedRows resolved).map (fun t => t.2.1) := hv
    obtain ⟨t, ht, rfl⟩ := List.mem_map.mp hv2
    exact hchmem t ht
  have holdsub : ∀ v ∈ updateOldRows resolved, v.id ∈ st.rows.map Row.id :=
    fun v hv => List.mem_map.mpr ⟨v, holdmem v hv, rfl⟩
  by_cases hempty : (updateChangedRows resolved).length = 0
  · have hbeq : ((updateChangedRows resolved).length == 0) = true := by
      simp [hempty]
    have hrun : st.update (BatchArg.arr batch) = Except.ok st := by
      simp only [TableState.update, TableState.checkActive, hact, if_true,
        exceptBind_ok, hres, hbeq]
    rw [hrun] at hok
    injection hok with h2
    subst h2
    exact ⟨hact, hnd, hlt, hnumR, hix⟩
  · have hbeq : ((updateChangedRows resolved).length == 0) = false := by
      simpa using hempty
    have hUfix : ∀ u ∈ st.rows.filter (fun row =>
              !(((updateOldRows resolved).map Row.id).contains row.id)),
        applyUpd st.columnNames (updateChangedRows resolved) u = u := by
      intro u hu
      have hnotin : u.id ∉ (updateOldRows resolved).map Row.id := by
        have h0 := (List.mem_filter.mp hu).2
        simpa using h0
      have hfind : (updateChangedRows resolved).find?
          (fun t => u.id == t.2.1.id) = none := by
        rw [List.find?_eq_none]
        intro t ht
        simp only [beq_iff_eq]
        intro he
        apply hnotin
        rw [holdIds, he]
        exact List.mem_map.mpr ⟨t, ht, rfl⟩
      simp [applyUpd, hfind]
    have hTmapA : ∀ t ∈ updateChangedRows resolved,
        applyUpd st.columnNames (updateChangedRows resolved) t.2.1 =
          ⟨t.2.1.id, cloneRowData st.columnNames t.1.data⟩ := by
      intro t ht
      have hex : ∃ x ∈ updateChangedRows resolved,
          (fun t2 => t.2.1.id == t2.2.1.id) x = true := ⟨t, ht, by simp⟩
      obtain ⟨u, hu⟩ := Option.isSome_iff_exists.mp (List.find?_isSome.mpr hex)
      have humem := List.mem_of_find?_eq_some hu
      have hupred : t.2.1.id = u.2.1.id := by simpa using List.find?_some hu
      have hut : u = t := eq_of_key_nodup (fun t2 => t2.2.1.id)
        (updateChangedRows resolved) hndC u humem t ht
        (by show u.2.1.id = t.2.1.id; omega)
      simp [applyUpd, hu, hut]
    have hrowsNd : st.rows.Nodup := List.Nodup.of_map Row.id hnd
    have holdNd : (updateOldRows resolved).Nodup := List.Nodup.of_map Row.id hndOld
    have hTperm : List.Perm
        (st.rows.filter (fun row =>
              ((updateOldRows resolved).map Row.id).contains row.id))
        (updateOldRows resolved) := by
      refine (List.perm_ext_iff_of_nodup (hrowsNd.filter _) holdNd).mpr ?_
      intro row
      constructor
      · intro hrow
        have h1 := List.mem_of_mem_filter hrow
        have h2 : row.id ∈ (updateOldRows resolved).map Row.id := by
          have h0 := (List.mem_filter.mp hrow).2
          simpa using h0
        obtain ⟨v, hv, hvid⟩ := List.mem_map.mp h2
        have hveq : v = row :=
          row_eq_of_id_nodup st.rows hnd v (holdmem v hv) row h1 hvid
        rw [← hveq]
        exact hv
      · intro hrow
        refine List.mem_filter.mpr ⟨holdmem row hrow, ?_⟩
        simpa using List.mem_map.mpr ⟨row, hrow, rfl⟩
    have hKclone : ∀ t ∈ updateChangedRows resolved,
        ∀ (cols : List String), (∀ c ∈ cols, c ∈ st.columnNames) →
        rowKey cols (⟨t.2.1.id, cloneRowData st.columnNames t.1.data⟩ : Row) =
          rowKey cols (⟨t.2.1.id, t.1.data⟩ : Row) := by
      intro t ht cols hsubC
      have hmaps : cols.map (fun c =>
          Row.get (⟨t.2.1.id, cloneRowData st.columnNames t.1.data⟩ : Row) c) =
          cols.map (fun c => Row.get (⟨t.2.1.id, t.1.data⟩ : Row) c) := by
        refine List.map_congr_left (fun c hc => ?_)
        show rowGet (cloneRowData st.columnNames t.1.data) c = rowGet t.1.data c
        exact rowGet_clone st.columnNames t.1.data c (hsubC c hc)
      show ((⟨t.2.1.id, cloneRowData st.columnNames t.1.data⟩ : Row).id,
          cols.map (fun c =>
            Row.get (⟨t.2.1.id, cloneRowData st.columnNames t.1.data⟩ : Row) c)) =
        ((⟨t.2.1.id, t.1.data⟩ : Row).id,
          cols.map (fun c => Row.get (⟨t.2.1.id, t.1.data⟩ : Row) c))
      rw [hmaps]
    have hpoint : ∀ ix ∈ st.indicies, ∃ ix2,
        (if ix.columns.any (fun c => (updateChangedColumns resolved).contains c)
          then updateTouchIndex st.paranoia (updateOldRows resolved)
            (updateAddedRows resolved) ix
          else Except.ok ix) = Except.ok ix2 ∧
        ix2.columns = ix.columns ∧
        StructLevel ix2.columns ix2.entries ix2.total ∧
        List.Perm
          ((entriesLeafRows ix2.entries).map (rowKey ix.columns))
          ((st.rows.map
            (applyUpd st.columnNames (updateChangedRows resolved))).map
              (rowKey ix.columns)) := by
      intro ix hin
      obtain ⟨hc, hsubC, hS, hK⟩ := hix ix hin
      by_cases hany : ix.columns.any
          (fun c => (updateChangedColumns resolved).contains c) = true
      · rw [if_pos hany]
        have hnumOld : ∀ c ∈ ix.columns, ∀ r ∈ updateOldRows resolved,
            r.get c = JSVal.num (numOf (r.get c)) :=
          fun c hcc r hr => hnumR c (hsubC c hcc) r (holdmem r hr)
        have hnumAdd : ∀ c ∈ ix.columns, ∀ r ∈ (updateChangedRows resolved).map
            (fun t => (⟨t.2.1.id, t.1.data⟩ : Row)),
            r.get c = JSVal.num (numOf (r.get c)) := by
          intro c hcc r hr
          obtain ⟨t, ht, rfl⟩ := List.mem_map.mp hr
          show rowGet t.1.data c = JSVal.num (numOf (rowGet t.1.data c))
          exact hchNum t ht c (hsubC c hcc)
        have hidsL : List.Perm ((entriesLeafRows ix.entries).map Row.id)
            (st.rows.map Row.id) := keys_perm_ids ix.columns _ _ hK
        have hndL : ((entriesLeafRows ix.entries).map Row.id).Nodup :=
          (List.Perm.nodup_iff hidsL).mpr hnd
        have hcp : ∀ rr ∈ updateOldRows resolved,
            ∃ lr ∈ entriesLeafRows ix.entries,
            lr.id = rr.id ∧ ∀ c ∈ ix.columns, lr.get c = rr.get c := by
          intro rr hrr
          have h1 : rowKey ix.columns rr ∈
              (entriesLeafRows ix.entries).map (rowKey ix.columns) :=
            hK.symm.mem_iff.mp (List.mem_map.mpr ⟨rr, holdmem rr hrr, rfl⟩)
          obtain ⟨lr, hlr, hlrk⟩ := List.mem_map.mp h1
          refine ⟨lr, hlr, congrArg Prod.fst hlrk, ?_⟩
          have h2 : ix.columns.map (fun c => lr.get c) =
              ix.columns.map (fun c => rr.get c) := congrArg Prod.snd hlrk
          exact fun c hcc => List.map_inj_left.mp h2 c hcc
        obtain ⟨ix2, heq, hcols2, hS2, removed, hsubRem, hpermC, hidsR⟩ :=
          updateTouchIndex_ok st.paranoia ix (updateOldRows resolved)
            ((updateChangedRows resolved).map
            (fun t => (⟨t.2.1.id, t.1.data⟩ : Row)))
            hc hS hnumOld hnumAdd hcp hndL hndOld
        refine ⟨ix2, ?_, hcols2, hS2, ?_⟩
        · rw [haddedEq]
          exact heq
        · have hTids : List.Perm
              ((st.rows.filter (fun row =>
              ((updateOldRows resolved).map Row.id).contains row.id)).map Row.id)
              ((updateOldRows resolved).map Row.id) :=
            filter_contains_ids_perm st.rows (updateOldRows resolved) hnd hndOld
              holdsub
          have hremNd : (removed.map Row.id).Nodup := (hidsR.nodup_iff).mpr hndOld
          have hremK : List.Perm (removed.map (rowKey ix.columns))
              ((st.rows.filter (fun row =>
              ((updateOldRows resolved).map Row.id).contains row.id)).map
                  (rowKey ix.columns)) :=
            perm_keys_transport ix.columns (entriesLeafRows ix.entries)
              st.rows removed _ hK hnd hsubRem
              (fun v hv => List.mem_of_mem_filter hv)
              (hidsR.trans hTids.symm) hremNd
          have hmain := hpermC.map (rowKey ix.columns)
          rw [List.map_append, List.map_append] at hmain
          have hsplitK : List.Perm (st.rows.map (rowKey ix.columns))
              ((st.rows.filter (fun row =>
              ((updateOldRows resolved).map Row.id).contains row.id)).map
                (rowKey ix.columns) ++
               (st.rows.filter (fun row =>
              !(((updateOldRows resolved).map Row.id).contains row.id))).map
                (rowKey ix.columns)) := by
            have h0 := (List.filter_append_perm (fun row =>
              ((updateOldRows resolved).map Row.id).contains row.id)
                st.rows).symm.map (rowKey ix.columns)
            rw [List.map_append] at h0
            exact h0
          have hXsplit : List.Perm
              ((st.rows.map (applyUpd st.columnNames (updateChangedRows resolved))).map
                (rowKey ix.columns))
              (((st.rows.filter (fun row =>
              ((updateOldRows resolved).map Row.id).contains row.id)).map
                  (applyUpd st.columnNames (updateChangedRows resolved))).map
                (rowKey ix.columns) ++
               ((st.rows.filter (fun row =>
              !(((updateOldRows resolved).map Row.id).contains row.id))).map
                  (applyUpd st.columnNames (updateChangedRows resolved))).map
                (rowKey ix.columns)) := by
            have h0 := ((List.filter_append_perm (fun row =>
              ((updateOldRows resolved).map Row.id).contains row.id)
                st.rows).symm.map
              (applyUpd st.columnNames (updateChangedRows resolved))).map
              (rowKey ix.columns)
            rw [List.map_append, List.map_append] at h0
            exact h0
          have hUmap : (st.rows.filter (fun row =>
              !(((updateOldRows resolved).map Row.id).contains row.id))).map
              (applyUpd st.columnNames (updateChangedRows resolved)) =
              st.rows.filter (fun row =>
              !(((updateOldRows resolved).map Row.id).contains row.id)) := by
            have h0 : (st.rows.filter (fun row =>
              !(((updateOldRows resolved).map Row.id).contains row.id))).map
                (applyUpd st.columnNames (updateChangedRows resolved)) =
                (st.rows.filter (fun row =>
              !(((updateOldRows resolved).map Row.id).contains row.id))).map (fun u => u) :=
              List.map_congr_left (fun u hu => hUfix u hu)
            rw [h0, List.map_id']
          rw [hUmap] at hXsplit
          have hTmapK : List.Perm
              (((st.rows.filter (fun row =>
              ((updateOldRows resolved).map Row.id).contains row.id)).map
                (applyUpd st.columnNames (updateChangedRows resolved))).map
                  (rowKey ix.columns))
              (((updateChangedRows resolved).map
            (fun t => (⟨t.2.1.id, t.1.data⟩ : Row))).map (rowKey ix.columns)) := by
            have h1 := (hTperm.map (applyUpd st.columnNames (updateChangedRows resolved))).map
              (rowKey ix.columns)
            have h2 : ((updateOldRows resolved).map
                (applyUpd st.columnNames (updateChangedRows resolved))).map (rowKey ix.columns) =
                ((updateChangedRows resolved).map
            (fun t => (⟨t.2.1.id, t.1.data⟩ : Row))).map (rowKey ix.columns) := by
              rw [updateOldRows, List.map_map, List.map_map, List.map_map]
              refine List.map_congr_left (fun t ht => ?_)
              show rowKey ix.columns
                (applyUpd st.columnNames (updateChangedRows resolved) t.2.1) =
                rowKey ix.columns (⟨t.2.1.id, t.1.data⟩ : Row)
              rw [hTmapA t ht]
              exact hKclone t ht ix.columns hsubC
            have h3 : List.Perm (((updateOldRows resolved).map
                (applyUpd st.columnNames (updateChangedRows resolved))).map (rowKey ix.columns))
                (((updateChangedRows resolved).map
            (fun t => (⟨t.2.1.id, t.1.data⟩ : Row))).map (rowKey ix.columns)) := by
              rw [h2]
            exact h1.trans h3
          have hX2 : List.Perm
              ((st.rows.map (applyUpd st.columnNames (updateChangedRows resolved))).map
                (rowKey ix.columns))
              (((updateChangedRows resolved).map
            (fun t => (⟨t.2.1.id, t.1.data⟩ : Row))).map (rowKey ix.columns) ++
               (st.rows.filter (fun row =>
              !(((updateOldRows resolved).map Row.id).contains row.id))).map (rowKey ix.columns)) :=
            hXsplit.trans (hTmapK.append_right _)
          have hchain1 : List.Perm
              ((entriesLeafRows ix2.entries).map (rowKey ix.columns) ++
                removed.map (rowKey ix.columns))
              (((st.rows.filter (fun row =>
              ((updateOldRows resolved).map Row.id).contains row.id)).map (rowKey ix.columns) ++
                (st.rows.filter (fun row =>
              !(((updateOldRows resolved).map Row.id).contains row.id))).map (rowKey ix.columns)) ++
                ((updateChangedRows resolved).map
            (fun t => (⟨t.2.1.id, t.1.data⟩ : Row))).map (rowKey ix.columns)) :=
            hmain.symm.trans (((hK.trans hsplitK)).append_right _)
          have hchain2 : List.Perm
              (((st.rows.filter (fun row =>
              ((updateOldRows resolved).map Row.id).contains row.id)).map (rowKey ix.columns) ++
                (st.rows.filter (fun row =>
              !(((updateOldRows resolved).map Row.id).contains row.id))).map (rowKey ix.columns)) ++
                ((updateChangedRows resolved).map
            (fun t => (⟨t.2.1.id, t.1.data⟩ : Row))).map (rowKey ix.columns))
              ((((updateChangedRows resolved).map
            (fun t => (⟨t.2.1.id, t.1.data⟩ : Row))).map (rowKey ix.columns) ++
                (st.rows.filter (fun row =>
              !(((updateOldRows resolved).map Row.id).contains row.id))).map (rowKey ix.columns)) ++
                removed.map (rowKey ix.columns)) := by
            have hb1 : List.Perm
                ((st.rows.filter (fun row =>
              ((updateOldRows resolved).map Row.id).contains row.id)).map (rowKey ix.columns) ++
                  (st.rows.filter (fun row =>
              !(((updateOldRows resolved).map Row.id).contains row.id))).map (rowKey ix.columns))
                (removed.map (rowKey ix.columns) ++
                  (st.rows.filter (fun row =>
              !(((updateOldRows resolved).map Row.id).contains row.id))).map (rowKey ix.columns)) :=
              hremK.symm.append_right _
            refine (hb1.append_right _).trans ?_
            refine (List.perm_append_comm).trans ?_
            rw [List.append_assoc]
            exact List.Perm.append_left _ List.perm_append_comm
          have hcanc := (List.perm_append_right_iff _).mp (hchain1.trans hchain2)
          exact hcanc.trans hX2.symm
      · rw [if_neg hany]
        refine ⟨ix, rfl, rfl, hS, ?_⟩
        have hnoch : ∀ c ∈ ix.columns, c ∉ updateChangedColumns resolved := by
          intro c hcc hmem2
          exact hany (List.any_eq_true.mpr ⟨c, hcc, by simpa using hmem2⟩)
        have hfixK : (st.rows.map (applyUpd st.columnNames (updateChangedRows resolved))).map
            (rowKey ix.columns) = st.rows.map (rowKey ix.columns) := by
          rw [List.map_map]
          refine List.map_congr_left (fun row hrow => ?_)
          show rowKey ix.columns
            (applyUpd st.columnNames (updateChangedRows resolved) row) = rowKey ix.columns row
          cases hfind : (updateChangedRows resolved).find?
              (fun t => row.id == t.2.1.id) with
          | none =>
            have hA : applyUpd st.columnNames (updateChangedRows resolved) row = row := by
              simp [applyUpd, hfind]
            rw [hA]
          | some t =>
            have htmem := List.mem_of_find?_eq_some hfind
            have hpred : row.id = t.2.1.id := by
              simpa using List.find?_some hfind
            have hroweq : row = t.2.1 :=
              row_eq_of_id_nodup st.rows hnd row hrow t.2.1 (hchmem t htmem) hpred
            have hA : applyUpd st.columnNames (updateChangedRows resolved) row =
                ⟨row.id, cloneRowData st.columnNames t.1.data⟩ := by
              simp [applyUpd, hfind]
            rw [hA]
            have hmaps : ix.columns.map (fun c =>
                Row.get (⟨row.id, cloneRowData st.columnNames t.1.data⟩ : Row) c) =
                ix.columns.map (fun c => row.get c) := by
              refine List.map_congr_left (fun c hcc => ?_)
              have h1 : Row.get
                  (⟨row.id, cloneRowData st.columnNames t.1.data⟩ : Row) c =
                  rowGet t.1.data c := by
                show rowGet (cloneRowData st.columnNames t.1.data) c =
                  rowGet t.1.data c
                exact rowGet_clone st.columnNames t.1.data c (hsubC c hcc)
              have hnm : c ∉ markChangedColumns st.columnNames t.1 t.2.1 := by
                intro hmm
                have hc22 : c ∈ t.2.2 := by
                  rw [(hrfacts t (hchsub t htmem)).2.2]
                  exact hmm
                exact hnoch c hcc
                  (mem_updateChangedColumns resolved t (hchsub t htmem) c hc22)
              have h2 : rowGet t.1.data c = t.2.1.get c :=
                unchanged_of_not_marked st.columnNames t.1 t.2.1 c
                  (hsubC c hcc) hnm
              rw [h1, h2, ← hroweq]
            show ((⟨row.id, cloneRowData st.columnNames t.1.data⟩ : Row).id,
                ix.columns.map (fun c =>
                  Row.get (⟨row.id, cloneRowData st.columnNames t.1.data⟩ : Row) c)) =
              (row.id, ix.columns.map (fun c => row.get c))
            rw [hmaps]
        rw [hfixK]
        exact hK
    have hidxmap : st.indicies.mapM (fun ix =>
        if ix.columns.any (fun c => (updateChangedColumns resolved).contains c)
          then updateTouchIndex st.paranoia (updateOldRows resolved)
            (updateAddedRows resolved) ix
          else Except.ok ix) =
        Except.ok (st.indicies.map (fun ix => exceptGet ix
          (if ix.columns.any (fun c => (updateChangedColumns resolved).contains c)
          then updateTouchIndex st.paranoia (updateOldRows resolved)
            (updateAddedRows resolved) ix
          else Except.ok ix))) := by
      refine exceptMapM_ok_of_forall _ _ st.indicies (fun ix hin => ?_)
      obtain ⟨ix2, heq, -, -, -⟩ := hpoint ix hin
      rw [heq]
      rfl
    have hfold := updateFold_eq_map st.columnNames (updateChangedRows resolved)
      st.rows hndC
    have hINV2 : INV
        { st with
          rows := st.rows.map (applyUpd st.columnNames (updateChangedRows resolved)),
          indicies := st.indicies.map (fun ix => exceptGet ix
            (if ix.columns.any (fun c => (updateChangedColumns resolved).contains c)
          then updateTouchIndex st.paranoia (updateOldRows resolved)
            (updateAddedRows resolved) ix
          else Except.ok ix)) } := by
      refine ⟨hact, ?_, ?_, ?_, ?_⟩
      · show ((st.rows.map (applyUpd st.columnNames (updateChangedRows resolved))).map Row.id).Nodup
        rw [List.map_map]
        have hcongr : st.rows.map
            (Row.id ∘ applyUpd st.columnNames (updateChangedRows resolved)) = st.rows.map Row.id :=
          List.map_congr_left (fun row _ =>
            applyUpd_id st.columnNames (updateChangedRows resolved) row)
        rw [hcongr]
        exact hnd
      · show ∀ r ∈ st.rows.map (applyUpd st.columnNames (updateChangedRows resolved)),
          r.id < st.nextId
        intro r hr
        obtain ⟨row, hrow, rfl⟩ := List.mem_map.mp hr
        rw [applyUpd_id]
        exact hlt row hrow
      · show ∀ c ∈ st.columnNames, ∀ r ∈ st.rows.map
          (applyUpd st.columnNames (updateChangedRows resolved)), r.get c = JSVal.num (numOf (r.get c))
        intro c hc r hr
        obtain ⟨row, hrow, rfl⟩ := List.mem_map.mp hr
        cases hfind : (updateChangedRows resolved).find?
            (fun t => row.id == t.2.1.id) with
        | none =>
          have hA : applyUpd st.columnNames (updateChangedRows resolved) row = row := by
            simp [applyUpd, hfind]
          rw [hA]
          exact hnumR c hc row hrow
        | some t =>
          have htmem := List.mem_of_find?_eq_some hfind
          have hA : applyUpd st.columnNames (updateChangedRows resolved) row =
              ⟨row.id, cloneRowData st.columnNames t.1.data⟩ := by
            simp [applyUpd, hfind]
          rw [hA]
          have h1 : Row.get
              (⟨row.id, cloneRowData st.columnNames t.1.data⟩ : Row) c =
              rowGet t.1.data c := by
            show rowGet (cloneRowData st.columnNames t.1.data) c = rowGet t.1.data c
            exact rowGet_clone st.columnNames t.1.data c hc
          rw [h1]
          exact hchNum t htmem c hc
      · intro ix' hmem
        obtain ⟨ix, hin, rfl⟩ := List.mem_map.mp hmem
        obtain ⟨ix2, heq, hcols2, hS2, hKnew⟩ := hpoint ix hin
        obtain ⟨hc, hsubC, hS, hK⟩ := hix ix hin
        have hgix : exceptGet ix
            (if ix.columns.any (fun c => (updateChangedColumns resolved).contains c)
          then updateTouchIndex st.paranoia (updateOldRows resolved)
            (updateAddedRows resolved) ix
          else Except.ok ix) = ix2 :=
          exceptGet_ok ix _ ix2 heq
        rw [hgix]
        refine ⟨?_, ?_, hS2, ?_⟩
        · rw [hcols2]
          exact hc
        · rw [hcols2]
          exact hsubC
        · rw [hcols2]
          exact hKnew
    have hrun : st.update (BatchArg.arr batch) = Except.ok
        { st with
          rows := st.rows.map (applyUpd st.columnNames (updateChangedRows resolved)),
          indicies := st.indicies.map (fun ix => exceptGet ix
            (if ix.columns.any (fun c => (updateChangedColumns resolved).contains c)
          then updateTouchIndex st.paranoia (updateOldRows resolved)
            (updateAddedRows resolved) ix
          else Except.ok ix)) } := by
      simp only [TableState.update, TableState.checkActive, hact, if_true,
        exceptBind_ok, hres, hbeq, Bool.false_eq_true, if_false, hidxmap,
        pure_bind, hfold]
    rw [hrun] at hok
    injection hok with h2
    subst h2
    exact hINV2

/-! ## Preservation by the remaining operations, and reachability -/

theorem checkColumnNamesGo_sub (ss : List String) :
    ∀ (cols seen : List String),
      checkColumnNamesGo (some ss) seen cols = Except.ok () →
      ∀ c ∈ cols, c ∈ ss := by
  intro cols
  induction cols with
  | nil =>
    intro seen _ c hc
    simp at hc
  | cons name rest ih =>
    intro seen h c hc
    simp only [checkColumnNamesGo] at h
    cases hv : isValidColumnName name with
    | false =>
      rw [hv] at h
      simp at h
    | true =>
      rw [hv] at h
      simp only [Bool.not_true, Bool.false_eq_true, if_false] at h
      cases hs : seen.contains name with
      | true =>
        rw [hs] at h
        simp at h
      | false =>
        rw [hs] at h
        simp only [Bool.false_eq_true, if_false] at h
        cases hss : ss.contains name with
        | false =>
          rw [hss] at h
          simp at h
        | true =>
          rw [hss] at h
          simp only [Bool.not_true, Bool.false_eq_true, if_false] at h
          rcases List.mem_cons.mp hc with rfl | hc2
          · simpa using hss
          · exact ih (name :: seen) h c hc2

theorem checkColumnNames_sub (cols ss : List String)
    (h : checkColumnNames cols (some ss) = Except.ok ()) :
    cols ≠ [] ∧ ∀ c ∈ cols, c ∈ ss := by
  rw [checkColumnNames] at h
  by_cases hlen : cols.length = 0
  · rw [if_pos hlen] at h
    exact absurd h (by simp)
  · rw [if_neg hlen] at h
    refine ⟨?_, checkColumnNamesGo_sub ss cols [] h⟩
    intro hnil
    exact hlen (by rw [hnil]; rfl)

theorem indexCreate_INV (st : TableState) (cols : List String) (ix : IndexState)
    (st' : TableState) (hinv : INV st)
    (hok : st.indexCreate cols = Except.ok (ix, st')) : INV st' := by
  obtain ⟨hact, hnd, hlt, hnumR, hix⟩ := hinv
  cases hchk : checkColumnNames cols (some st.columnNames) with
  | error e =>
    simp only [TableState.indexCreate, TableState.checkActive, hact, if_true,
      exceptBind_ok, hchk, exceptBind_error] at hok
    exact Except.noConfusion hok
  | ok u =>
    cases u
    obtain ⟨hcols, hsub⟩ := checkColumnNames_sub cols st.columnNames hchk
    cases hfind : st.indicies.find? (fun ixx =>
        buildIndexSignature ixx.columns == buildIndexSignature cols) with
    | some ix0 =>
      have hrun : st.indexCreate cols = Except.ok (ix0, st) := by
        simp only [TableState.indexCreate, TableState.checkActive, hact, if_true,
          exceptBind_ok, hchk, hfind]
      rw [hrun] at hok
      injection hok with hpair
      injection hpair with h1 h2
      subst h2
      exact ⟨hact, hnd, hlt, hnumR, hix⟩
    | none =>
      have hS0 : StructLevel cols ([] : List Entry) 0 := StructLevel_empty cols hcols
      have hnum0 : ∀ c ∈ cols, ∀ r ∈ st.rows,
          r.get c = JSVal.num (numOf (r.get c)) :=
        fun c hc r hr => hnumR c (hsub c hc) r hr
      obtain ⟨heq, hS1, hRows⟩ := rowsAdded_addedIndex
        ⟨cols, [], 0⟩ st.rows hcols hS0 hnum0
      have hrun : st.indexCreate cols = Except.ok
          (addedIndex ⟨cols, [], 0⟩ st.rows,
           { st with
             indicies := st.indicies ++ [addedIndex ⟨cols, [], 0⟩ st.rows] }) := by
        simp only [TableState.indexCreate, TableState.checkActive, hact, if_true,
          exceptBind_ok, hchk, hfind, heq]
      rw [hrun] at hok
      injection hok with hpair
      injection hpair with h1 h2
      subst h2
      refine ⟨hact, hnd, hlt, hnumR, ?_⟩
      intro ix' hmem
      rcases List.mem_append.mp hmem with hold | hnew
      · exact hix ix' hold
      · have hix' : ix' = addedIndex ⟨cols, [], 0⟩ st.rows := by
          simpa using hnew
        subst hix'
        refine ⟨hcols, hsub, hS1, ?_⟩
        exact (show List.Perm
          (entriesLeafRows (addedIndex ⟨cols, [], 0⟩ st.rows).entries) st.rows
          from hRows).map (rowKey cols)

theorem new_INV (cols : List String) (tag : Nat) (st : TableState)
    (hok : DataTableNew cols tag = Except.ok st) : INV st := by
  cases hchk : checkColumnNames cols none with
  | error e =>
    simp only [DataTableNew, hchk, exceptBind_error] at hok
    exact Except.noConfusion hok
  | ok u =>
    cases u
    have hrun : DataTableNew cols tag = Except.ok
        { columnNames := cols, rows := [], indicies := [], paranoia := false,
          verbose := false, active := true, nextId := 0, tableTag := tag } := by
      simp only [DataTableNew, hchk, exceptBind_ok]
    rw [hrun] at hok
    injection hok with h2
    subst h2
    refine ⟨rfl, by simp, ?_, ?_, ?_⟩
    · intro r hr
      simp at hr
    · intro c _ r hr
      simp at hr
    · intro ix hmem
      simp at hmem

theorem setParanoia_INV (st : TableState) (b : Bool) (st' : TableState)
    (hinv : INV st) (hok : st.setParanoia b = Except.ok st') : INV st' := by
  have hact : st.active = true := hinv.1
  have hrun : st.setParanoia b = Except.ok { st with paranoia := b } := by
    simp only [TableState.setParanoia, TableState.checkActive, hact, if_true,
      exceptBind_ok]
  rw [hrun] at hok
  injection hok with h2
  subst h2
  exact hinv

theorem setVerbose_INV (st : TableState) (b : Bool) (st' : TableState)
    (hinv : INV st) (hok : st.setVerbose b = Except.ok st') : INV st' := by
  have hact : st.active = true := hinv.1
  have hrun : st.setVerbose b = Except.ok { st with verbose := b } := by
    simp only [TableState.setVerbose, TableState.checkActive, hact, if_true,
      exceptBind_ok]
  rw [hrun] at hok
  injection hok with h2
  subst h2
  exact hinv

/-- The batch a non-`remove` operation sees for an argument. -/
def batchRows : BatchArg → List InputRow
  | BatchArg.arr l => l
  | BatchArg.single r => [r]

/-- The tables reachable from `new DataTable(...)` by successful calls,
with numeric cell values in the inserted and updated data, fresh rows in
insert batches, and pairwise-distinct row references in update and
remove batches. -/
inductive Reach : TableState → Prop where
  | new : ∀ (columnNames : List String) (tag : Nat) (st : TableState),
      DataTableNew columnNames tag = Except.ok st → Reach st
  | insert : ∀ (st : TableState) (arg : BatchArg) (out : List InputRow)
      (st' : TableState), Reach st →
      (∀ ir ∈ batchRows arg, ir.backref = none) →
      (∀ ir ∈ batchRows arg, ∀ c ∈ st.columnNames,
        rowGet ir.data c = JSVal.num (numOf (rowGet ir.data c))) →
      st.insert arg = Except.ok (out, st') → Reach st'
  | update : ∀ (st : TableState) (arg : BatchArg)
      (resolved : List (InputRow × Row × List String)) (st' : TableState),
      Reach st →
      updateResolve st (batchRows arg) = Except.ok resolved →
      ((updateChangedRows resolved).map (fun t => t.2.1.id)).Nodup →
      (∀ ir ∈ batchRows arg, ∀ c ∈ st.columnNames,
        rowGet ir.data c = JSVal.num (numOf (rowGet ir.data c))) →
      st.update arg = Except.ok st' → Reach st'
  | remove : ∀ (st : TableState) (batch : List InputRow) (origRows : List Row)
      (st' : TableState), Reach st →
      (batch.map some).mapM (resolveOrigRow st) = Except.ok origRows →
      (origRows.map Row.id).Nodup →
      st.remove (BatchArg.arr batch) = Except.ok st' → Reach st'
  | removeSingle : ∀ (st : TableState) (r : InputRow) (st' : TableState),
      Reach st → st.remove (BatchArg.single r) = Except.ok st' → Reach st'
  | indexCreate : ∀ (st : TableState) (cols : List String) (ix : IndexState)
      (st' : TableState), Reach st →
      st.indexCreate cols = Except.ok (ix, st') → Reach st'
  | setParanoia : ∀ (st : TableState) (b : Bool) (st' : TableState),
      Reach st → st.setParanoia b = Except.ok st' → Reach st'
  | setVerbose : ∀ (st : TableState) (b : Bool) (st' : TableState),
      Reach st → st.setVerbose b = Except.ok st' → Reach st'

theorem INV_of_Reach (st : TableState) (h : Reach st) : INV st := by
  induction h with
  | new columnNames tag st hok => exact new_INV columnNames tag st hok
  | insert st arg out st' hre hbr hnum hok ih =>
    cases arg with
    | arr l => exact insert_arr_INV st l out st' ih hbr hnum hok
    | single r => exact insert_arr_INV st [r] out st' ih hbr hnum hok
  | update st arg resolved st' hre hres hndC hnum hok ih =>
    cases arg with
    | arr l => exact update_arr_INV st l resolved st' ih hres hndC hnum hok
    | single r => exact update_arr_INV st [r] resolved st' ih hres hndC hnum hok
  | remove st batch origRows st' hre hres hndV hok ih =>
    exact remove_arr_INV st batch origRows st' ih hres hndV hok
  | removeSingle st r st' hre hok ih => exact remove_single_INV st r st' ih hok
  | indexCreate st cols ix st' hre hok ih =>
    exact indexCreate_INV st cols ix st' ih hok
  | setParanoia st b st' hre hok ih => exact setParanoia_INV st b st' ih hok
  | setVerbose st b st' hre hok ih => exact setVerbose_INV st b st' ih hok

/-- **C1.**  After every sequence of successful `insert`, `update` and
`remove` calls (and `index` / `paranoia` / `verbose` calls) on a live
table, every index of the table passes `validateIndex` without error —
under the qualifications of `Reach`: the inserted and updated cell
values on the table's columns are numbers, insert batches carry fresh
rows, and update and remove batches reference pairwise-distinct rows.
Without the numeric qualification the claim is false: see
`table_validateIndex_counterexample`, where inserting a `null` and a
missing cell under an index produces two entries (`null` and
`undefined`) that the validator's `==` duplicate check rejects. -/
theorem table_validateIndex_of_Reach (st : TableState) (h : Reach st) :
    st.tableValidateIndex = Except.ok () :=
  INV_validate st (INV_of_Reach st h)

/-- Witness for C1: a table built by `new`, `index(['c'])` and a
two-row numeric `insert` validates successfully. -/
theorem table_validateIndex_of_Reach_witness :
    TableState.tableValidateIndex
      { columnNames := ["c"],
        rows := [⟨0, [("c", JSVal.num 5)]⟩, ⟨1, [("c", JSVal.num 3)]⟩],
        indicies := [⟨["c"],
          [Entry.leaf (JSVal.num 3) 1 1 [⟨1, [("c", JSVal.num 3)]⟩],
           Entry.leaf (JSVal.num 5) 1 2 [⟨0, [("c", JSVal.num 5)]⟩]], 2⟩],
        paranoia := false, verbose := false, active := true, nextId := 2,
        tableTag := 0 } = Except.ok () := by
  refine table_validateIndex_of_Reach _
    (Reach.insert
      { columnNames := ["c"], rows := [], indicies := [⟨["c"], [], 0⟩],
        paranoia := false, verbose := false, active := true, nextId := 0,
        tableTag := 0 }
      (BatchArg.arr [⟨none, [("c", JSVal.num 5)]⟩, ⟨none, [("c", JSVal.num 3)]⟩])
      [⟨some ⟨0, 0⟩, [("c", JSVal.num 5)]⟩, ⟨some ⟨0, 1⟩, [("c", JSVal.num 3)]⟩]
      _
      (Reach.indexCreate
        { columnNames := ["c"], rows := [], indicies := [], paranoia := false,
          verbose := false, active := true, nextId := 0, tableTag := 0 }
        ["c"] ⟨["c"], [], 0⟩ _
        (Reach.new ["c"] 0 _ (by rfl))
        (by rfl))
      (by decide) (by decide) (by rfl))

/-- Counterexample to the unqualified C1: on a table with an index on
`c`, a successful insert of `{c: null}` and `{}` leaves the index with a
`null` entry and an `undefined` entry; `validateIndex` then fails, since
its duplicate check compares entry values with `==` and
`null == undefined` holds in JavaScript. -/
theorem table_validateIndex_counterexample :
    DataTableNew ["c"] 0 = Except.ok
      { columnNames := ["c"], rows := [], indicies := [], paranoia := false,
        verbose := false, active := true, nextId := 0, tableTag := 0 } ∧
    TableState.indexCreate
      { columnNames := ["c"], rows := [], indicies := [], paranoia := false,
        verbose := false, active := true, nextId := 0, tableTag := 0 } ["c"] =
      Except.ok (⟨["c"], [], 0⟩,
        { columnNames := ["c"], rows := [], indicies := [⟨["c"], [], 0⟩],
          paranoia := false, verbose := false, active := true, nextId := 0,
          tableTag := 0 }) ∧
    TableState.insert
      { columnNames := ["c"], rows := [], indicies := [⟨["c"], [], 0⟩],
        paranoia := false, verbose := false, active := true, nextId := 0,
        tableTag := 0 }
      (BatchArg.arr [⟨none, [("c", JSVal.null)]⟩, ⟨none, []⟩]) =
      Except.ok
        ([⟨some ⟨0, 0⟩, [("c", JSVal.null)]⟩, ⟨some ⟨0, 1⟩, [("c", JSVal.undef)]⟩],
         { columnNames := ["c"],
           rows := [⟨0, [("c", JSVal.null)]⟩, ⟨1, [("c", JSVal.undef)]⟩],
           indicies := [⟨["c"],
             [Entry.leaf JSVal.null 1 1 [⟨0, [("c", JSVal.null)]⟩],
              Entry.leaf JSVal.undef 1 2 [⟨1, [("c", JSVal.undef)]⟩]], 2⟩],
           paranoia := false, verbose := false, active := true, nextId := 2,
           tableTag := 0 }) ∧
    TableState.tableValidateIndex
      { columnNames := ["c"],
        rows := [⟨0, [("c", JSVal.null)]⟩, ⟨1, [("c", JSVal.undef)]⟩],
        indicies := [⟨["c"],
          [Entry.leaf JSVal.null 1 1 [⟨0, [("c", JSVal.null)]⟩],
           Entry.leaf JSVal.undef 1 2 [⟨1, [("c", JSVal.undef)]⟩]], 2⟩],
        paranoia := false, verbose := false, active := true, nextId := 2,
        tableTag := 0 } = Except.error "Index entry was duplicated" :=
  ⟨rfl, rfl, rfl, rfl⟩

/-! ## Claim C6: exactness of `between` queries

`findWhere(c, 'between', Range(a, b)).getRows()` answers either by a
full scan (the worst-case plan: all rows, then the residual
`Range.include` filter) or by an index whose first column is `c` (the
`between` arm of `computeCost`'s `reduce`: two `matchAfter` probes by
`binarySearch` and one `slice`, then the flattening pass).  Both paths
are embedded from the source and shown to return exactly the rows whose
value in `c` lies in `[a, b]`. -/

/-- `compareValues = DataTable.Comparator.pluck("value", null)`: compare
an entry's `value` against a raw value. -/
def entryCmpValue (e : Entry) (v : JSVal) : Int := Comparator e.value v

/-- Truthiness of an index entry inside `binarySearch`'s `index[r] && …`
test: entries are JavaScript objects, and objects are always truthy. -/
def entryTruthy (_ : Entry) : Bool := true

/-- The test `i == Math.floor(i) && i >= 0 && i < subindex.length` of
`getIndexEntry` in `reduce`. -/
def exactIndexHit (seq : List Entry) (i : Rat) : Bool :=
  decide (i = (⌊i⌋ : Rat) ∧ 0 ≤ i ∧ i < (seq.length : Rat))

/-- `getIndexEntry(value, 0.5)`'s `matchedIndex`: the raw binary-search
position on an exact in-range hit, half a step later otherwise. -/
def matchAfterIndex (seq : List Entry) (v : JSVal) : Rat :=
  if exactIndexHit seq (binarySearch entryTruthy seq v entryCmpValue) then
    binarySearch entryTruthy seq v entryCmpValue
  else binarySearch entryTruthy seq v entryCmpValue + 1/2

/-- JavaScript `ToIntegerOrInfinity` truncation for the slice bounds
arising in `reduce` (all at least `-1/2`), with `slice`'s non-negative
clamp. -/
def ratSliceIdx (q : Rat) : Nat := if q ≤ 0 then 0 else ⌊q⌋.toNat

/-- `subindex.slice(begin, end)` on the rational bounds `reduce`
produces. -/
def jsSliceEntries (seq : List Entry) (b e : Rat) : List Entry :=
  (seq.take (ratSliceIdx e)).drop (ratSliceIdx b)

/-- The `between` arm of `reduce` on a single-column index: probe the
range's start and end with `matchAfter` semantics, slice, and flatten
the selected leaf entries' row lists (`d.data` of a leaf entry). -/
def reduceBetween (seq : List Entry) (startV endV : JSVal) (exclusive : Bool) :
    List Row :=
  ((jsSliceEntries seq
      (max 0 (matchAfterIndex seq startV))
      (matchAfterIndex seq endV +
        (if exactIndexHit seq (binarySearch entryTruthy seq endV entryCmpValue) && !exclusive
          then (1 : Rat) else 0))).map Entry.leafRows).flatten

/-- `Range(a, b).include(v) = v >= begin && v <= end` under JavaScript
coercions: `null` compares as 0, every comparison with `undefined` is
false. -/
def rangeInclude (a b : Int) (v : JSVal) : Bool :=
  match v with
  | JSVal.num n => decide (a ≤ n) && decide (n ≤ b)
  | JSVal.null => decide (a ≤ 0) && decide (0 ≤ b)
  | JSVal.undef => false

/-- The full-scan path of `findWhere(c, 'between', Range(a, b)).getRows()`:
the worst-case plan returns all rows and the residual pass filters them
with `Range.include` on the column's value. -/
def scanBetween (rows : List Row) (c : String) (a b : Int) : List Row :=
  rows.filter (fun row => rangeInclude a b (row.get c))

theorem get_le_iff_lt_countP (xs : List Int) (hs : xs.Pairwise (· < ·)) (x : Int) :
    ∀ (i : Nat) (h : i < xs.length),
      (xs.get ⟨i, h⟩ ≤ x ↔ i < xs.countP (fun a => decide (a ≤ x))) := by
  induction xs with
  | nil => intro i h; simp at h
  | cons y t ih =>
    rw [List.pairwise_cons] at hs
    obtain ⟨hy, ht⟩ := hs
    intro i h
    by_cases hyx : y ≤ x
    · have hcc : (y :: t).countP (fun a => decide (a ≤ x)) =
          t.countP (fun a => decide (a ≤ x)) + 1 := by
        rw [List.countP_cons]
        simp [hyx]
      rw [hcc]
      cases i with
      | zero =>
        simp only [List.get]
        exact ⟨fun _ => Nat.succ_pos _, fun _ => hyx⟩
      | succ j =>
        simp only [List.get]
        rw [ih ht j (by simpa using h)]
        omega
    · have htc : t.countP (fun a => decide (a ≤ x)) = 0 := by
        rw [List.countP_eq_zero]
        intro b hb
        simp only [decide_eq_true_eq]
        have := hy b hb
        omega
      have hcc : (y :: t).countP (fun a => decide (a ≤ x)) = 0 := by
        rw [List.countP_cons]
        simp [htc, hyx]
      rw [hcc]
      cases i with
      | zero =>
        simp only [List.get]
        exact ⟨fun hcon => absurd hcon hyx, fun hcon => absurd hcon (by omega)⟩
      | succ j =>
        simp only [List.get]
        constructor
        · intro hcon
          have hgt := hy _ (t.get_mem j (by simpa using h))
          omega
        · intro hcon
          omega

theorem countP_le_eq_lt_add_eq (xs : List Int) (x : Int) :
    xs.countP (fun a => decide (a ≤ x)) =
      xs.countP (fun a => decide (a < x)) +
        xs.countP (fun a => decide (a = x)) := by
  induction xs with
  | nil => rfl
  | cons y t ih =>
    rw [List.countP_cons, List.countP_cons, List.countP_cons, ih]
    rcases lt_trichotomy y x with h | h | h
    · simp [h, ne_of_lt h, le_of_lt h]
      omega
    · simp [h]
      omega
    · simp [ne_of_gt h, not_le_of_gt h, not_lt_of_gt h]

theorem countP_eq_of_pairwise (xs : List Int) (hs : xs.Pairwise (· < ·)) (x : Int) :
    xs.countP (fun a => decide (a = x)) = if x ∈ xs then 1 else 0 := by
  induction xs with
  | nil => rfl
  | cons y t ih =>
    rw [List.pairwise_cons] at hs
    obtain ⟨hy, ht⟩ := hs
    rw [List.countP_cons]
    by_cases hyx : y = x
    · subst hyx
      have htc : t.countP (fun a => decide (a = y)) = 0 := by
        rw [List.countP_eq_zero]
        intro b hb
        simp only [decide_eq_true_eq]
        have := hy b hb
        omega
      rw [htc, if_pos (List.mem_cons_self y t)]
      simp
    · have hmm : (x ∈ y :: t) ↔ (x ∈ t) := by
        rw [List.mem_cons]
        constructor
        · rintro (rfl | h2)
          · exact absurd rfl hyx
          · exact h2
        · exact Or.inr
      rw [ih ht]
      by_cases hmem : x ∈ t
      · rw [if_pos hmem, if_pos (hmm.mpr hmem)]
        simp [hyx]
      · rw [if_neg hmem, if_neg (fun hc => hmem (hmm.mp hc))]
        simp [hyx]

theorem countP_le_char (xs : List Int) (hs : xs.Pairwise (· < ·)) (x : Int) :
    xs.countP (fun a => decide (a ≤ x)) =
      xs.countP (fun a => decide (a < x)) + (if x ∈ xs then 1 else 0) := by
  rw [countP_le_eq_lt_add_eq, countP_eq_of_pairwise xs hs x]

/-- In a strictly sorted list containing `x`, the element at position
`countP (· < x)` is `x` itself. -/
theorem sorted_get_countP_eq (xs : List Int) (hs : xs.Pairwise (· < ·)) (x : Int)
    (hmem : x ∈ xs) :
    ∃ hh : xs.countP (fun a => decide (a < x)) < xs.length,
      xs.get ⟨xs.countP (fun a => decide (a < x)), hh⟩ = x := by
  have hidx := countP_lt_eq_indexOf xs hs x hmem
  have hklen : xs.countP (fun a => decide (a < x)) < xs.length := by
    rw [hidx]
    exact List.indexOf_lt_length.mpr hmem
  refine ⟨hklen, ?_⟩
  have h1 : ¬ (xs.get ⟨xs.countP (fun a => decide (a < x)), hklen⟩ < x) := by
    rw [get_lt_iff_lt_countP xs hs x _ hklen]
    omega
  have h2 : ¬ (x < xs.get ⟨xs.countP (fun a => decide (a < x)), hklen⟩) := by
    intro hcon
    obtain ⟨j, hgj⟩ := List.mem_iff_get.mp hmem
    rcases lt_trichotomy (j : Nat) (xs.countP (fun a => decide (a < x))) with
      hc | hc | hc
    · have : xs.get j < x := by
        rw [get_lt_iff_lt_countP xs hs x j j.isLt]
        exact hc
      omega
    · have : xs.get j = xs.get ⟨xs.countP (fun a => decide (a < x)), hklen⟩ := by
        congr 1
        exact Fin.ext hc
      rw [this] at hgj
      omega
    · have hjlt : ¬ (xs.get j < x) := by
        rw [get_lt_iff_lt_countP xs hs x j j.isLt]
        omega
      have hles : xs.get ⟨xs.countP (fun a => decide (a < x)), hklen⟩ < xs.get j :=
        List.pairwise_iff_get.mp hs ⟨_, hklen⟩ j hc
      omega
  omega

theorem entryCmpValue_num (e : Entry) (x : Int)
    (he : e.value = JSVal.num (numOf e.value)) :
    (entryCmpValue e (JSVal.num x) < 0 ↔ numOf e.value < x) ∧
    (entryCmpValue e (JSVal.num x) = 0 ↔ numOf e.value = x) := by
  obtain ⟨n, hn⟩ : ∃ n, e.value = JSVal.num n := ⟨numOf e.value, he⟩
  rw [entryCmpValue, hn, Comparator_num_num]
  show ((if n = x then 0 else if n > x then (1 : Int) else -1) < 0 ↔ n < x) ∧
    ((if n = x then 0 else if n > x then (1 : Int) else -1) = 0 ↔ n = x)
  rcases lt_trichotomy n x with h | h | h
  · rw [if_neg (ne_of_lt h), if_neg (by omega)]
    constructor
    · exact ⟨fun _ => h, fun _ => by norm_num⟩
    · exact ⟨fun hc => by norm_num at hc, fun hc => absurd hc (ne_of_lt h)⟩
  · rw [if_pos h]
    constructor
    · exact ⟨fun hc => by norm_num at hc, fun hc => absurd hc (by omega)⟩
    · exact ⟨fun _ => h, fun _ => rfl⟩
  · rw [if_neg (ne_of_gt h), if_pos (by omega)]
    constructor
    · exact ⟨fun hc => by norm_num at hc, fun hc => absurd hc (by omega)⟩
    · exact ⟨fun hc => by norm_num at hc, fun hc => absurd hc (ne_of_gt h)⟩

theorem binarySearch_entries_spec (es : List Entry) (x : Int)
    (hnum : ∀ e ∈ es, e.value = JSVal.num (numOf e.value))
    (hpw : (es.map (fun e => numOf e.value)).Pairwise (· < ·)) :
    binarySearch entryTruthy es (JSVal.num x) entryCmpValue =
      (if x ∈ es.map (fun e => numOf e.value) then ((es.countP (fun e => decide (numOf e.value < x)) : Nat) : Rat)
      else if es.countP (fun e => decide (numOf e.value < x)) = 0 then -1
      else if es.countP (fun e => decide (numOf e.value < x)) = es.length then (es.length : Rat)
      else ((es.countP (fun e => decide (numOf e.value < x)) : Nat) : Rat) - 1/2) := by
  have hKle : es.countP (fun e => decide (numOf e.value < x)) ≤ es.length := List.countP_le_length _
  have hcnt : (es.map (fun e => numOf e.value)).countP (fun a => decide (a < x)) =
      es.countP (fun e => decide (numOf e.value < x)) := by
    rw [List.countP_map]
    rfl
  have hlt : ∀ (i : Nat) (h : i < es.length),
      entryCmpValue (es.get ⟨i, h⟩) (JSVal.num x) < 0 ↔ i < es.countP (fun e => decide (numOf e.value < x)) := by
    intro i h
    rw [(entryCmpValue_num _ x (hnum _ (es.get_mem i h))).1]
    have hvals := get_lt_iff_lt_countP (es.map (fun e => numOf e.value)) hpw x i
      (by simpa using h)
    have hget : (es.map (fun e => numOf e.value)).get ⟨i, by simpa using h⟩ =
        numOf (es.get ⟨i, h⟩).value := by
      simp
    rw [hget, hcnt] at hvals
    exact hvals
  have hspec := binarySearch_spec entryTruthy es (JSVal.num x) entryCmpValue _ hKle hlt
  rw [hspec]
  by_cases hmem : x ∈ es.map (fun e => numOf e.value)
  · obtain ⟨hhv, hvv⟩ :=
      sorted_get_countP_eq (es.map (fun e => numOf e.value)) hpw x hmem
    have hh2 : es.countP (fun e => decide (numOf e.value < x)) < es.length := by
      rw [← hcnt]
      simpa using hhv
    have hfin : (⟨(es.map (fun e => numOf e.value)).countP (fun a => decide (a < x)),
        hhv⟩ : Fin (es.map (fun e => numOf e.value)).length) =
        ⟨es.countP (fun e => decide (numOf e.value < x)), by simpa using hh2⟩ := Fin.ext hcnt
    rw [hfin] at hvv
    have hgv : numOf (es.get ⟨es.countP (fun e => decide (numOf e.value < x)), hh2⟩).value = x := by
      simpa using hvv
    rw [dif_pos ⟨hh2, rfl, ((entryCmpValue_num _ x (hnum _ (es.get_mem _ hh2))).2).mpr hgv⟩,
      if_pos hmem]
  · have hc1 : ¬ ∃ hh : es.countP (fun e => decide (numOf e.value < x)) < es.length,
        entryTruthy (es.get ⟨es.countP (fun e => decide (numOf e.value < x)), hh⟩) = true ∧
        entryCmpValue (es.get ⟨es.countP (fun e => decide (numOf e.value < x)), hh⟩) (JSVal.num x) = 0 := by
      rintro ⟨hh, -, hcmp⟩
      have hgv := ((entryCmpValue_num _ x (hnum _ (es.get_mem _ hh))).2).mp hcmp
      exact hmem (List.mem_map.mpr ⟨es.get ⟨es.countP (fun e => decide (numOf e.value < x)), hh⟩, es.get_mem _ hh, hgv⟩)
    rw [dif_neg hc1, if_neg hmem]

theorem exactIndexHit_nat (es : List Entry) (k : Nat) (h : k < es.length) :
    exactIndexHit es ((k : Nat) : Rat) = true := by
  rw [exactIndexHit]
  refine decide_eq_true ⟨?_, ?_, ?_⟩
  · rw [Int.floor_natCast]
    norm_cast
  · exact Nat.cast_nonneg k
  · exact_mod_cast h

theorem exactIndexHit_neg_one (es : List Entry) :
    exactIndexHit es (-1) = false := by
  rw [exactIndexHit]
  refine decide_eq_false ?_
  rintro ⟨-, h2, -⟩
  norm_num at h2

theorem exactIndexHit_len (es : List Entry) :
    exactIndexHit es ((es.length : Nat) : Rat) = false := by
  rw [exactIndexHit]
  refine decide_eq_false ?_
  rintro ⟨-, -, h3⟩
  exact absurd h3 (lt_irrefl _)

theorem exactIndexHit_half (es : List Entry) (k : Nat) (hk : k ≠ 0) :
    exactIndexHit es ((k : Rat) - 1/2) = false := by
  rw [exactIndexHit]
  refine decide_eq_false ?_
  rintro ⟨h1, -, -⟩
  have hfl : ⌊(k : Rat) - 1/2⌋ = (k : Int) - 1 := by
    rw [Int.floor_eq_iff]
    constructor
    · push_cast
      linarith
    · push_cast
      linarith
  rw [hfl] at h1
  have h4 : ((k : Int) - 1 : Int) = ((k : Int) - 1) := rfl
  have h5 : (((k : Int) - 1 : Int) : Rat) = (k : Rat) - 1 := by push_cast; ring
  rw [h5] at h1
  norm_num at h1

theorem ratSliceIdx_nat (k : Nat) : ratSliceIdx ((k : Nat) : Rat) = k := by
  rw [ratSliceIdx]
  by_cases h : k = 0
  · subst h
    norm_num
  · rw [if_neg (by
      intro hc
      exact h (by exact_mod_cast le_antisymm hc (Nat.cast_nonneg k)))]
    rw [Int.floor_natCast]
    simp

theorem ratSliceIdx_len_half (k : Nat) : ratSliceIdx ((k : Rat) + 1/2) = k := by
  rw [ratSliceIdx, if_neg (by
    intro hc
    have h0 : (0:Rat) ≤ (k : Rat) := Nat.cast_nonneg k
    linarith)]
  have hfl : ⌊(k : Rat) + 1/2⌋ = (k : Int) := by
    rw [Int.floor_eq_iff]
    constructor
    · push_cast
      linarith
    · push_cast
      linarith
  rw [hfl]
  simp

theorem ratSliceIdx_nat_add_one (k : Nat) : ratSliceIdx ((k : Rat) + 1) = k + 1 := by
  rw [ratSliceIdx, if_neg (by
    intro hc
    have h0 : (0:Rat) ≤ (k : Rat) := Nat.cast_nonneg k
    linarith)]
  have hfl : ⌊(k : Rat) + 1⌋ = (k : Int) + 1 := by
    rw [Int.floor_eq_iff]
    constructor
    · push_cast
      linarith
    · push_cast
      linarith
  rw [hfl]
  omega

theorem matchAfter_start (es : List Entry) (x : Int)
    (hnum : ∀ e ∈ es, e.value = JSVal.num (numOf e.value))
    (hpw : (es.map (fun e => numOf e.value)).Pairwise (· < ·)) :
    ratSliceIdx (max 0 (matchAfterIndex es (JSVal.num x))) = es.countP (fun e => decide (numOf e.value < x)) := by
  have hspec := binarySearch_entries_spec es x hnum hpw
  rw [matchAfterIndex, hspec]
  by_cases hmem : x ∈ es.map (fun e => numOf e.value)
  · rw [if_pos hmem]
    obtain ⟨hhv, -⟩ :=
      sorted_get_countP_eq (es.map (fun e => numOf e.value)) hpw x hmem
    have hcnt : (es.map (fun e => numOf e.value)).countP
        (fun a => decide (a < x)) = es.countP (fun e => decide (numOf e.value < x)) := by
      rw [List.countP_map]
      rfl
    have hh2 : es.countP (fun e => decide (numOf e.value < x)) < es.length := by
      rw [← hcnt]
      simpa using hhv
    rw [exactIndexHit_nat es _ hh2, if_pos rfl,
      max_eq_right (Nat.cast_nonneg _)]
    exact ratSliceIdx_nat _
  · rw [if_neg hmem]
    by_cases hK0 : es.countP (fun e => decide (numOf e.value < x)) = 0
    · rw [if_pos hK0, exactIndexHit_neg_one es, if_neg (by simp)]
      rw [show max (0:Rat) (-1 + 1/2) = 0 from by norm_num]
      rw [hK0]
      norm_num [ratSliceIdx]
    · by_cases hKlen : es.countP (fun e => decide (numOf e.value < x)) = es.length
      · rw [if_neg hK0, if_pos hKlen, exactIndexHit_len es, if_neg (by simp)]
        rw [max_eq_right (by positivity), ratSliceIdx_len_half es.length, hKlen]
      · rw [if_neg hK0, if_neg hKlen, exactIndexHit_half es _ hK0, if_neg (by simp)]
        rw [show ((es.countP (fun e => decide (numOf e.value < x)) : Rat) - 1/2 + 1/2) =
          ((es.countP (fun e => decide (numOf e.value < x)) : Nat) : Rat) from by ring]
        rw [max_eq_right (Nat.cast_nonneg _)]
        exact ratSliceIdx_nat _

theorem matchAfter_end (es : List Entry) (x : Int)
    (hnum : ∀ e ∈ es, e.value = JSVal.num (numOf e.value))
    (hpw : (es.map (fun e => numOf e.value)).Pairwise (· < ·)) :
    ratSliceIdx (matchAfterIndex es (JSVal.num x) +
      (if exactIndexHit es (binarySearch entryTruthy es (JSVal.num x) entryCmpValue)
        then (1 : Rat) else 0)) =
      es.countP (fun e => decide (numOf e.value ≤ x)) := by
  have hspec := binarySearch_entries_spec es x hnum hpw
  have hcnt : (es.map (fun e => numOf e.value)).countP
      (fun a => decide (a < x)) = es.countP (fun e => decide (numOf e.value < x)) := by
    rw [List.countP_map]
    rfl
  have hle : es.countP (fun e => decide (numOf e.value ≤ x)) =
      es.countP (fun e => decide (numOf e.value < x)) + (if x ∈ es.map (fun e => numOf e.value) then 1 else 0) := by
    have h1 : es.countP (fun e => decide (numOf e.value ≤ x)) =
        (es.map (fun e => numOf e.value)).countP (fun a => decide (a ≤ x)) := by
      rw [List.countP_map]
      rfl
    rw [h1, countP_le_char _ hpw x, hcnt]
  rw [hle, matchAfterIndex, hspec]
  by_cases hmem : x ∈ es.map (fun e => numOf e.value)
  · rw [if_pos hmem]
    obtain ⟨hhv, -⟩ :=
      sorted_get_countP_eq (es.map (fun e => numOf e.value)) hpw x hmem
    have hh2 : es.countP (fun e => decide (numOf e.value < x)) < es.length := by
      rw [← hcnt]
      simpa using hhv
    rw [exactIndexHit_nat es _ hh2, if_pos rfl, if_pos rfl, if_pos hmem]
    rw [ratSliceIdx_nat_add_one]
  · rw [if_neg hmem, if_neg hmem, Nat.add_zero]
    by_cases hK0 : es.countP (fun e => decide (numOf e.value < x)) = 0
    · rw [if_pos hK0, exactIndexHit_neg_one es, if_neg (by simp), if_neg (by simp)]
      rw [hK0]
      norm_num [ratSliceIdx]
    · by_cases hKlen : es.countP (fun e => decide (numOf e.value < x)) = es.length
      · rw [if_neg hK0, if_pos hKlen, exactIndexHit_len es, if_neg (by simp),
          if_neg (by simp)]
        rw [show ((es.length : Rat) + 1/2 + 0) =
          ((es.length : Rat) + 1/2) from by ring]
        rw [ratSliceIdx_len_half es.length, hKlen]
      · rw [if_neg hK0, if_neg hKlen, exactIndexHit_half es _ hK0,
          if_neg (by simp), if_neg (by simp)]
        rw [show (((es.countP (fun e => decide (numOf e.value < x)) : Nat) : Rat) - 1/2 + 1/2 + 0) =
          ((es.countP (fun e => decide (numOf e.value < x)) : Nat) : Rat) from by ring]
        exact ratSliceIdx_nat _

theorem StructLevel_single_facts (c : String) (es : List Entry) (t : Int)
    (hS : StructLevel [c] es t) :
    (es.map (fun e => numOf e.value)).Pairwise (· < ·) ∧
    (∀ e ∈ es, e.value = JSVal.num (numOf e.value)) ∧
    (∀ e ∈ es, leafPred c e) := by
  obtain ⟨hstr, -⟩ := hS
  obtain ⟨hnumv, hchain, -⟩ := EntriesStruct_values (leafPred c) none 0 es hstr
  refine ⟨?_, hnumv, EntriesStruct_forall (leafPred c) none 0 es hstr⟩
  rw [← List.chain'_iff_pairwise]
  exact (List.chain'_map _).mpr hchain

/-- A contiguous `slice` whose bounds isolate exactly the positions
satisfying a predicate equals the filter by that predicate. -/
theorem drop_take_eq_filter {α : Type} (p : α → Bool) :
    ∀ (es : List α) (bIdx eIdx : Nat),
      (∀ (i : Nat) (h : i < es.length),
        (p (es.get ⟨i, h⟩) = true ↔ (bIdx ≤ i ∧ i < eIdx))) →
      (es.take eIdx).drop bIdx = es.filter p := by
  intro es
  induction es with
  | nil =>
    intro bIdx eIdx _
    simp
  | cons y rest ih =>
    intro bIdx eIdx hodd
    cases eIdx with
    | zero =>
      have hall : (y :: rest).filter p = [] := by
        rw [List.filter_eq_nil_iff]
        intro q hq
        obtain ⟨i, hget⟩ := List.mem_iff_get.mp hq
        intro hp
        rw [← hget] at hp
        exact absurd ((hodd i i.isLt).mp hp).2 (by omega)
      rw [hall]
      simp
    | succ e2 =>
      cases bIdx with
      | zero =>
        have hy : p y = true :=
          (hodd 0 (by simp)).mpr ⟨Nat.zero_le 0, Nat.succ_pos e2⟩
        rw [List.take_succ_cons, List.drop_zero, List.filter_cons, if_pos hy]
        have hrest := ih 0 e2 (fun i h => by
          have h2 : (p (rest.get ⟨i, h⟩) = true) ↔
              (0 ≤ i + 1 ∧ i + 1 < e2 + 1) :=
            hodd (i + 1) (Nat.succ_lt_succ h)
          rw [h2]
          omega)
        have hrest2 : rest.take e2 = rest.filter p := by
          rw [← hrest, List.drop_zero]
        rw [hrest2]
      | succ b2 =>
        have hy : p y = false := by
          cases hc : p y with
          | false => rfl
          | true =>
            have := (hodd 0 (by simp)).mp hc
            omega
        rw [List.take_succ_cons, List.drop_succ_cons, List.filter_cons,
          if_neg (by simp [hy])]
        exact ih b2 e2 (fun i h => by
          have h2 : (p (rest.get ⟨i, h⟩) = true) ↔
              (b2 + 1 ≤ i + 1 ∧ i + 1 < e2 + 1) :=
            hodd (i + 1) (Nat.succ_lt_succ h)
          rw [h2]
          omega)

/-- Flattening the value-filtered leaf entries of a well-formed level
yields the value-filtered stored rows, in order. -/
theorem flatten_filter_leafRows (c : String) (a b : Int) :
    ∀ es : List Entry, (∀ e ∈ es, leafPred c e) →
      ((es.filter (fun e => decide (a ≤ numOf e.value) &&
          decide (numOf e.value ≤ b))).map Entry.leafRows).flatten =
        (entriesLeafRows es).filter (fun row =>
          decide (a ≤ numOf (row.get c)) && decide (numOf (row.get c) ≤ b)) := by
  intro es
  induction es with
  | nil => intro _; rfl
  | cons e rest ih =>
    intro hall
    have hpe := hall e (List.mem_cons_self e rest)
    have hrest := ih (fun e2 he2 => hall e2 (List.mem_cons_of_mem e he2))
    cases e with
    | node v s st ces tt => exact absurd hpe (by simp [leafPred])
    | leaf v s st rs =>
      cases v with
      | null => exact absurd hpe (by simp [leafPred])
      | undef => exact absurd hpe (by simp [leafPred])
      | num n =>
        have hvals : ∀ r ∈ rs, r.get c = JSVal.num n := by
          have hpe2 : s = (rs.length : Int) ∧ rs ≠ [] ∧
              ∀ r ∈ rs, r.get c = JSVal.num n := hpe
          exact hpe2.2.2
        have hlr : entriesLeafRows (Entry.leaf (JSVal.num n) s st rs :: rest) =
            rs ++ entriesLeafRows rest := rfl
        rw [hlr, List.filter_append, List.filter_cons]
        simp only [show ((fun e => decide (a ≤ numOf e.value) &&
          decide (numOf e.value ≤ b)) (Entry.leaf (JSVal.num n) s st rs)) =
          (decide (a ≤ n) && decide (n ≤ b)) from rfl]
        by_cases hp : (decide (a ≤ n) && decide (n ≤ b)) = true
        · rw [if_pos hp, List.map_cons, List.flatten_cons, hrest]
          rw [show Entry.leafRows (Entry.leaf (JSVal.num n) s st rs) = rs from rfl]
          congr 1
          symm
          rw [List.filter_eq_self]
          intro r hr
          have hrv : r.get c = JSVal.num n := hvals r hr
          show (decide (a ≤ numOf (r.get c)) &&
            decide (numOf (r.get c) ≤ b)) = true
          rw [hrv]
          exact hp
        · rw [if_neg hp, hrest]
          have hnil : rs.filter (fun row => decide (a ≤ numOf (row.get c)) &&
              decide (numOf (row.get c) ≤ b)) = [] := by
            rw [List.filter_eq_nil_iff]
            intro r hr
            have hrv : r.get c = JSVal.num n := hvals r hr
            intro hc2
            rw [hrv] at hc2
            exact hp hc2
          rw [hnil, List.nil_append]

/-- The index path of a `between` query on a single-column index returns
exactly the stored rows whose value lies in the closed interval, in
index order. -/
theorem index_between_exact (c : String) (es : List Entry) (t : Int) (a b : Int)
    (hS : StructLevel [c] es t) :
    reduceBetween es (JSVal.num a) (JSVal.num b) false =
      (entriesLeafRows es).filter (fun row =>
        decide (a ≤ numOf (row.get c)) && decide (numOf (row.get c) ≤ b)) := by
  obtain ⟨hpw, hnum, hP⟩ := StructLevel_single_facts c es t hS
  have hstart := matchAfter_start es a hnum hpw
  have hend := matchAfter_end es b hnum hpw
  have hodd : ∀ (i : Nat) (h : i < es.length),
      ((fun e => decide (a ≤ numOf e.value) && decide (numOf e.value ≤ b))
          (es.get ⟨i, h⟩) = true ↔
        (es.countP (fun e => decide (numOf e.value < a)) ≤ i ∧
          i < es.countP (fun e => decide (numOf e.value ≤ b)))) := by
    intro i h
    have hga := get_lt_iff_lt_countP (es.map fun e => numOf e.value) hpw a i
      (by simpa using h)
    have hgb := get_le_iff_lt_countP (es.map fun e => numOf e.value) hpw b i
      (by simpa using h)
    have hgeti : (es.map fun e => numOf e.value).get ⟨i, by simpa using h⟩ =
        numOf (es.get ⟨i, h⟩).value := by
      simp
    rw [hgeti] at hga hgb
    have hca : (es.map fun e => numOf e.value).countP (fun q => decide (q < a)) =
        es.countP (fun e => decide (numOf e.value < a)) := by
      rw [List.countP_map]
      rfl
    have hcb : (es.map fun e => numOf e.value).countP (fun q => decide (q ≤ b)) =
        es.countP (fun e => decide (numOf e.value ≤ b)) := by
      rw [List.countP_map]
      rfl
    rw [hca] at hga
    rw [hcb] at hgb
    constructor
    · intro hp
      rw [Bool.and_eq_true, decide_eq_true_eq, decide_eq_true_eq] at hp
      refine ⟨?_, hgb.mp hp.2⟩
      have hnlt : ¬ (numOf (es.get ⟨i, h⟩).value < a) := by omega
      rw [hga] at hnlt
      omega
    · rintro ⟨h1, h2⟩
      rw [Bool.and_eq_true, decide_eq_true_eq, decide_eq_true_eq]
      have hnlt : ¬ (i < es.countP (fun e => decide (numOf e.value < a))) := by
        omega
      rw [← hga] at hnlt
      exact ⟨by omega, hgb.mpr h2⟩
  have hfilter := drop_take_eq_filter
    (fun e => decide (a ≤ numOf e.value) && decide (numOf e.value ≤ b)) es
    (es.countP (fun e => decide (numOf e.value < a)))
    (es.countP (fun e => decide (numOf e.value ≤ b))) hodd
  rw [reduceBetween]
  simp only [Bool.not_false, Bool.and_true]
  rw [jsSliceEntries, hstart, hend, hfilter]
  exact flatten_filter_leafRows c a b es hP

/-- **C6 (amended).**  On a live table whose rows hold numeric values in
column `c`, `findWhere(c, 'between', Range(a, b)).getRows()` selects
exactly the rows whose value `v` in `c` satisfies `a ≤ v ≤ b`, whichever
access path answers the query: the full scan (all rows filtered by the
residual `Range.include` test) returns exactly the filtered row vector,
and a single-column index on `c` (the two `matchAfter` probes of
`binarySearch`, the `slice`, and the flattening pass of `reduce`)
returns the same rows as a multiset of *observations*: identity and
`c`-value agree with the row vector up to permutation, via the index
invariant `hK` of C1.  The agreement cannot be strengthened to the
original claim's "same multiset of cell-value mappings": an index whose
columns miss the changed set is left untouched by `update`, so its
leaves keep the superseded row objects, and the index path then returns
stale values in the non-indexed columns — see the counterexample
below. -/
theorem findWhere_between_exact (rows : List Row) (c : String)
    (es : List Entry) (t : Int) (a b : Int)
    (hS : StructLevel [c] es t)
    (hnum : ∀ r ∈ rows, r.get c = JSVal.num (numOf (r.get c)))
    (hK : List.Perm ((entriesLeafRows es).map (rowKey [c]))
      (rows.map (rowKey [c]))) :
    scanBetween rows c a b = rows.filter (fun row =>
      decide (a ≤ numOf (row.get c)) && decide (numOf (row.get c) ≤ b)) ∧
    List.Perm
      ((reduceBetween es (JSVal.num a) (JSVal.num b) false).map (rowKey [c]))
      ((rows.filter (fun row => decide (a ≤ numOf (row.get c)) &&
        decide (numOf (row.get c) ≤ b))).map (rowKey [c])) := by
  have hscan : scanBetween rows c a b = rows.filter (fun row =>
      decide (a ≤ numOf (row.get c)) && decide (numOf (row.get c) ≤ b)) := by
    rw [scanBetween]
    refine List.filter_congr (fun row hrow => ?_)
    obtain ⟨n, hn⟩ : ∃ n, row.get c = JSVal.num n :=
      ⟨numOf (row.get c), hnum row hrow⟩
    rw [hn]
    rfl
  refine ⟨hscan, ?_⟩
  rw [index_between_exact c es t a b hS]
  have hfilt := hK.filter (fun k : Nat × List JSVal =>
    match k.2 with
    | [v] => decide (a ≤ numOf v) && decide (numOf v ≤ b)
    | _ => false)
  rw [List.filter_map, List.filter_map] at hfilt
  exact hfilt

/-- Witness for C6 on a three-row table with values 1, 3, 5 in `c`,
querying `between Range(2, 4)`: both paths return exactly the row with
value 3. -/
theorem findWhere_between_exact_witness :
    scanBetween [⟨0, [("c", JSVal.num 1)]⟩, ⟨1, [("c", JSVal.num 3)]⟩, ⟨2, [("c", JSVal.num 5)]⟩] "c" 2 4 =
      List.filter (fun row => decide ((2 : Int) ≤ numOf (row.get "c")) &&
        decide (numOf (row.get "c") ≤ (4 : Int))) [⟨0, [("c", JSVal.num 1)]⟩, ⟨1, [("c", JSVal.num 3)]⟩, ⟨2, [("c", JSVal.num 5)]⟩] ∧
    List.Perm
      ((reduceBetween [Entry.leaf (JSVal.num 1) 1 1 [⟨0, [("c", JSVal.num 1)]⟩],
      Entry.leaf (JSVal.num 3) 1 2 [⟨1, [("c", JSVal.num 3)]⟩],
      Entry.leaf (JSVal.num 5) 1 3 [⟨2, [("c", JSVal.num 5)]⟩]] (JSVal.num 2) (JSVal.num 4) false).map (rowKey ["c"]))
      ((List.filter (fun row => decide ((2 : Int) ≤ numOf (row.get "c")) &&
        decide (numOf (row.get "c") ≤ (4 : Int))) [⟨0, [("c", JSVal.num 1)]⟩, ⟨1, [("c", JSVal.num 3)]⟩, ⟨2, [("c", JSVal.num 5)]⟩]).map (rowKey ["c"])) := by
  refine findWhere_between_exact [⟨0, [("c", JSVal.num 1)]⟩, ⟨1, [("c", JSVal.num 3)]⟩, ⟨2, [("c", JSVal.num 5)]⟩] "c" [Entry.leaf (JSVal.num 1) 1 1 [⟨0, [("c", JSVal.num 1)]⟩],
      Entry.leaf (JSVal.num 3) 1 2 [⟨1, [("c", JSVal.num 3)]⟩],
      Entry.leaf (JSVal.num 5) 1 3 [⟨2, [("c", JSVal.num 5)]⟩]] 3 2 4 ?_ (by decide) ?_
  · refine ⟨?_, by decide⟩
    refine ⟨?_, 1, rfl, ?_, by decide,
      ?_, 3, rfl, ?_, by decide, ?_, 5, rfl, ?_, by decide, trivial⟩
    · simp only [leafPred]
      decide
    · intro pv h
      simp at h
    · simp only [leafPred]
      decide
    · intro pv h
      injection h with h2
      omega
    · simp only [leafPred]
      decide
    · intro pv h
      injection h with h2
      omega
  · exact List.Perm.refl _

/-- **C6 counterexample.**  The original claim's "same multiset of
cell-value mappings" is false of the program.  On the table
`new DataTable(["c", "d"])` with an index on `["c"]`, insert
`{c: 1, d: 10}` and then update that row to `{c: 1, d: 20}`: only `d`
changes, the index's columns miss the changed set, so `update` leaves the
index alone and its leaf keeps the superseded row object with `d = 10`,
while the canonical row vector now holds `d = 20`.  A subsequent
`findWhere("c", 'between', Range(0, 5)).getRows()` then returns
`d = 10` through the index path but `d = 20` through the full scan: the
two paths disagree as multisets of cell-value mappings (here already on
the single returned row's `d` value). -/
theorem findWhere_between_stale_counterexample :
    DataTableNew ["c", "d"] 0 = Except.ok
      { columnNames := ["c", "d"], rows := [], indicies := [], paranoia := false,
        verbose := false, active := true, nextId := 0, tableTag := 0 } ∧
    TableState.indexCreate
      { columnNames := ["c", "d"], rows := [], indicies := [], paranoia := false,
        verbose := false, active := true, nextId := 0, tableTag := 0 } ["c"] =
      Except.ok (⟨["c"], [], 0⟩,
        { columnNames := ["c", "d"], rows := [], indicies := [⟨["c"], [], 0⟩],
          paranoia := false, verbose := false, active := true, nextId := 0,
          tableTag := 0 }) ∧
    TableState.insert
      { columnNames := ["c", "d"], rows := [], indicies := [⟨["c"], [], 0⟩],
        paranoia := false, verbose := false, active := true, nextId := 0,
        tableTag := 0 }
      (BatchArg.arr [⟨none, [("c", JSVal.num 1), ("d", JSVal.num 10)]⟩]) =
      Except.ok
        ([⟨some ⟨0, 0⟩, [("c", JSVal.num 1), ("d", JSVal.num 10)]⟩],
         { columnNames := ["c", "d"],
           rows := [⟨0, [("c", JSVal.num 1), ("d", JSVal.num 10)]⟩],
           indicies := [⟨["c"],
             [Entry.leaf (JSVal.num 1) 1 1 [⟨0, [("c", JSVal.num 1), ("d", JSVal.num 10)]⟩]], 1⟩],
           paranoia := false, verbose := false, active := true, nextId := 1,
           tableTag := 0 }) ∧
    TableState.update
      { columnNames := ["c", "d"],
        rows := [⟨0, [("c", JSVal.num 1), ("d", JSVal.num 10)]⟩],
        indicies := [⟨["c"],
          [Entry.leaf (JSVal.num 1) 1 1 [⟨0, [("c", JSVal.num 1), ("d", JSVal.num 10)]⟩]], 1⟩],
        paranoia := false, verbose := false, active := true, nextId := 1,
        tableTag := 0 }
      (BatchArg.arr [⟨some ⟨0, 0⟩, [("c", JSVal.num 1), ("d", JSVal.num 20)]⟩]) =
      Except.ok
        { columnNames := ["c", "d"],
          rows := [⟨0, [("c", JSVal.num 1), ("d", JSVal.num 20)]⟩],
          indicies := [⟨["c"],
            [Entry.leaf (JSVal.num 1) 1 1 [⟨0, [("c", JSVal.num 1), ("d", JSVal.num 10)]⟩]], 1⟩],
          paranoia := false, verbose := false, active := true, nextId := 1,
          tableTag := 0 } ∧
    scanBetween [⟨0, [("c", JSVal.num 1), ("d", JSVal.num 20)]⟩] "c" 0 5 =
      [⟨0, [("c", JSVal.num 1), ("d", JSVal.num 20)]⟩] ∧
    reduceBetween
      [Entry.leaf (JSVal.num 1) 1 1 [⟨0, [("c", JSVal.num 1), ("d", JSVal.num 10)]⟩]]
      (JSVal.num 0) (JSVal.num 5) false =
      [⟨0, [("c", JSVal.num 1), ("d", JSVal.num 10)]⟩] ∧
    (reduceBetween
      [Entry.leaf (JSVal.num 1) 1 1 [⟨0, [("c", JSVal.num 1), ("d", JSVal.num 10)]⟩]]
      (JSVal.num 0) (JSVal.num 5) false).map (fun r => r.get "d") ≠
    (scanBetween [⟨0, [("c", JSVal.num 1), ("d", JSVal.num 20)]⟩] "c" 0 5).map
      (fun r => r.get "d") := by
  have hS : StructLevel ["c"]
      [Entry.leaf (JSVal.num 1) 1 1 [⟨0, [("c", JSVal.num 1), ("d", JSVal.num 10)]⟩]] 1 := by
    refine ⟨?_, by decide⟩
    refine ⟨?_, 1, rfl, ?_, by decide, trivial⟩
    · simp only [leafPred]
      decide
    · intro pv h
      simp at h
  have hred := index_between_exact "c"
    [Entry.leaf (JSVal.num 1) 1 1 [⟨0, [("c", JSVal.num 1), ("d", JSVal.num 10)]⟩]] 1 0 5 hS
  refine ⟨rfl, rfl, rfl, rfl, rfl, ?_, ?_⟩
  · rw [hred]
    decide
  · rw [hred]
    decide

end DataTable
